import Mathlib

/-!
Verification of the adaptive radix tree (ART) node layer: node variants
Leaf/Node4/Node16/Node48/Node256, child insertion with promotion, child removal
with demotion and single-child collapse, prefix bookkeeping, the tree-key codec,
and the minimum/maximum descent helpers.
-/

set_option maxHeartbeats 1000000
set_option maxRecDepth 100000

namespace Adaptive

/-- Modelled from the spec: the capacity of the explicit compressed-prefix buffer
(`MaxPrefixLen`).  Its defining declaration is not among the provided source
files; the spec fixes only that it is a constant bound, and the customary ART
value 10 is used here. -/
def maxPrefixLen : Nat := 10

/-- Go `copy(dst, src)` on lists: overwrite the first
`min dst.length src.length` entries of `dst` with those of `src`; the result
keeps `dst`'s length. -/
def goCopy (dst src : List α) : List α :=
  src.take dst.length ++ dst.drop src.length

/-- Go `copy(dst[i:], src)`: overwrite entries of `dst` from position `i` on. -/
def goCopyAt (dst : List α) (i : Nat) (src : List α) : List α :=
  dst.take i ++ goCopy (dst.drop i) src

/-- A Go scan loop `for idx = lo; idx < lo+fuel; idx++ { if p idx { return idx } }`:
first index in `[lo, lo+fuel)` satisfying `p`, else `lo+fuel`. -/
def scanUpFrom (p : Nat → Bool) : Nat → Nat → Nat
  | lo, 0 => lo
  | lo, fuel+1 => if p lo then lo else scanUpFrom p (lo+1) fuel

/-- First index in `[0, bound)` satisfying `p`, else `bound` (ascending scan). -/
def scanUp (bound : Nat) (p : Nat → Bool) : Nat :=
  scanUpFrom p 0 bound

/-- A Go scan loop `for idx >= 0 && !p idx { idx-- }` started at `i`: the
largest index `≤ i` satisfying `p`, or `none` when the loop runs off the low
end. -/
def scanDown (p : Nat → Bool) : Nat → Option Nat
  | 0 => if p 0 then some 0 else none
  | i+1 => if p (i+1) then some (i+1) else scanDown p i

/-- Modelled from the spec: the node variants and their fields.  The Go struct
declarations are not among the provided source files; the fields follow the
spec's data model and every use in the provided operations: a common header
(`partialLen`, a `partialBytes` buffer of capacity `maxPrefixLen`,
`numChildren`); ordered parallel `keys`/`children` arrays of capacity 4 and 16
for Node4/Node16; a 256-entry byte-to-slot index (`0` = unused, else `slot+1`)
plus a 48-capacity children array for Node48; a direct 256-entry child array
for Node256; and the stored key plus value for leaves (`keyLen` is kept equal
to `key.length`, which `makeLeaf` establishes).  A nil child pointer is
`none`.  Bytes are `Nat`s. -/
inductive ANode (T : Type) where
  | leaf (partialLen : Nat) (partialBytes : List Nat) (numChildren : Nat)
      (key : List Nat) (value : T)
  | node4 (partialLen : Nat) (partialBytes : List Nat) (numChildren : Nat)
      (keys : List Nat) (children : List (Option (ANode T)))
  | node16 (partialLen : Nat) (partialBytes : List Nat) (numChildren : Nat)
      (keys : List Nat) (children : List (Option (ANode T)))
  | node48 (partialLen : Nat) (partialBytes : List Nat) (numChildren : Nat)
      (keys : List Nat) (children : List (Option (ANode T)))
  | node256 (partialLen : Nat) (partialBytes : List Nat) (numChildren : Nat)
      (children : List (Option (ANode T)))

namespace ANode

/-- `getPartialLen` of the common header. -/
def getPartialLen : ANode T → Nat
  | leaf pl _ _ _ _ => pl
  | node4 pl _ _ _ _ => pl
  | node16 pl _ _ _ _ => pl
  | node48 pl _ _ _ _ => pl
  | node256 pl _ _ _ => pl

/-- `getPartial` of the common header (the explicit prefix buffer). -/
def getPartialBytes : ANode T → List Nat
  | leaf _ pb _ _ _ => pb
  | node4 _ pb _ _ _ => pb
  | node16 _ pb _ _ _ => pb
  | node48 _ pb _ _ _ => pb
  | node256 _ pb _ _ => pb

/-- `getNumChildren` of the common header. -/
def getNumChildren : ANode T → Nat
  | leaf _ _ nc _ _ => nc
  | node4 _ _ nc _ _ => nc
  | node16 _ _ nc _ _ => nc
  | node48 _ _ nc _ _ => nc
  | node256 _ _ nc _ => nc

/-- `setPartialLen` on the common header. -/
def setPartialLen : ANode T → Nat → ANode T
  | leaf _ pb nc k v, x => leaf x pb nc k v
  | node4 _ pb nc ks ch, x => node4 x pb nc ks ch
  | node16 _ pb nc ks ch, x => node16 x pb nc ks ch
  | node48 _ pb nc ks ch, x => node48 x pb nc ks ch
  | node256 _ pb nc ch, x => node256 x pb nc ch

/-- `setPartial` on the common header. -/
def setPartialBytes : ANode T → List Nat → ANode T
  | leaf pl _ nc k v, x => leaf pl x nc k v
  | node4 pl _ nc ks ch, x => node4 pl x nc ks ch
  | node16 pl _ nc ks ch, x => node16 pl x nc ks ch
  | node48 pl _ nc ks ch, x => node48 pl x nc ks ch
  | node256 pl _ nc ch, x => node256 pl x nc ch

/-- `setNumChildren` on the common header. -/
def setNumChildren : ANode T → Nat → ANode T
  | leaf pl pb _ k v, x => leaf pl pb x k v
  | node4 pl pb _ ks ch, x => node4 pl pb x ks ch
  | node16 pl pb _ ks ch, x => node16 pl pb x ks ch
  | node48 pl pb _ ks ch, x => node48 pl pb x ks ch
  | node256 pl pb _ ch, x => node256 pl pb x ch

/-- `isLeaf` of the node interface. -/
def isLeafNode : ANode T → Bool
  | leaf _ _ _ _ _ => true
  | _ => false

/-- The variant-specific child storage (empty for leaves). -/
def childrenOf : ANode T → List (Option (ANode T))
  | leaf _ _ _ _ _ => []
  | node4 _ _ _ _ ch => ch
  | node16 _ _ _ _ ch => ch
  | node48 _ _ _ _ ch => ch
  | node256 _ _ _ ch => ch

/-- The variant-specific key storage (empty for leaves and Node256). -/
def keysOf : ANode T → List Nat
  | leaf _ _ _ _ _ => []
  | node4 _ _ _ ks _ => ks
  | node16 _ _ _ ks _ => ks
  | node48 _ _ _ ks _ => ks
  | node256 _ _ _ _ => []

end ANode

/-- `allocNode` for an internal/leaf variant: `partial` zero-filled to
`maxPrefixLen` and `partialLen = maxPrefixLen` as the not-yet-set sentinel;
child storage zeroed/nil-filled per variant (Go zero values). -/
def allocLeaf (key : List Nat) (value : T) : ANode T :=
  ANode.leaf maxPrefixLen (List.replicate maxPrefixLen 0) 0 key value

/-- Fresh `Node4` as produced by `allocNode(node4)`. -/
def allocNode4 : ANode T :=
  ANode.node4 maxPrefixLen (List.replicate maxPrefixLen 0) 0
    (List.replicate 4 0) (List.replicate 4 none)

/-- Fresh `Node16` as produced by `allocNode(node16)`. -/
def allocNode16 : ANode T :=
  ANode.node16 maxPrefixLen (List.replicate maxPrefixLen 0) 0
    (List.replicate 16 0) (List.replicate 16 none)

/-- Fresh `Node48` as produced by `allocNode(node48)`. -/
def allocNode48 : ANode T :=
  ANode.node48 maxPrefixLen (List.replicate maxPrefixLen 0) 0
    (List.replicate 256 0) (List.replicate 48 none)

/-- Fresh `Node256` as produced by `allocNode(node256)`. -/
def allocNode256 : ANode T :=
  ANode.node256 maxPrefixLen (List.replicate maxPrefixLen 0) 0
    (List.replicate 256 none)

/-- `makeLeaf`: a leaf holding a copy of `key` (so `keyLen = key.length`) and
the value. -/
def makeLeaf (key : List Nat) (value : T) : ANode T :=
  allocLeaf key value

/-- `copyHeader(dest, src)`: set `dest`'s `numChildren` and `partialLen` to
`src`'s and overwrite the first `min(maxPrefixLen, src.partialLen)` bytes of
`dest`'s prefix buffer with `src`'s. -/
def copyHeader (dest src : ANode T) : ANode T :=
  let length := min maxPrefixLen src.getPartialLen
  ((dest.setNumChildren src.getNumChildren).setPartialLen src.getPartialLen).setPartialBytes
    (src.getPartialBytes.take length ++ dest.getPartialBytes.drop length)

/-- `checkPrefix(n, key, keyLen, depth)`: index of the first byte at which the
node's explicit prefix and `key` (read from `depth`) disagree, scanning at most
`min(min(partialLen, maxPrefixLen), keyLen-depth)` bytes; that bound when all
scanned bytes agree. -/
def checkPrefix (n : ANode T) (key : List Nat) (keyLen depth : Nat) : Nat :=
  let maxCmp := min (min n.getPartialLen maxPrefixLen) (keyLen - depth)
  scanUp maxCmp (fun idx => n.getPartialBytes.getD idx 0 ≠ key.getD (depth + idx) 0)

/-- `getTreeKey`: append the terminator byte `'$'` (0x24) to the application
key. -/
def getTreeKey (key : List Nat) : List Nat :=
  key ++ [36]

/-- `getKey`: strip the terminator byte again (empty input maps to empty). -/
def getKey (key : List Nat) : List Nat :=
  if key.length = 0 then [] else key.take (key.length - 1)

/-- The stored key of a leaf (empty for internal nodes). -/
def ANode.leafKey : ANode T → List Nat
  | .leaf _ _ _ k _ => k
  | _ => []

/-- The stored `keyLen` of a leaf; `makeLeaf` keeps it equal to the key's
length. -/
def ANode.leafKeyLen (n : ANode T) : Nat :=
  n.leafKey.length

/-- The stored value of a leaf, `none` for internal nodes. -/
def ANode.valueOf : ANode T → Option T
  | .leaf _ _ _ _ v => some v
  | _ => none

/-- `addChild256`: unconditional direct placement at index `c`. -/
def addChild256 (n : ANode T) (c : Nat) (child : ANode T) : ANode T :=
  match n with
  | .node256 pl pb nc ch => .node256 pl pb (nc + 1) (ch.set c (some child))
  | _ => n

/-- `addChild48`: place the child in the first nil slot and point the index at
it; at 48 children promote to a `Node256` (converting the byte-to-slot index
into the direct array) and re-add there.  The Go free-slot loop is unbounded;
it is rendered as a scan over the 48 slots (past slot 47 the Go code would
fault, which no in-range state reaches). -/
def addChild48 (n : ANode T) (c : Nat) (child : ANode T) : ANode T :=
  match n with
  | .node48 pl pb nc ks ch =>
    if nc < 48 then
      let pos := scanUp 48 (fun s => (ch.getD s none).isNone)
      .node48 pl pb (nc + 1) (ks.set c (pos + 1)) (ch.set pos (some child))
    else
      let ch256 := (List.range 256).map
        (fun i => if ks.getD i 0 ≠ 0 then ch.getD (ks.getD i 0 - 1) none else none)
      let n256 := ANode.node256 (allocNode256 (T := T)).getPartialLen
        (allocNode256 (T := T)).getPartialBytes 0 ch256
      addChild256 (copyHeader n256 n) c child
  | _ => n

/-- The sorted insertion point: first position among the `nc` used entries
whose key byte exceeds `c` (the `addChild4` linear scan and the `addChild16`
bitfield-and-trailing-zeros both compute this), else `nc`. -/
def insIdx (ks : List Nat) (nc c : Nat) : Nat :=
  scanUp nc (fun i => decide (c < ks.getD i 0))

/-- Shift the entries at `[idx, nc)` one place right (Go `copy` within the
array) and write `a` at `idx`. -/
def insertAtShift (l : List α) (idx nc : Nat) (a : α) : List α :=
  (goCopyAt l (idx + 1) ((l.drop idx).take (nc - idx))).set idx a

/-- One step of the `addChild16` promotion loop: point the index entry for the
`i`-th key byte at slot `i`. -/
def promote16Step (ks : List Nat) (acc : List Nat) (i : Nat) : List Nat :=
  acc.set (ks.getD i 0) (i + 1)

/-- `addChild16`: the bitfield comparison finds the first of the `numChildren`
sorted keys exceeding `c` (trailing-zero count of the masked bitfield); shift
from there and insert, or append at position `numChildren` when no stored key
exceeds `c`.  At 16 children promote to a `Node48` (children copied slotwise,
the key array turned into the 256-entry index) and re-add there. -/
def addChild16 (n : ANode T) (c : Nat) (child : ANode T) : ANode T :=
  match n with
  | .node16 pl pb nc ks ch =>
    if nc < 16 then
      let idx := insIdx ks nc c
      .node16 pl pb (nc + 1) (insertAtShift ks idx nc c)
        (insertAtShift ch idx nc (some child))
    else
      let ks48 := (List.range nc).foldl (promote16Step ks) (List.replicate 256 0)
      let ch48 := goCopy (List.replicate 48 none) (ch.take nc)
      let n48 := ANode.node48 (allocNode48 (T := T)).getPartialLen
        (allocNode48 (T := T)).getPartialBytes 0 ks48 ch48
      addChild48 (copyHeader n48 n) c child
  | _ => n

/-- `addChild4`: find the sorted insertion point among the first `numChildren`
keys, shift the tails of both parallel arrays right by one, and insert; at 4
children promote to a `Node16` (arrays copied) and re-add there. -/
def addChild4 (n : ANode T) (c : Nat) (child : ANode T) : ANode T :=
  match n with
  | .node4 pl pb nc ks ch =>
    if nc < 4 then
      let idx := insIdx ks nc c
      .node4 pl pb (nc + 1) (insertAtShift ks idx nc c)
        (insertAtShift ch idx nc (some child))
    else
      let ks16 := goCopy (List.replicate 16 0) (ks.take nc)
      let ch16 := goCopy (List.replicate 16 none) (ch.take nc)
      let n16 := ANode.node16 (allocNode16 (T := T)).getPartialLen
        (allocNode16 (T := T)).getPartialBytes 0 ks16 ch16
      addChild16 (copyHeader n16 n) c child
  | _ => n

/-- `addChild`: dispatch on the node variant.  The result is the node now held
by the caller's slot (`*ref`): the mutated node, or the promoted replacement. -/
def addChild (n : ANode T) (c : Nat) (child : ANode T) : ANode T :=
  match n with
  | .node4 _ _ _ _ _ => addChild4 n c child
  | .node16 _ _ _ _ _ => addChild16 n c child
  | .node48 _ _ _ _ _ => addChild48 n c child
  | .node256 _ _ _ _ => addChild256 n c child
  | .leaf _ _ _ _ _ => n

/-- The prefix-concatenation block of `removeChild4`'s single-child collapse:
starting from the parent's prefix count `pl` and buffer `pb`, append the
surviving discriminating byte `k0` when there is room, then as much of the
child's explicit prefix as fits; returns the mutated parent buffer and the
final count (`prefix` in the Go code). -/
def collapsePrefix (pl : Nat) (pb : List Nat) (k0 : Nat) (child : ANode T) :
    List Nat × Nat :=
  let pfx0 := pl
  let pb1 := if pfx0 < maxPrefixLen then pb.set pfx0 k0 else pb
  let pfx1 := if pfx0 < maxPrefixLen then pfx0 + 1 else pfx0
  let sub := min child.getPartialLen (maxPrefixLen - pfx1)
  let pb2 := if pfx1 < maxPrefixLen
    then goCopyAt pb1 pfx1 (child.getPartialBytes.take sub) else pb1
  let pfx2 := if pfx1 < maxPrefixLen then pfx1 + sub else pfx1
  (pb2, pfx2)

/-- `removeChild4`: the Go code locates `pos` as the slot whose pointer equals
the caller's `l`; here the resolved slot index is the `pos` argument.  Shift
both arrays left past `pos`; when exactly one child remains and it is not a
leaf, concatenate the parent's prefix, the surviving discriminating byte and
the child's prefix into the child's prefix buffer (bounded by `maxPrefixLen`)
and replace the parent by the child.  Returns the node now held by the
caller's slot. -/
def removeChild4 (n : ANode T) (pos : Nat) : ANode T :=
  match n with
  | .node4 pl pb nc ks ch =>
    let ks1 := goCopyAt ks pos (ks.drop (pos + 1))
    let ch1 := goCopyAt ch pos (ch.drop (pos + 1))
    let nc1 := nc - 1
    if nc1 = 1 then
      match ch1.getD 0 none with
      | none => .node4 pl pb nc1 ks1 ch1
      | some child =>
        if child.isLeafNode then child
        else
          let st := collapsePrefix pl pb (ks1.getD 0 0) child
          let child1 := child.setPartialBytes
            (goCopy child.getPartialBytes (st.1.take (min st.2 maxPrefixLen)))
          child1.setPartialLen (child.getPartialLen + pl + 1)
    else .node4 pl pb nc1 ks1 ch1
  | _ => n

/-- `removeChild16`: shift both arrays left past the resolved slot `pos`; at
exactly 3 remaining children demote to a `Node4` (header copied, the first four
key/child entries copied). -/
def removeChild16 (n : ANode T) (pos : Nat) : ANode T :=
  match n with
  | .node16 pl pb nc ks ch =>
    let ks1 := goCopyAt ks pos (ks.drop (pos + 1))
    let ch1 := goCopyAt ch pos (ch.drop (pos + 1))
    let nc1 := nc - 1
    if nc1 = 3 then
      let hdr := copyHeader (allocNode4 (T := T)) (ANode.node16 pl pb nc1 ks1 ch1)
      ANode.node4 hdr.getPartialLen hdr.getPartialBytes hdr.getNumChildren
        (goCopy (List.replicate 4 0) (ks1.take 4))
        (goCopy (List.replicate 4 none) (ch1.take 4))
    else .node16 pl pb nc1 ks1 ch1
  | _ => n

/-- One step of the `removeChild48` demotion loop: on an occupied index entry
`i`, append byte `i` and its child at the packing counter. -/
def demote48Step (ks1 : List Nat) (ch1 : List (Option (ANode T)))
    (st : Nat × List Nat × List (Option (ANode T))) (i : Nat) :
    Nat × List Nat × List (Option (ANode T)) :=
  let p := ks1.getD i 0
  if p ≠ 0 then (st.1 + 1, st.2.1.set st.1 i, st.2.2.set st.1 (ch1.getD (p - 1) none))
  else st

/-- One step of the `removeChild256` demotion loop: on an occupied direct slot
`i`, pack its child at the counter and point the index entry `i` at it. -/
def demote256Step (ch1 : List (Option (ANode T)))
    (st : Nat × List Nat × List (Option (ANode T))) (i : Nat) :
    Nat × List Nat × List (Option (ANode T)) :=
  match ch1.getD i none with
  | some x => (st.1 + 1, st.2.1.set i (st.1 + 1), st.2.2.set st.1 (some x))
  | none => st

/-- `removeChild48`: clear the index entry for byte `c` and nil the child slot
it pointed at; at exactly 12 remaining children demote to a `Node16`, walking
the 256-entry index in ascending byte order and packing the surviving
key/child pairs densely (hence sorted).  (When `c` is absent the Go code
indexes `children[-1]` and faults; the model's `Nat` arithmetic clears slot 0
instead, a state no caller reaches.) -/
def removeChild48 (n : ANode T) (c : Nat) : ANode T :=
  match n with
  | .node48 pl pb nc ks ch =>
    let pos := ks.getD c 0
    let ks1 := ks.set c 0
    let ch1 := ch.set (pos - 1) none
    let nc1 := nc - 1
    if nc1 = 12 then
      let st := (List.range 256).foldl (demote48Step ks1 ch1)
        (0, List.replicate 16 0, List.replicate 16 none)
      let hdr := copyHeader (allocNode16 (T := T)) (ANode.node48 pl pb nc1 ks1 ch1)
      ANode.node16 hdr.getPartialLen hdr.getPartialBytes hdr.getNumChildren st.2.1 st.2.2
    else .node48 pl pb nc1 ks1 ch1
  | _ => n

/-- `removeChild256`: nil the direct slot for byte `c`; at exactly 37 remaining
children (deliberate hysteresis below the 48 capacity) demote to a `Node48`,
walking the direct array in ascending byte order and packing survivors into
consecutive slots with the index pointing at them. -/
def removeChild256 (n : ANode T) (c : Nat) : ANode T :=
  match n with
  | .node256 pl pb nc ch =>
    let ch1 := ch.set c none
    let nc1 := nc - 1
    if nc1 = 37 then
      let st := (List.range 256).foldl (demote256Step ch1)
        (0, List.replicate 256 0, List.replicate 48 none)
      let hdr := copyHeader (allocNode48 (T := T)) (ANode.node256 pl pb nc1 ch1)
      ANode.node48 hdr.getPartialLen hdr.getPartialBytes hdr.getNumChildren st.2.1 st.2.2
    else .node256 pl pb nc1 ch1
  | _ => n

/-- `removeChild`: dispatch on the node variant; Node4/Node16 receive the
resolved slot index of the removed child, Node48/Node256 the discriminating
byte.  Returns the node now held by the caller's slot. -/
def removeChild (n : ANode T) (c : Nat) (pos : Nat) : ANode T :=
  match n with
  | .node4 _ _ _ _ _ => removeChild4 n pos
  | .node16 _ _ _ _ _ => removeChild16 n pos
  | .node48 _ _ _ _ _ => removeChild48 n c
  | .node256 _ _ _ _ => removeChild256 n c
  | .leaf _ _ _ _ _ => n

/-- `findChild`: the slot holding the child for byte `c`, flattened to the
child itself (`none` both for "no slot" and for a nil slot).  Node4 scans the
first `numChildren` keys linearly; Node16's bitfield-and-mask finds the first
of the first `numChildren` keys equal to `c`; Node48 goes through the index;
Node256 reads the direct slot. -/
def findChild (n : ANode T) (c : Nat) : Option (ANode T) :=
  match n with
  | .node4 _ _ nc ks ch =>
    let i := scanUp nc (fun i => decide (ks.getD i 0 = c))
    if i < nc then ch.getD i none else none
  | .node16 _ _ nc ks ch =>
    let i := scanUp (min nc 16) (fun i => decide (ks.getD i 0 = c))
    if i < min nc 16 then ch.getD i none else none
  | .node48 _ _ _ ks ch =>
    let i := ks.getD c 0
    if i ≠ 0 then ch.getD (i - 1) none else none
  | .node256 _ _ _ ch => ch.getD c none
  | .leaf _ _ _ _ _ => none

/-- Read the child slot at index `i` (a nil pointer and an out-of-range slot
both read as `none`). -/
def slotGet (ch : List (Option (ANode T))) (i : Nat) : Option (ANode T) :=
  ch.getD i none

theorem slotGet_eq (ch : List (Option (ANode T))) (i : Nat) :
    slotGet ch i = ch.getD i none := rfl

/-- An element fetched from a child-slot list is structurally smaller than the
list. -/
theorem sizeOf_slotGet_lt (ch : List (Option (ANode T))) (i : Nat) :
    sizeOf (slotGet ch i) < sizeOf ch + 2 := by
  rcases h : slotGet ch i with _ | o
  · cases ch <;> simp
  · have hm : some o ∈ ch := by
      rw [slotGet_eq, List.getD_eq_getElem?_getD] at h
      rcases h' : ch[i]? with _ | o'
      · rw [h'] at h; simp at h
      · rw [h'] at h; simp at h; subst h; exact List.getElem?_mem h'
    have := List.sizeOf_lt_of_mem hm
    simp at this ⊢
    omega

/-- A child read out of a slot is structurally smaller than the slot list. -/
theorem sizeOf_of_slotGet (ch : List (Option (ANode T))) (i : Nat) (c : ANode T)
    (h : slotGet ch i = some c) : sizeOf c + 1 < sizeOf ch + 2 := by
  have h2 := sizeOf_slotGet_lt ch i
  rw [h] at h2
  simp at h2
  omega

/-- `minimum`: descend to the lexicographically first child — slot 0 for
Node4/Node16 (arrays are sorted), the first non-zero index entry scanning the
Node48 index upward from byte 0, the first non-nil direct slot for Node256 —
until a leaf (or a nil pointer) is reached.  In the Node48 case, when the scan
exhausts all 256 index entries the Go code reads `keys[256]` out of range;
that branch is rendered as `none`. -/
def minimum : Option (ANode T) → Option (ANode T)
  | none => none
  | some (ANode.leaf pl pb nc k v) => some (ANode.leaf pl pb nc k v)
  | some (ANode.node4 _ _ _ _ ch) => minimum (slotGet ch 0)
  | some (ANode.node16 _ _ _ _ ch) => minimum (slotGet ch 0)
  | some (ANode.node48 _ _ _ ks ch) =>
    let idx := scanUp 256 (fun b => decide (ks.getD b 0 ≠ 0))
    if idx < 256 then
      let slot := ks.getD idx 0 - 1
      if slot < 48 then minimum (slotGet ch slot) else none
    else none
  | some (ANode.node256 _ _ _ ch) =>
    let idx := scanUp 256 (fun b => (ch.getD b none).isSome)
    if idx < 256 then minimum (slotGet ch idx) else none
termination_by o => sizeOf o
decreasing_by
  all_goals simp_wf
  all_goals (refine lt_of_lt_of_le (sizeOf_slotGet_lt _ _) ?_; omega)

/-- `maximum`: descend to slot `numChildren - 1` for Node4/Node16; for
Node48/Node256 the source scans the children slot array downward from index
255 for the first non-nil entry (for Node48 this walks slot order, not key
order, and starts far past the 48-slot capacity; out-of-range reads are
rendered as nil). -/
def maximum : Option (ANode T) → Option (ANode T)
  | none => none
  | some (ANode.leaf pl pb nc k v) => some (ANode.leaf pl pb nc k v)
  | some (ANode.node4 _ _ nc _ ch) => maximum (slotGet ch (nc - 1))
  | some (ANode.node16 _ _ nc _ ch) => maximum (slotGet ch (nc - 1))
  | some (ANode.node48 _ _ _ _ ch) =>
    match scanDown (fun b => (ch.getD b none).isSome) 255 with
    | some idx => maximum (slotGet ch idx)
    | none => none
  | some (ANode.node256 _ _ _ ch) =>
    match scanDown (fun b => (ch.getD b none).isSome) 255 with
    | some idx => maximum (slotGet ch idx)
    | none => none
termination_by o => sizeOf o
decreasing_by
  all_goals simp_wf
  all_goals (refine lt_of_lt_of_le (sizeOf_slotGet_lt _ _) ?_; omega)

/-- Fuel-indexed computable twin of `minimum`: identical branch structure, with
recursion on the fuel.  `minimum` itself is defined by well-founded recursion
and does not reduce definitionally; the twin (with ample fuel, see
`minimum_eq_fuel`) lets concrete instances be evaluated by the kernel. -/
def minimumFuel : Nat → Option (ANode T) → Option (ANode T)
  | 0, _ => none
  | _+1, none => none
  | _+1, some (ANode.leaf pl pb nc k v) => some (ANode.leaf pl pb nc k v)
  | fuel+1, some (ANode.node4 _ _ _ _ ch) => minimumFuel fuel (slotGet ch 0)
  | fuel+1, some (ANode.node16 _ _ _ _ ch) => minimumFuel fuel (slotGet ch 0)
  | fuel+1, some (ANode.node48 _ _ _ ks ch) =>
    let idx := scanUp 256 (fun b => decide (ks.getD b 0 ≠ 0))
    if idx < 256 then
      let slot := ks.getD idx 0 - 1
      if slot < 48 then minimumFuel fuel (slotGet ch slot) else none
    else none
  | fuel+1, some (ANode.node256 _ _ _ ch) =>
    let idx := scanUp 256 (fun b => (ch.getD b none).isSome)
    if idx < 256 then minimumFuel fuel (slotGet ch idx) else none

/-- Fuel-indexed computable twin of `maximum` (see `minimumFuel`). -/
def maximumFuel : Nat → Option (ANode T) → Option (ANode T)
  | 0, _ => none
  | _+1, none => none
  | _+1, some (ANode.leaf pl pb nc k v) => some (ANode.leaf pl pb nc k v)
  | fuel+1, some (ANode.node4 _ _ nc _ ch) => maximumFuel fuel (slotGet ch (nc - 1))
  | fuel+1, some (ANode.node16 _ _ nc _ ch) => maximumFuel fuel (slotGet ch (nc - 1))
  | fuel+1, some (ANode.node48 _ _ _ _ ch) =>
    match scanDown (fun b => (ch.getD b none).isSome) 255 with
    | some idx => maximumFuel fuel (slotGet ch idx)
    | none => none
  | fuel+1, some (ANode.node256 _ _ _ ch) =>
    match scanDown (fun b => (ch.getD b none).isSome) 255 with
    | some idx => maximumFuel fuel (slotGet ch idx)
    | none => none

theorem sizeOf_option_pos (o : Option (ANode T)) : 1 ≤ sizeOf o := by
  cases o <;> simp

theorem minimum_eq_fuel (fuel : Nat) (o : Option (ANode T)) (h : sizeOf o ≤ fuel) :
    minimum o = minimumFuel fuel o := by
  induction fuel generalizing o with
  | zero => have := sizeOf_option_pos o; omega
  | succ fuel ih =>
    match o with
    | none => simp [minimum, minimumFuel]
    | some (ANode.leaf pl pb nc k v) => simp [minimum, minimumFuel]
    | some (ANode.node4 pl pb nc ks ch) =>
      have hlt := sizeOf_slotGet_lt ch 0
      have hsz : sizeOf ch + 2 ≤ fuel + 1 := by simp at h ⊢; omega
      simp only [minimum, minimumFuel]
      exact ih _ (by omega)
    | some (ANode.node16 pl pb nc ks ch) =>
      have hlt := sizeOf_slotGet_lt ch 0
      have hsz : sizeOf ch + 2 ≤ fuel + 1 := by simp at h ⊢; omega
      simp only [minimum, minimumFuel]
      exact ih _ (by omega)
    | some (ANode.node48 pl pb nc ks ch) =>
      have hsz : sizeOf ch + 2 ≤ fuel + 1 := by simp at h ⊢; omega
      simp only [minimum, minimumFuel]
      split
      · split
        · have hlt := sizeOf_slotGet_lt ch
            (ks.getD (scanUp 256 (fun b => decide (ks.getD b 0 ≠ 0))) 0 - 1)
          exact ih _ (by omega)
        · rfl
      · rfl
    | some (ANode.node256 pl pb nc ch) =>
      have hsz : sizeOf ch + 2 ≤ fuel + 1 := by simp at h ⊢; omega
      simp only [minimum, minimumFuel]
      split
      · have hlt := sizeOf_slotGet_lt ch
          (scanUp 256 (fun b => (ch.getD b none).isSome))
        exact ih _ (by omega)
      · rfl

theorem maximum_eq_fuel (fuel : Nat) (o : Option (ANode T)) (h : sizeOf o ≤ fuel) :
    maximum o = maximumFuel fuel o := by
  induction fuel generalizing o with
  | zero => have := sizeOf_option_pos o; omega
  | succ fuel ih =>
    match o with
    | none => simp [maximum, maximumFuel]
    | some (ANode.leaf pl pb nc k v) => simp [maximum, maximumFuel]
    | some (ANode.node4 pl pb nc ks ch) =>
      have hlt := sizeOf_slotGet_lt ch (nc - 1)
      have hsz : sizeOf ch + 2 ≤ fuel + 1 := by simp at h ⊢; omega
      simp only [maximum, maximumFuel]
      exact ih _ (by omega)
    | some (ANode.node16 pl pb nc ks ch) =>
      have hlt := sizeOf_slotGet_lt ch (nc - 1)
      have hsz : sizeOf ch + 2 ≤ fuel + 1 := by simp at h ⊢; omega
      simp only [maximum, maximumFuel]
      exact ih _ (by omega)
    | some (ANode.node48 pl pb nc ks ch) =>
      have hsz : sizeOf ch + 2 ≤ fuel + 1 := by simp at h ⊢; omega
      simp only [maximum, maximumFuel]
      split
      · next idx heq =>
        have hlt := sizeOf_slotGet_lt ch idx
        exact ih _ (by omega)
      · rfl
    | some (ANode.node256 pl pb nc ch) =>
      have hsz : sizeOf ch + 2 ≤ fuel + 1 := by simp at h ⊢; omega
      simp only [maximum, maximumFuel]
      split
      · next idx heq =>
        have hlt := sizeOf_slotGet_lt ch idx
        exact ih _ (by omega)
      · rfl

/-- `prefixMismatch`: compare the explicit prefix bytes against `key` from
`depth`; when they all match and `partialLen` exceeds `maxPrefixLen`, recover
the hidden tail by descending to the minimum leaf and continue comparing
against that leaf's stored key. -/
def prefixMismatch (n : ANode T) (key : List Nat) (keyLen depth : Nat) : Nat :=
  let maxCmp := min (min maxPrefixLen n.getPartialLen) (keyLen - depth)
  let idx := scanUp maxCmp
    (fun i => decide (n.getPartialBytes.getD i 0 ≠ key.getD (depth + i) 0))
  if idx < maxCmp then idx
  else if maxPrefixLen < n.getPartialLen then
    match minimum (some n) with
    | none => idx
    | some l =>
      let maxCmp2 := min l.leafKeyLen keyLen - depth
      scanUpFrom
        (fun i => decide (l.leafKey.getD (i + depth) 0 ≠ key.getD (depth + i) 0))
        idx (maxCmp2 - idx)
  else idx

/-- Lexicographic byte-string comparison (`bytes.Compare` < 0), used to state
ordering facts about stored keys. -/
def lexLt : List Nat → List Nat → Bool
  | _, [] => false
  | [], _ :: _ => true
  | a :: as, b :: bs => if a < b then true else if b < a then false else lexLt as bs

/-- The number of non-nil entries of a child-slot list. -/
def countSomeSlots (ch : List (Option (ANode T))) : Nat :=
  ch.countP (fun o => o.isSome)

/-- The number of non-zero entries of a Node48 byte-to-slot index. -/
def countNonzero (ks : List Nat) : Nat :=
  ks.countP (fun k => decide (k ≠ 0))

/-- The first `nc` entries of `ks` are strictly increasing. -/
def sortedUpto (ks : List Nat) (nc : Nat) : Prop :=
  ∀ j, j < nc → ∀ i, i < j → ks.getD i 0 < ks.getD j 0

instance (ks : List Nat) (nc : Nat) : Decidable (sortedUpto ks nc) := by
  unfold sortedUpto
  infer_instance

/-- The per-node representation invariant of each variant's storage: accurate
lengths, `numChildren` within capacity, the occupied region dense and (for
Node4/Node16) strictly sorted, the Node48 index injective and pointing at
occupied in-range slots, and `numChildren` matching the occupancy count. -/
def wfShallow : ANode T → Prop
  | .leaf _ _ _ _ _ => True
  | .node4 _ _ nc ks ch => ks.length = 4 ∧ ch.length = 4 ∧ nc ≤ 4 ∧
      (∀ i, i < nc → ((ch.getD i none).isSome = true)) ∧ sortedUpto ks nc ∧
      (∀ i, i < nc → ks.getD i 0 < 256)
  | .node16 _ _ nc ks ch => ks.length = 16 ∧ ch.length = 16 ∧ nc ≤ 16 ∧
      (∀ i, i < nc → ((ch.getD i none).isSome = true)) ∧ sortedUpto ks nc ∧
      (∀ i, i < nc → ks.getD i 0 < 256)
  | .node48 _ _ nc ks ch => ks.length = 256 ∧ ch.length = 48 ∧ nc ≤ 48 ∧
      countNonzero ks = nc ∧
      countSomeSlots ch = nc ∧
      (∀ b, b < 256 → ks.getD b 0 ≠ 0 →
        ks.getD b 0 ≤ 48 ∧ ((ch.getD (ks.getD b 0 - 1) none).isSome = true)) ∧
      (∀ b1 b2, b1 < 256 → b2 < 256 → b1 ≠ b2 → ks.getD b1 0 ≠ 0 →
        ks.getD b1 0 ≠ ks.getD b2 0)
  | .node256 _ _ nc ch => ch.length = 256 ∧ nc ≤ 256 ∧ countSomeSlots ch = nc

/-- The representation invariant at the node and, hereditarily, at every node
beneath it. -/
def wfDeep : ANode T → Prop
  | .leaf _ _ _ _ _ => True
  | .node4 pl pb nc ks ch => wfShallow (.node4 pl pb nc ks ch) ∧
      ∀ i, i < ch.length → ∀ c, slotGet ch i = some c → wfDeep c
  | .node16 pl pb nc ks ch => wfShallow (.node16 pl pb nc ks ch) ∧
      ∀ i, i < ch.length → ∀ c, slotGet ch i = some c → wfDeep c
  | .node48 pl pb nc ks ch => wfShallow (.node48 pl pb nc ks ch) ∧
      ∀ i, i < ch.length → ∀ c, slotGet ch i = some c → wfDeep c
  | .node256 pl pb nc ch => wfShallow (.node256 pl pb nc ch) ∧
      ∀ i, i < ch.length → ∀ c, slotGet ch i = some c → wfDeep c
termination_by n => sizeOf n
decreasing_by
  all_goals
    rename_i hlt hslot
    have h1 := sizeOf_of_slotGet _ _ _ hslot
    simp_wf
    omega

/-- One engine operation against a single node: `addChild` with a byte and a
child, or `removeChild` with the byte (Node48/Node256) and the resolved slot
index (Node4/Node16) of the removed child. -/
inductive AOp (T : Type) where
  | add (c : Nat) (child : ANode T)
  | remove (c : Nat) (pos : Nat)

/-- Apply one operation; the result is the node now held by the caller's
slot. -/
def applyOp (n : ANode T) : AOp T → ANode T
  | .add c child => addChild n c child
  | .remove c pos => removeChild n c pos

/-- Apply a sequence of operations left to right. -/
def applyOps (n : ANode T) (ops : List (AOp T)) : ANode T :=
  ops.foldl applyOp n

/-- The engine's call-site preconditions for one operation: children are only
added under absent bytes (and are themselves well-formed trees), and only
present children are removed. -/
def opValid (n : ANode T) : AOp T → Prop
  | .add c child => wfDeep child ∧ c < 256 ∧
      (match n with
        | .node4 _ _ nc ks _ => ∀ i, i < nc → ks.getD i 0 ≠ c
        | .node16 _ _ nc ks _ => ∀ i, i < nc → ks.getD i 0 ≠ c
        | .node48 _ _ _ ks _ => ks.getD c 0 = 0
        | .node256 _ _ _ ch => ch.getD c none = none
        | .leaf _ _ _ _ _ => False)
  | .remove c pos =>
      match n with
      | .node4 _ _ nc _ _ => pos < nc
      | .node16 _ _ nc _ _ => pos < nc
      | .node48 _ _ _ ks _ => ks.getD c 0 ≠ 0
      | .node256 _ _ _ ch => (ch.getD c none).isSome = true
      | .leaf _ _ _ _ _ => False

/-- Validity of a whole operation sequence, each step against the node the
previous steps produced. -/
def opsValid : ANode T → List (AOp T) → Prop
  | _, [] => True
  | n, op :: rest => opValid n op ∧ opsValid (applyOp n op) rest

section ListLemmas

variable {α : Type _}

theorem goCopy_length (dst src : List α) : (goCopy dst src).length = dst.length := by
  simp [goCopy]
  omega

theorem goCopyAt_length (dst : List α) (i : Nat) (src : List α) :
    (goCopyAt dst i src).length = dst.length := by
  simp [goCopyAt, goCopy_length]
  omega

theorem getD_of_length_le' (l : List α) (j : Nat) (d : α) (h : l.length ≤ j) :
    l.getD j d = d := by
  simp [List.getD_eq_getElem?_getD, List.getElem?_eq_none h]

theorem getD_append (l1 l2 : List α) (j : Nat) (d : α) :
    (l1 ++ l2).getD j d =
      if j < l1.length then l1.getD j d else l2.getD (j - l1.length) d := by
  simp only [List.getD_eq_getElem?_getD, List.getElem?_append]
  split
  · rfl
  · rfl

theorem getD_take (l : List α) (n j : Nat) (d : α) :
    (l.take n).getD j d = if j < n then l.getD j d else d := by
  split
  · next h =>
    simp only [List.getD_eq_getElem?_getD]
    rw [List.getElem?_take_of_lt h]
  · next h =>
    apply getD_of_length_le'
    simp
    omega

theorem getD_drop (l : List α) (n j : Nat) (d : α) :
    (l.drop n).getD j d = l.getD (n + j) d := by
  simp only [List.getD_eq_getElem?_getD]
  rw [List.getElem?_drop]

theorem goCopy_getD (dst src : List α) (j : Nat) (d : α) :
    (goCopy dst src).getD j d =
      if j < dst.length ∧ j < src.length then src.getD j d else dst.getD j d := by
  rw [goCopy, getD_append, getD_take, getD_drop]
  have hlen : (src.take dst.length).length = min dst.length src.length := by simp
  rw [hlen]
  by_cases hd : j < dst.length
  · by_cases hs : j < src.length
    · rw [if_pos (by omega), if_pos hd, if_pos ⟨hd, hs⟩]
    · rw [if_neg (by omega), if_neg (by omega)]
      congr 1
      omega
  · rw [if_neg (by omega), if_neg (by omega)]
    by_cases hs2 : src.length ≤ dst.length
    · congr 1
      omega
    · rw [getD_of_length_le' _ _ _ (by omega), getD_of_length_le' _ _ _ (by omega)]

theorem goCopyAt_getD (dst : List α) (i : Nat) (src : List α) (j : Nat) (d : α) :
    (goCopyAt dst i src).getD j d =
      if i ≤ j ∧ j - i < src.length ∧ j < dst.length then src.getD (j - i) d
      else dst.getD j d := by
  rw [goCopyAt, getD_append, getD_take]
  have hlen : (dst.take i).length = min i dst.length := by simp
  rw [hlen, goCopy_getD, getD_drop]
  have hlen2 : (dst.drop i).length = dst.length - i := by simp
  rw [hlen2]
  by_cases h1 : j < min i dst.length
  · rw [if_pos h1, if_pos (by omega), if_neg (by omega)]
  · rw [if_neg h1]
    by_cases h2 : i ≤ dst.length
    · have hmin : min i dst.length = i := by omega
      rw [hmin]
      by_cases h3 : j - i < dst.length - i ∧ j - i < src.length
      · rw [if_pos h3, if_pos (by omega)]
      · rw [if_neg h3, if_neg (by omega)]
        congr 1
        omega
    · have hmin : min i dst.length = dst.length := by omega
      rw [hmin, if_neg (by omega), if_neg (by omega)]
      rw [getD_of_length_le' _ _ _ (by omega), getD_of_length_le' _ _ _ (by omega)]

theorem getD_set_self (l : List α) (i : Nat) (a d : α) (h : i < l.length) :
    (l.set i a).getD i d = a := by
  simp [List.getD_eq_getElem?_getD, List.getElem?_set_self h]

theorem getD_set_ne (l : List α) (i j : Nat) (a d : α) (h : i ≠ j) :
    (l.set i a).getD j d = l.getD j d := by
  simp [List.getD_eq_getElem?_getD, List.getElem?_set_ne h]

theorem getD_replicate (n : Nat) (a : α) (j : Nat) (d : α) :
    (List.replicate n a).getD j d = if j < n then a else d := by
  simp [List.getD_eq_getElem?_getD, List.getElem?_replicate]
  split <;> simp

theorem getD_of_length_le (l : List α) (j : Nat) (d : α) (h : l.length ≤ j) :
    l.getD j d = d := by
  simp [List.getD_eq_getElem?_getD, List.getElem?_eq_none h]

theorem scanUpFrom_ge (p : Nat → Bool) (lo fuel : Nat) : lo ≤ scanUpFrom p lo fuel := by
  induction fuel generalizing lo with
  | zero => simp [scanUpFrom]
  | succ fuel ih =>
    simp only [scanUpFrom]
    split
    · omega
    · have := ih (lo + 1)
      omega

theorem scanUpFrom_le (p : Nat → Bool) (lo fuel : Nat) :
    scanUpFrom p lo fuel ≤ lo + fuel := by
  induction fuel generalizing lo with
  | zero => simp [scanUpFrom]
  | succ fuel ih =>
    simp only [scanUpFrom]
    split
    · omega
    · have := ih (lo + 1)
      omega

theorem scanUpFrom_found (p : Nat → Bool) (lo fuel : Nat)
    (h : scanUpFrom p lo fuel < lo + fuel) : p (scanUpFrom p lo fuel) = true := by
  induction fuel generalizing lo with
  | zero =>
    have h0 : scanUpFrom p lo 0 = lo := rfl
    omega
  | succ fuel ih =>
    simp only [scanUpFrom] at h ⊢
    split
    · assumption
    · next hp =>
      rw [if_neg hp] at h
      exact ih (lo + 1) (by omega)

theorem scanUpFrom_min (p : Nat → Bool) (lo fuel : Nat) (j : Nat)
    (hlo : lo ≤ j) (hj : j < scanUpFrom p lo fuel) : p j = false := by
  induction fuel generalizing lo with
  | zero =>
    have h0 : scanUpFrom p lo 0 = lo := rfl
    omega
  | succ fuel ih =>
    simp only [scanUpFrom] at hj
    by_cases hp : p lo
    · rw [if_pos hp] at hj
      omega
    · rw [if_neg hp] at hj
      rcases Nat.eq_or_lt_of_le hlo with rfl | hlt
      · simpa using hp
      · exact ih (lo + 1) hlt hj

theorem scanUpFrom_all_false (p : Nat → Bool) (lo fuel : Nat)
    (h : ∀ j, lo ≤ j → j < lo + fuel → p j = false) :
    scanUpFrom p lo fuel = lo + fuel := by
  induction fuel generalizing lo with
  | zero => simp [scanUpFrom]
  | succ fuel ih =>
    simp only [scanUpFrom]
    rw [if_neg]
    · have := ih (lo + 1) (fun j h1 h2 => h j (by omega) (by omega))
      omega
    · simp [h lo (by omega) (by omega)]

theorem scanUpFrom_split (p : Nat → Bool) (lo a b : Nat) :
    scanUpFrom p lo (a + b) =
      if scanUpFrom p lo a < lo + a then scanUpFrom p lo a
      else scanUpFrom p (lo + a) b := by
  induction a generalizing lo with
  | zero =>
    have h0 : scanUpFrom p lo 0 = lo := rfl
    simp [h0]
  | succ a ih =>
    have hL : a + 1 + b = (a + b) + 1 := by omega
    rw [hL]
    show (if p lo then lo else scanUpFrom p (lo + 1) (a + b)) = _
    by_cases hp : p lo
    · rw [if_pos hp]
      have h1 : scanUpFrom p lo (a + 1) = lo := by
        show (if p lo then lo else scanUpFrom p (lo + 1) a) = lo
        rw [if_pos hp]
      rw [h1, if_pos (by omega)]
    · rw [if_neg hp]
      have h1 : scanUpFrom p lo (a + 1) = scanUpFrom p (lo + 1) a := by
        show (if p lo then lo else scanUpFrom p (lo + 1) a) = _
        rw [if_neg hp]
      rw [h1, ih (lo + 1)]
      have h2 := scanUpFrom_ge p (lo + 1) a
      have hle : lo + 1 + a = lo + (a + 1) := by omega
      by_cases hc : scanUpFrom p (lo + 1) a < lo + 1 + a
      · rw [if_pos hc, if_pos (by omega)]
      · rw [if_neg hc, if_neg (by omega), hle]

theorem scanUp_lt_of_exists (bound : Nat) (p : Nat → Bool)
    (h : ∃ j, j < bound ∧ p j = true) : scanUp bound p < bound := by
  by_contra hc
  obtain ⟨j, hj, hp⟩ := h
  have := scanUpFrom_min p 0 bound j (by omega)
  simp only [scanUp] at hc
  rw [this (by omega)] at hp
  exact Bool.noConfusion hp

theorem scanUp_congr (bound : Nat) (p q : Nat → Bool)
    (h : ∀ j, j < bound → p j = q j) : scanUp bound p = scanUp bound q := by
  unfold scanUp
  suffices hgen : ∀ fuel lo, (∀ j, lo ≤ j → j < lo + fuel → p j = q j) →
      scanUpFrom p lo fuel = scanUpFrom q lo fuel by
    exact hgen bound 0 (fun j _ hj => h j (by omega))
  intro fuel
  induction fuel with
  | zero => intro lo _; simp [scanUpFrom]
  | succ fuel ih =>
    intro lo hlo
    simp only [scanUpFrom]
    rw [hlo lo (by omega) (by omega)]
    split
    · rfl
    · exact ih (lo + 1) (fun j h1 h2 => hlo j (by omega) (by omega))

theorem list_eq_of_getD (l1 l2 : List α) (d : α) (hlen : l1.length = l2.length)
    (h : ∀ i, i < l1.length → l1.getD i d = l2.getD i d) : l1 = l2 := by
  apply List.ext_getElem hlen
  intro i h1 h2
  have hd := h i h1
  rw [List.getD_eq_getElem?_getD, List.getD_eq_getElem?_getD,
    List.getElem?_eq_getElem h1, List.getElem?_eq_getElem h2] at hd
  simpa using hd

theorem getD_cons (a : α) (l : List α) (j : Nat) (d : α) :
    (a :: l).getD j d = if j = 0 then a else l.getD (j - 1) d := by
  cases j <;> simp

theorem countP_set_eq (l : List α) (i : Nat) (a d : α) (p : α → Bool)
    (hi : i < l.length) :
    (l.set i a).countP p + (if p (l.getD i d) then 1 else 0) =
      l.countP p + (if p a then 1 else 0) := by
  have hdec : l = l.take i ++ l.getD i d :: l.drop (i + 1) := by
    conv_lhs => rw [← List.take_append_drop i l]
    rw [List.drop_eq_getElem_cons hi]
    congr 1
    congr 1
    simp [List.getD_eq_getElem?_getD, List.getElem?_eq_getElem hi]
  rw [List.set_eq_take_cons_drop a hi]
  conv_rhs => rw [hdec]
  simp [List.countP_cons]
  omega

theorem exists_none_slot (ch : List (Option (ANode T)))
    (h : ch.countP (fun o => o.isSome) < ch.length) :
    ∃ j, j < ch.length ∧ (ch.getD j none).isNone = true := by
  by_contra hc
  push_neg at hc
  have hall : ∀ o ∈ ch, o.isSome = true := by
    intro o ho
    obtain ⟨j, hj, hje⟩ := List.getElem_of_mem ho
    have h3 := hc j hj
    rw [List.getD_eq_getElem?_getD, List.getElem?_eq_getElem hj, hje] at h3
    cases o
    · simp at h3
    · simp
  rw [List.countP_eq_length.mpr hall] at h
  omega

theorem scanUp_eq_of (bound t : Nat) (p : Nat → Bool) (ht : t < bound)
    (hp : p t = true) (hmin : ∀ j, j < t → p j = false) : scanUp bound p = t := by
  have h1 : scanUp bound p ≤ t := by
    by_contra hc
    have := scanUpFrom_min p 0 bound t (by omega) (by simpa [scanUp] using (by omega : t < scanUp bound p))
    rw [this] at hp
    exact Bool.noConfusion hp
  rcases Nat.eq_or_lt_of_le h1 with heq | hlt
  · exact heq
  · have hfound := scanUpFrom_found p 0 bound (by have := scanUpFrom_le p 0 bound; simp [scanUp] at hlt ⊢; omega)
    have := hmin _ (by simpa [scanUp] using hlt)
    simp [scanUp] at hfound this
    rw [this] at hfound
    exact Bool.noConfusion hfound

theorem insert_shift_length (l : List α) (idx nc : Nat) (a : α) :
    ((goCopyAt l (idx + 1) ((l.drop idx).take (nc - idx))).set idx a).length
      = l.length := by
  simp [goCopyAt_length]

theorem insert_shift_getD (l : List α) (idx nc : Nat) (a d : α)
    (hidx : idx ≤ nc) (hnc : nc < l.length) (j : Nat) :
    ((goCopyAt l (idx + 1) ((l.drop idx).take (nc - idx))).set idx a).getD j d =
      if j < idx then l.getD j d
      else if j = idx then a
      else if j ≤ nc then l.getD (j - 1) d
      else l.getD j d := by
  have hsrclen : ((l.drop idx).take (nc - idx)).length = nc - idx := by
    simp
    omega
  have hlen : (goCopyAt l (idx + 1) ((l.drop idx).take (nc - idx))).length = l.length :=
    goCopyAt_length _ _ _
  by_cases hj : j = idx
  · subst hj
    rw [getD_set_self _ _ _ _ (by omega), if_neg (by omega), if_pos rfl]
  · rw [getD_set_ne _ _ _ _ _ (fun h => hj h.symm), goCopyAt_getD, hsrclen]
    by_cases h1 : j < idx
    · rw [if_neg (by omega), if_pos h1]
    · rw [if_neg h1, if_neg hj]
      by_cases h2 : j ≤ nc
      · rw [if_pos ⟨by omega, by omega, by omega⟩, if_pos h2, getD_take,
          if_pos (by omega), getD_drop]
        congr 1
        omega
      · rw [if_neg (by omega), if_neg h2]

theorem goCopy_set_append (l0 xs : List α) (x : α) :
    (goCopy l0 xs).set xs.length x = goCopy l0 (xs ++ [x]) := by
  have hl : ((goCopy l0 xs).set xs.length x).length = l0.length := by
    simp [goCopy_length]
  apply list_eq_of_getD _ _ x (by simp [goCopy_length, hl])
  intro i hi
  rw [hl] at hi
  by_cases hix : i = xs.length
  · subst hix
    rw [getD_set_self _ _ _ _ (by rw [goCopy_length]; omega), goCopy_getD,
      if_pos ⟨by omega, by simp⟩, getD_append, if_neg (by omega)]
    simp
  · rw [getD_set_ne _ _ _ _ _ (fun h => hix h.symm), goCopy_getD, goCopy_getD]
    by_cases h1 : i < xs.length
    · rw [if_pos ⟨by omega, h1⟩, if_pos ⟨by omega, by simp; omega⟩, getD_append,
        if_pos h1]
    · rw [if_neg (by omega), if_neg (by simp; omega)]

theorem countP_eq_countP_range (l : List α) (p : α → Bool) (d : α) :
    l.countP p = ((List.range l.length).filter (fun i => p (l.getD i d))).length := by
  induction l with
  | nil => simp
  | cons a tl ih =>
    rw [List.countP_cons]
    have hr : (a :: tl).length = tl.length + 1 := rfl
    rw [hr, List.range_succ_eq_map, List.filter_cons]
    have hmap : ((List.range tl.length).map Nat.succ).filter
        (fun i => p ((a :: tl).getD i d)) =
        ((List.range tl.length).filter (fun i => p (tl.getD i d))).map Nat.succ := by
      rw [List.filter_map]
      rfl
    by_cases hp : p a
    · rw [if_pos (show (fun i => p ((a :: tl).getD i d)) 0 = true from hp), hmap]
      simp [hp, ih]
    · rw [if_neg (show ¬((fun i => p ((a :: tl).getD i d)) 0 = true) from by simp [hp]),
        hmap]
      simp [hp, ih]

end ListLemmas

section InsertLemmas

variable {T : Type}

theorem insertAtShift_length (l : List α) (idx nc : Nat) (a : α) :
    (insertAtShift l idx nc a).length = l.length := by
  simp [insertAtShift, goCopyAt_length]

theorem insertAtShift_getD (l : List α) (idx nc : Nat) (a d : α)
    (hidx : idx ≤ nc) (hnc : nc < l.length) (j : Nat) :
    (insertAtShift l idx nc a).getD j d =
      if j < idx then l.getD j d
      else if j = idx then a
      else if j ≤ nc then l.getD (j - 1) d
      else l.getD j d :=
  insert_shift_getD l idx nc a d hidx hnc j

theorem insIdx_le (ks : List Nat) (nc c : Nat) : insIdx ks nc c ≤ nc := by
  have := scanUpFrom_le (fun i => decide (c < ks.getD i 0)) 0 nc
  simpa [insIdx, scanUp] using this

theorem insIdx_low (ks : List Nat) (nc c : Nat) (t : Nat) (ht : t < insIdx ks nc c) :
    ¬(c < ks.getD t 0) := by
  have := scanUpFrom_min (fun i => decide (c < ks.getD i 0)) 0 nc t (by omega)
    (by simpa [insIdx, scanUp] using ht)
  simpa using this

theorem insIdx_found (ks : List Nat) (nc c : Nat) (h : insIdx ks nc c < nc) :
    c < ks.getD (insIdx ks nc c) 0 := by
  have := scanUpFrom_found (fun i => decide (c < ks.getD i 0)) 0 nc
    (by simpa [insIdx, scanUp] using h)
  simpa [insIdx, scanUp] using this

/-- Sorted insert keeps the used region strictly sorted. -/
theorem insert_sortedUpto (ks : List Nat) (nc c : Nat)
    (hnc : nc < ks.length) (hsort : sortedUpto ks nc)
    (hfresh : ∀ i, i < nc → ks.getD i 0 ≠ c) :
    sortedUpto (insertAtShift ks (insIdx ks nc c) nc c) (nc + 1) := by
  intro j hj i hij
  have hidxle := insIdx_le ks nc c
  set idx := insIdx ks nc c with hidxdef
  have hlow : ∀ t, t < idx → ks.getD t 0 < c := by
    intro t ht
    have h1 := insIdx_low ks nc c t (by rw [← hidxdef]; omega)
    have h2 := hfresh t (by omega)
    omega
  have hfnd : idx < nc → c < ks.getD idx 0 := fun h => insIdx_found ks nc c h
  have ei := insertAtShift_getD ks idx nc c 0 hidxle hnc i
  have ej := insertAtShift_getD ks idx nc c 0 hidxle hnc j
  rw [ei, ej]
  split_ifs <;>
    first
      | omega
      | exact hsort _ (by omega) _ (by omega)
      | exact hlow _ (by omega)
      | (by_cases hE : j - 1 = idx
         · rw [hE]
           exact hfnd (by omega)
         · have hs := hsort (j - 1) (by omega) idx (by omega)
           have h1 := hfnd (by omega)
           omega)

/-- Sorted insert keeps the used child region dense. -/
theorem insert_dense (ch : List (Option (ANode T))) (idx nc : Nat) (child : ANode T)
    (hidx : idx ≤ nc) (hnc : nc < ch.length)
    (hdense : ∀ i, i < nc → ((ch.getD i none).isSome = true)) :
    ∀ i, i < nc + 1 → (((insertAtShift ch idx nc (some child)).getD i none).isSome = true) := by
  intro i hi
  rw [insertAtShift_getD _ _ _ _ _ hidx hnc]
  by_cases h1 : i < idx
  · rw [if_pos h1]
    exact hdense i (by omega)
  · by_cases h2 : i = idx
    · rw [if_neg (by omega), if_pos h2]
      rfl
    · rw [if_neg h1, if_neg h2, if_pos (by omega)]
      exact hdense (i - 1) (by omega)

/-- After a sorted insert, looking up the new byte finds the new child. -/
theorem insert_lookup_new (ks : List Nat) (ch : List (Option (ANode T)))
    (nc c : Nat) (child : ANode T)
    (hnck : nc < ks.length) (hncc : nc < ch.length)
    (hfresh : ∀ i, i < nc → ks.getD i 0 ≠ c) :
    scanUp (nc + 1)
        (fun j => decide ((insertAtShift ks (insIdx ks nc c) nc c).getD j 0 = c))
      = insIdx ks nc c ∧
    (insertAtShift ch (insIdx ks nc c) nc (some child)).getD (insIdx ks nc c) none
      = some child := by
  have hidxle := insIdx_le ks nc c
  constructor
  · apply scanUp_eq_of _ _ _ (by omega)
    · rw [insertAtShift_getD _ _ _ _ _ hidxle hnck, if_neg (by omega), if_pos rfl]
      simp
    · intro j hj
      rw [insertAtShift_getD _ _ _ _ _ hidxle hnck, if_pos hj]
      have := hfresh j (by omega)
      simpa using this
  · rw [insertAtShift_getD _ _ _ _ _ hidxle hncc, if_neg (by omega), if_pos rfl]

/-- After a sorted insert, looking up any other byte gives what the original
lookup gave: same found/absent status, same child. -/
theorem insert_lookup_old (ks : List Nat) (ch : List (Option (ANode T)))
    (nc c : Nat) (child : ANode T) (b : Nat) (hbc : b ≠ c)
    (hnck : nc < ks.length) (hncc : nc < ch.length) :
    (scanUp nc (fun j => decide (ks.getD j 0 = b)) < nc →
      scanUp (nc + 1)
          (fun j => decide ((insertAtShift ks (insIdx ks nc c) nc c).getD j 0 = b)) < nc + 1 ∧
      (insertAtShift ch (insIdx ks nc c) nc (some child)).getD
          (scanUp (nc + 1)
            (fun j => decide ((insertAtShift ks (insIdx ks nc c) nc c).getD j 0 = b))) none
        = ch.getD (scanUp nc (fun j => decide (ks.getD j 0 = b))) none) ∧
    (scanUp nc (fun j => decide (ks.getD j 0 = b)) = nc →
      scanUp (nc + 1)
          (fun j => decide ((insertAtShift ks (insIdx ks nc c) nc c).getD j 0 = b))
        = nc + 1) := by
  have hidxle := insIdx_le ks nc c
  set idx := insIdx ks nc c with hidxdef
  set r := scanUp nc (fun j => decide (ks.getD j 0 = b)) with hrdef
  have hrle : r ≤ nc := by
    have := scanUpFrom_le (fun j => decide (ks.getD j 0 = b)) 0 nc
    simp [hrdef, scanUp] at this ⊢
    omega
  have hrmin : ∀ j, j < r → ks.getD j 0 ≠ b := by
    intro j hj
    have := scanUpFrom_min (fun j => decide (ks.getD j 0 = b)) 0 nc j (by omega)
      (by simpa [hrdef, scanUp] using hj)
    simpa using this
  constructor
  · intro hfound
    have hrb : ks.getD r 0 = b := by
      have := scanUpFrom_found (fun j => decide (ks.getD j 0 = b)) 0 nc
        (by simpa [hrdef, scanUp] using hfound)
      simpa [hrdef, scanUp] using this
    have heq : scanUp (nc + 1)
        (fun j => decide ((insertAtShift ks idx nc c).getD j 0 = b))
        = if r < idx then r else r + 1 := by
      apply scanUp_eq_of
      · split <;> omega
      · split
        · next hcase =>
          rw [insertAtShift_getD _ _ _ _ _ hidxle hnck, if_pos hcase]
          simp only [decide_eq_true_eq]
          exact hrb
        · next hcase =>
          rw [insertAtShift_getD _ _ _ _ _ hidxle hnck, if_neg (by omega),
            if_neg (by omega), if_pos (by omega)]
          simp only [decide_eq_true_eq]
          have hr1 : r + 1 - 1 = r := by omega
          rw [hr1]
          exact hrb
      · intro j hj
        rw [insertAtShift_getD _ _ _ _ _ hidxle hnck]
        by_cases h1 : j < idx
        · rw [if_pos h1]
          have hjr : j < r := by split at hj <;> omega
          simp only [decide_eq_false_iff_not]
          exact hrmin j hjr
        · by_cases h2 : j = idx
          · rw [if_neg (by omega), if_pos h2]
            simp only [decide_eq_false_iff_not]
            exact fun h => hbc h.symm
          · rw [if_neg h1, if_neg h2, if_pos (by split at hj <;> omega)]
            have hjr : j - 1 < r := by split at hj <;> omega
            simp only [decide_eq_false_iff_not]
            exact hrmin _ hjr
    rw [heq]
    refine ⟨by split <;> omega, ?_⟩
    split
    · next hcase =>
      rw [insertAtShift_getD _ _ _ _ _ hidxle hncc, if_pos hcase]
    · next hcase =>
      rw [insertAtShift_getD _ _ _ _ _ hidxle hncc, if_neg (by omega),
        if_neg (by omega), if_pos (by omega)]
      have hr1 : r + 1 - 1 = r := by omega
      rw [hr1]
  · intro habsent
    have hnone : ∀ j, j < nc → ks.getD j 0 ≠ b := by
      intro j hj
      exact hrmin j (by omega)
    have hall : ∀ j, 0 ≤ j → j < 0 + (nc + 1) →
        (fun j => decide ((insertAtShift ks idx nc c).getD j 0 = b)) j = false := by
      intro j hj0 hj
      simp only
      rw [insertAtShift_getD _ _ _ _ _ hidxle hnck]
      by_cases h1 : j < idx
      · rw [if_pos h1]
        simp only [decide_eq_false_iff_not]
        exact hnone j (by omega)
      · by_cases h2 : j = idx
        · rw [if_neg (by omega), if_pos h2]
          simp only [decide_eq_false_iff_not]
          exact fun h => hbc h.symm
        · rw [if_neg h1, if_neg h2, if_pos (by omega)]
          simp only [decide_eq_false_iff_not]
          exact hnone (j - 1) (by omega)
    have hres := scanUpFrom_all_false _ 0 (nc + 1) hall
    simpa [scanUp] using hres

end InsertLemmas

section FoldLemmas

variable {T : Type}

theorem goCopy_nil (l : List α) : goCopy l [] = l := by
  simp [goCopy]

/-- The `removeChild48` demotion loop packs, in ascending byte order, the
occupied index entries (and their children) into the fresh arrays. -/
theorem demote48_fold (ks1 : List Nat) (ch1 : List (Option (ANode T)))
    (m : Nat) (K0 : List Nat) (C0 : List (Option (ANode T))) :
    (List.range m).foldl (demote48Step ks1 ch1) (0, K0, C0) =
      (((List.range m).filter (fun i => decide (ks1.getD i 0 ≠ 0))).length,
       goCopy K0 ((List.range m).filter (fun i => decide (ks1.getD i 0 ≠ 0))),
       goCopy C0 (((List.range m).filter (fun i => decide (ks1.getD i 0 ≠ 0))).map
         (fun b => ch1.getD (ks1.getD b 0 - 1) none))) := by
  induction m with
  | zero => simp [goCopy_nil]
  | succ m ih =>
    rw [List.range_succ, List.foldl_append, ih]
    simp only [List.foldl_cons, List.foldl_nil]
    simp only [demote48Step]
    by_cases hp : ks1.getD m 0 ≠ 0
    · rw [if_pos hp]
      have hp2 : (decide (ks1.getD m 0 ≠ 0)) = true := by
        simp only [decide_eq_true_eq]
        exact hp
      have hfs : (List.range m ++ [m]).filter (fun i => decide (ks1.getD i 0 ≠ 0)) =
          ((List.range m).filter (fun i => decide (ks1.getD i 0 ≠ 0))) ++ [m] := by
        rw [List.filter_append]
        simp only [List.filter_cons, hp2, if_true, List.filter_nil]
      rw [hfs]
      refine congrArg₂ _ (by simp) (congrArg₂ _ ?_ ?_)
      · exact goCopy_set_append _ _ _
      · rw [List.map_append]
        have hml : ((List.range m).filter (fun i => decide (ks1.getD i 0 ≠ 0))).length =
            (((List.range m).filter (fun i => decide (ks1.getD i 0 ≠ 0))).map
              (fun b => ch1.getD (ks1.getD b 0 - 1) none)).length := by simp
        rw [hml, goCopy_set_append]
        simp
    · rw [if_neg hp]
      have hp2 : (decide (ks1.getD m 0 ≠ 0)) = false := by
        simp only [decide_eq_false_iff_not]
        exact hp
      have hfs : (List.range m ++ [m]).filter (fun i => decide (ks1.getD i 0 ≠ 0)) =
          (List.range m).filter (fun i => decide (ks1.getD i 0 ≠ 0)) := by
        rw [List.filter_append]
        simp only [List.filter_cons, hp2, List.filter_nil]
        simp
      rw [hfs]

/-- The `removeChild256` demotion loop packs the occupied direct slots in
ascending byte order and leaves the index pointing at the packed positions. -/
theorem demote256_fold (ch1 : List (Option (ANode T))) (m : Nat) (K0 : List Nat)
    (C0 : List (Option (ANode T))) (hK0len : K0.length = 256) (hm : m ≤ 256)
    (hK0 : ∀ b, K0.getD b 0 = 0) :
    ((List.range m).foldl (demote256Step ch1) (0, K0, C0)).1 =
      ((List.range m).filter (fun i => (ch1.getD i none).isSome)).length ∧
    ((List.range m).foldl (demote256Step ch1) (0, K0, C0)).2.2 =
      goCopy C0 (((List.range m).filter (fun i => (ch1.getD i none).isSome)).map
        (fun b => ch1.getD b none)) ∧
    ((List.range m).foldl (demote256Step ch1) (0, K0, C0)).2.1.length = 256 ∧
    (∀ b, ((List.range m).foldl (demote256Step ch1) (0, K0, C0)).2.1.getD b 0 =
      if b < m ∧ ((ch1.getD b none).isSome = true)
      then ((List.range b).filter (fun i => (ch1.getD i none).isSome)).length + 1
      else 0) := by
  induction m with
  | zero =>
    refine ⟨by simp, by simp [goCopy_nil], by simpa using hK0len, ?_⟩
    intro b
    simpa using hK0 b
  | succ m ih =>
    obtain ⟨ih1, ih2, ih3, ih4⟩ := ih (by omega)
    rw [List.range_succ, List.foldl_append]
    simp only [List.foldl_cons, List.foldl_nil]
    rcases hslot : ch1.getD m none with _ | x
    all_goals rw [List.getD_eq_getElem?_getD] at hslot
    · have hstep : ∀ st, demote256Step ch1 st m = st := by
        intro st
        simp [demote256Step, hslot]
      rw [hstep]
      have hfs : (List.range m ++ [m]).filter (fun i => (ch1.getD i none).isSome) =
          (List.range m).filter (fun i => (ch1.getD i none).isSome) := by
        rw [List.filter_append]
        simp [hslot]
      rw [hfs]
      refine ⟨ih1, ih2, ih3, ?_⟩
      intro b
      rw [ih4 b]
      by_cases hb : b = m
      · subst hb
        rw [if_neg (by simp [hslot]), if_neg (by simp [hslot])]
      · by_cases hcond : b < m ∧ ((ch1.getD b none).isSome = true)
        · rw [if_pos hcond, if_pos ⟨by omega, hcond.2⟩]
        · rw [if_neg hcond, if_neg (by rintro ⟨h1, h2⟩; exact hcond ⟨by omega, h2⟩)]
    · have hstep : demote256Step ch1
          ((List.range m).foldl (demote256Step ch1) (0, K0, C0)) m =
          (((List.range m).foldl (demote256Step ch1) (0, K0, C0)).1 + 1,
           ((List.range m).foldl (demote256Step ch1) (0, K0, C0)).2.1.set m
             (((List.range m).foldl (demote256Step ch1) (0, K0, C0)).1 + 1),
           ((List.range m).foldl (demote256Step ch1) (0, K0, C0)).2.2.set
             ((List.range m).foldl (demote256Step ch1) (0, K0, C0)).1 (some x)) := by
        simp [demote256Step, hslot]
      rw [hstep]
      have hfs : (List.range m ++ [m]).filter (fun i => (ch1.getD i none).isSome) =
          ((List.range m).filter (fun i => (ch1.getD i none).isSome)) ++ [m] := by
        rw [List.filter_append]
        simp [hslot]
      rw [hfs]
      refine ⟨by rw [ih1]; simp, ?_, by simpa using ih3, ?_⟩
      · rw [List.map_append, ih2, ih1]
        have hml : ((List.range m).filter (fun i => (ch1.getD i none).isSome)).length =
            (((List.range m).filter (fun i => (ch1.getD i none).isSome)).map
              (fun b => ch1.getD b none)).length := by simp
        rw [hml, goCopy_set_append]
        simp [hslot]
      · intro b
        by_cases hb : b = m
        · subst hb
          rw [getD_set_self _ _ _ _ (by omega), if_pos ⟨by omega, by simp [hslot]⟩,
            ih1]
        · rw [getD_set_ne _ _ _ _ _ (fun h => hb h.symm), ih4 b]
          by_cases hcond : b < m ∧ ((ch1.getD b none).isSome = true)
          · rw [if_pos hcond, if_pos ⟨by omega, hcond.2⟩]
          · rw [if_neg hcond, if_neg (by rintro ⟨h1, h2⟩; exact hcond ⟨by omega, h2⟩)]

/-- The `addChild16` promotion loop turns the sorted key array into the
256-entry byte-to-slot index: the entry for a stored byte points at its array
position plus one, all other entries stay zero. -/
theorem promote16_fold (ks : List Nat) (m : Nat) (acc0 : List Nat)
    (hacc0len : acc0.length = 256)
    (hbytes : ∀ i, i < m → ks.getD i 0 < 256)
    (hdistinct : ∀ i j, i < m → j < m → i ≠ j → ks.getD i 0 ≠ ks.getD j 0)
    (hacc0 : ∀ b, acc0.getD b 0 = 0) :
    ((List.range m).foldl (promote16Step ks) acc0).length = 256 ∧
    ∀ b, ((List.range m).foldl (promote16Step ks) acc0).getD b 0 =
      if scanUp m (fun i => decide (ks.getD i 0 = b)) < m
      then scanUp m (fun i => decide (ks.getD i 0 = b)) + 1
      else 0 := by
  induction m with
  | zero =>
    refine ⟨by simpa using hacc0len, ?_⟩
    intro b
    have h0 : scanUp 0 (fun i => decide (ks.getD i 0 = b)) = 0 := rfl
    rw [h0, if_neg (by omega)]
    exact hacc0 b
  | succ m ih =>
    obtain ⟨ih1, ih2⟩ := ih (fun i hi => hbytes i (by omega))
      (fun i j hi hj => hdistinct i j (by omega) (by omega))
    rw [List.range_succ, List.foldl_append]
    simp only [List.foldl_cons, List.foldl_nil]
    refine ⟨by simpa [promote16Step] using ih1, ?_⟩
    intro b
    simp only [promote16Step]
    by_cases hb : b = ks.getD m 0
    · subst hb
      have hfound : scanUp (m + 1) (fun i => decide (ks.getD i 0 = ks.getD m 0)) = m := by
        apply scanUp_eq_of _ _ _ (by omega) (by simp)
        intro j hj
        simp only [decide_eq_false_iff_not]
        exact hdistinct j m (by omega) (by omega) (by omega)
      rw [getD_set_self _ _ _ _ (by rw [ih1]; exact hbytes m (by omega)), hfound,
        if_pos (by omega)]
    · rw [getD_set_ne _ _ _ _ _ (fun h => hb h.symm), ih2 b]
      have hpm : decide (ks.getD m 0 = b) = false := by
        simp only [decide_eq_false_iff_not]
        exact fun h => hb h.symm
      by_cases hc : scanUp m (fun i => decide (ks.getD i 0 = b)) < m
      · have hc' : scanUpFrom (fun i => decide (ks.getD i 0 = b)) 0 m < 0 + m := by
          rw [Nat.zero_add]
          exact hc
        have heq : scanUp (m + 1) (fun i => decide (ks.getD i 0 = b)) =
            scanUp m (fun i => decide (ks.getD i 0 = b)) := by
          apply scanUp_eq_of _ _ _ (by omega)
          · exact scanUpFrom_found _ 0 m hc'
          · intro j hj
            exact scanUpFrom_min _ 0 m j (by omega) hj
        rw [heq, if_pos hc, if_pos (by omega)]
      · have hrfl : scanUpFrom (fun i => decide (ks.getD i 0 = b)) 0 m =
            scanUp m (fun i => decide (ks.getD i 0 = b)) := rfl
        have hle := scanUpFrom_le (fun i => decide (ks.getD i 0 = b)) 0 m
        have habs : scanUp m (fun i => decide (ks.getD i 0 = b)) = m := by omega
        have heq : scanUp (m + 1) (fun i => decide (ks.getD i 0 = b)) = m + 1 := by
          have hall : ∀ j, 0 ≤ j → j < 0 + (m + 1) →
              (fun i => decide (ks.getD i 0 = b)) j = false := by
            intro j hj0 hj
            by_cases hjm : j = m
            · subst hjm
              exact hpm
            · show decide (ks.getD j 0 = b) = false
              exact scanUpFrom_min (fun i => decide (ks.getD i 0 = b)) 0 m j
                (by omega) (by omega)
          have hres := scanUpFrom_all_false _ 0 (m + 1) hall
          simpa [scanUp] using hres
        rw [heq, if_neg (by omega), if_neg (by omega)]

end FoldLemmas

section RemoveLemmas

variable {T : Type}

theorem remove_shift_getD (l : List α) (pos : Nat) (d : α) (j : Nat) :
    (goCopyAt l pos (l.drop (pos + 1))).getD j d =
      if j < pos then l.getD j d
      else if j + 1 < l.length then l.getD (j + 1) d
      else l.getD j d := by
  rw [goCopyAt_getD]
  have hsrc : (l.drop (pos + 1)).length = l.length - (pos + 1) := by simp
  rw [hsrc]
  by_cases h1 : j < pos
  · rw [if_neg (by omega), if_pos h1]
  · by_cases h2 : j + 1 < l.length
    · rw [if_pos ⟨by omega, by omega, by omega⟩, getD_drop, if_neg h1, if_pos h2]
      congr 1
      omega
    · rw [if_neg (by omega), if_neg h1, if_neg h2]

theorem remove_sortedUpto (ks : List Nat) (nc pos : Nat) (hpos : pos < nc)
    (hnc : nc ≤ ks.length) (hsort : sortedUpto ks nc) :
    sortedUpto (goCopyAt ks pos (ks.drop (pos + 1))) (nc - 1) := by
  intro j hj i hij
  rw [remove_shift_getD, remove_shift_getD]
  split_ifs <;> first
    | exact hsort _ (by omega) _ (by omega)
    | omega

theorem remove_dense (ch : List (Option (ANode T))) (nc pos : Nat) (hpos : pos < nc)
    (hnc : nc ≤ ch.length)
    (hdense : ∀ i, i < nc → ((ch.getD i none).isSome = true)) :
    ∀ i, i < nc - 1 →
      (((goCopyAt ch pos (ch.drop (pos + 1))).getD i none).isSome = true) := by
  intro i hi
  rw [remove_shift_getD]
  split_ifs <;> first
    | exact hdense _ (by omega)
    | omega

theorem remove_range (ks : List Nat) (nc pos : Nat) (hpos : pos < nc)
    (hnc : nc ≤ ks.length) (hrange : ∀ i, i < nc → ks.getD i 0 < 256) :
    ∀ i, i < nc - 1 → (goCopyAt ks pos (ks.drop (pos + 1))).getD i 0 < 256 := by
  intro i hi
  rw [remove_shift_getD]
  split_ifs <;> first
    | exact hrange _ (by omega)
    | omega

/-- After a removal shift, looking up the removed byte fails and looking up
any other byte gives exactly what it gave before (same status, same child). -/
theorem remove_lookup (ks : List Nat) (ch : List (Option (ANode T))) (nc pos : Nat)
    (hpos : pos < nc) (hnck : nc ≤ ks.length) (hncc : nc ≤ ch.length)
    (hsort : sortedUpto ks nc) :
    (scanUp (nc - 1) (fun j =>
        decide ((goCopyAt ks pos (ks.drop (pos + 1))).getD j 0 = ks.getD pos 0))
      = nc - 1) ∧
    ∀ b, b ≠ ks.getD pos 0 →
      (scanUp nc (fun j => decide (ks.getD j 0 = b)) < nc →
        scanUp (nc - 1) (fun j =>
            decide ((goCopyAt ks pos (ks.drop (pos + 1))).getD j 0 = b)) < nc - 1 ∧
        (goCopyAt ch pos (ch.drop (pos + 1))).getD
            (scanUp (nc - 1) (fun j =>
              decide ((goCopyAt ks pos (ks.drop (pos + 1))).getD j 0 = b))) none
          = ch.getD (scanUp nc (fun j => decide (ks.getD j 0 = b))) none) ∧
      (scanUp nc (fun j => decide (ks.getD j 0 = b)) = nc →
        scanUp (nc - 1) (fun j =>
            decide ((goCopyAt ks pos (ks.drop (pos + 1))).getD j 0 = b)) = nc - 1) := by
  have hinj : ∀ i j, i < nc → j < nc → i ≠ j → ks.getD i 0 ≠ ks.getD j 0 := by
    intro i j hi hj hne
    rcases Nat.lt_or_ge i j with h | h
    · have := hsort j hj i h
      omega
    · have := hsort i hi j (by omega)
      omega
  constructor
  · have hall : ∀ j, 0 ≤ j → j < 0 + (nc - 1) →
        (fun j => decide ((goCopyAt ks pos (ks.drop (pos + 1))).getD j 0
          = ks.getD pos 0)) j = false := by
      intro j hj0 hj
      simp only
      rw [remove_shift_getD]
      by_cases h1 : j < pos
      · rw [if_pos h1]
        simp only [decide_eq_false_iff_not]
        exact hinj j pos (by omega) (by omega) (by omega)
      · rw [if_neg h1, if_pos (by omega)]
        simp only [decide_eq_false_iff_not]
        exact hinj (j + 1) pos (by omega) (by omega) (by omega)
    have hres := scanUpFrom_all_false _ 0 (nc - 1) hall
    simpa [scanUp] using hres
  · intro b hbp
    have hrle : scanUp nc (fun j => decide (ks.getD j 0 = b)) ≤ nc := by
      have h2 := scanUpFrom_le (fun j => decide (ks.getD j 0 = b)) 0 nc
      have h3 : scanUpFrom (fun j => decide (ks.getD j 0 = b)) 0 nc =
          scanUp nc (fun j => decide (ks.getD j 0 = b)) := rfl
      omega
    have hrmin : ∀ j, j < scanUp nc (fun j => decide (ks.getD j 0 = b)) →
        ks.getD j 0 ≠ b := by
      intro j hj
      have := scanUpFrom_min (fun j => decide (ks.getD j 0 = b)) 0 nc j (by omega) hj
      simpa using this
    constructor
    · intro hfound
      set r := scanUp nc (fun j => decide (ks.getD j 0 = b)) with hrdef
      have hrb : ks.getD r 0 = b := by
        have := scanUpFrom_found (fun j => decide (ks.getD j 0 = b)) 0 nc
          (by simpa [hrdef, scanUp] using hfound)
        simpa [hrdef, scanUp] using this
      have hrpos : r ≠ pos := by
        intro heq
        rw [heq] at hrb
        exact hbp hrb.symm
      have heq : scanUp (nc - 1) (fun j =>
          decide ((goCopyAt ks pos (ks.drop (pos + 1))).getD j 0 = b)) =
          if r < pos then r else r - 1 := by
        apply scanUp_eq_of
        · split <;> omega
        · try simp only
          rw [remove_shift_getD]
          split
          · next hcase =>
            simp only [decide_eq_true_eq]
            exact hrb
          · next hcase =>
            rw [if_neg (by omega), if_pos (by omega)]
            simp only [decide_eq_true_eq]
            have hr1 : r - 1 + 1 = r := by omega
            rw [hr1]
            exact hrb
        · intro j hj
          try simp only
          rw [remove_shift_getD]
          by_cases h1 : j < pos
          · rw [if_pos h1]
            simp only [decide_eq_false_iff_not]
            exact hrmin j (by split at hj <;> omega)
          · rw [if_neg h1, if_pos (by split at hj <;> omega)]
            simp only [decide_eq_false_iff_not]
            exact hrmin (j + 1) (by split at hj <;> omega)
      rw [heq]
      refine ⟨by split <;> omega, ?_⟩
      by_cases hcase : r < pos
      · rw [if_pos hcase, remove_shift_getD, if_pos hcase]
      · rw [if_neg hcase, remove_shift_getD, if_neg (by omega), if_pos (by omega)]
        congr 1
        omega
    · intro habsent
      have hall : ∀ j, 0 ≤ j → j < 0 + (nc - 1) →
          (fun j => decide ((goCopyAt ks pos (ks.drop (pos + 1))).getD j 0 = b)) j
            = false := by
        intro j hj0 hj
        simp only
        rw [remove_shift_getD]
        by_cases h1 : j < pos
        · rw [if_pos h1]
          simp only [decide_eq_false_iff_not]
          exact hrmin j (by omega)
        · rw [if_neg h1, if_pos (by omega)]
          simp only [decide_eq_false_iff_not]
          exact hrmin (j + 1) (by omega)
      have hres := scanUpFrom_all_false _ 0 (nc - 1) hall
      simpa [scanUp] using hres

end RemoveLemmas

section StructLemmas

variable {T : Type}

/-- Which Go struct a node value is (4/16/48/256 for the internal variants,
0 for a leaf); the observer behind the Go type switches. -/
def ANode.kindOf : ANode T → Nat
  | .leaf _ _ _ _ _ => 0
  | .node4 _ _ _ _ _ => 4
  | .node16 _ _ _ _ _ => 16
  | .node48 _ _ _ _ _ => 48
  | .node256 _ _ _ _ => 256

theorem copyHeader_node4_eq (a : Nat) (b : List Nat) (n0 : Nat) (K : List Nat)
    (C : List (Option (ANode T))) (src : ANode T) :
    copyHeader (ANode.node4 a b n0 K C) src =
      ANode.node4 src.getPartialLen
        (src.getPartialBytes.take (min maxPrefixLen src.getPartialLen) ++
          b.drop (min maxPrefixLen src.getPartialLen))
        src.getNumChildren K C := rfl

theorem copyHeader_node16_eq (a : Nat) (b : List Nat) (n0 : Nat) (K : List Nat)
    (C : List (Option (ANode T))) (src : ANode T) :
    copyHeader (ANode.node16 a b n0 K C) src =
      ANode.node16 src.getPartialLen
        (src.getPartialBytes.take (min maxPrefixLen src.getPartialLen) ++
          b.drop (min maxPrefixLen src.getPartialLen))
        src.getNumChildren K C := rfl

theorem copyHeader_node48_eq (a : Nat) (b : List Nat) (n0 : Nat) (K : List Nat)
    (C : List (Option (ANode T))) (src : ANode T) :
    copyHeader (ANode.node48 a b n0 K C) src =
      ANode.node48 src.getPartialLen
        (src.getPartialBytes.take (min maxPrefixLen src.getPartialLen) ++
          b.drop (min maxPrefixLen src.getPartialLen))
        src.getNumChildren K C := rfl

theorem copyHeader_node256_eq (a : Nat) (b : List Nat) (n0 : Nat)
    (C : List (Option (ANode T))) (src : ANode T) :
    copyHeader (ANode.node256 a b n0 C) src =
      ANode.node256 src.getPartialLen
        (src.getPartialBytes.take (min maxPrefixLen src.getPartialLen) ++
          b.drop (min maxPrefixLen src.getPartialLen))
        src.getNumChildren C := rfl

theorem addChild4_insert_eq (pl : Nat) (pb ks : List Nat)
    (ch : List (Option (ANode T))) (nc c : Nat) (child : ANode T) (h : nc < 4) :
    addChild4 (ANode.node4 pl pb nc ks ch) c child =
      ANode.node4 pl pb (nc + 1) (insertAtShift ks (insIdx ks nc c) nc c)
        (insertAtShift ch (insIdx ks nc c) nc (some child)) := by
  simp only [addChild4]
  rw [if_pos h]

theorem addChild4_promote_eq (pl : Nat) (pb ks : List Nat)
    (ch : List (Option (ANode T))) (nc c : Nat) (child : ANode T) (h : ¬ nc < 4) :
    addChild4 (ANode.node4 pl pb nc ks ch) c child =
      addChild16 (copyHeader
        (ANode.node16 maxPrefixLen (List.replicate maxPrefixLen 0) 0
          (goCopy (List.replicate 16 0) (ks.take nc))
          (goCopy (List.replicate 16 none) (ch.take nc)))
        (ANode.node4 pl pb nc ks ch)) c child := by
  simp only [addChild4]
  rw [if_neg h]
  rfl

theorem addChild16_insert_eq (pl : Nat) (pb ks : List Nat)
    (ch : List (Option (ANode T))) (nc c : Nat) (child : ANode T) (h : nc < 16) :
    addChild16 (ANode.node16 pl pb nc ks ch) c child =
      ANode.node16 pl pb (nc + 1) (insertAtShift ks (insIdx ks nc c) nc c)
        (insertAtShift ch (insIdx ks nc c) nc (some child)) := by
  simp only [addChild16]
  rw [if_pos h]

theorem addChild16_promote_eq (pl : Nat) (pb ks : List Nat)
    (ch : List (Option (ANode T))) (nc c : Nat) (child : ANode T) (h : ¬ nc < 16) :
    addChild16 (ANode.node16 pl pb nc ks ch) c child =
      addChild48 (copyHeader
        (ANode.node48 maxPrefixLen (List.replicate maxPrefixLen 0) 0
          ((List.range nc).foldl (promote16Step ks) (List.replicate 256 0))
          (goCopy (List.replicate 48 none) (ch.take nc)))
        (ANode.node16 pl pb nc ks ch)) c child := by
  simp only [addChild16]
  rw [if_neg h]
  rfl

theorem addChild48_insert_eq (pl : Nat) (pb ks : List Nat)
    (ch : List (Option (ANode T))) (nc c : Nat) (child : ANode T) (h : nc < 48) :
    addChild48 (ANode.node48 pl pb nc ks ch) c child =
      ANode.node48 pl pb (nc + 1)
        (ks.set c (scanUp 48 (fun s => (ch.getD s none).isNone) + 1))
        (ch.set (scanUp 48 (fun s => (ch.getD s none).isNone)) (some child)) := by
  simp only [addChild48]
  rw [if_pos h]

theorem addChild48_promote_eq (pl : Nat) (pb ks : List Nat)
    (ch : List (Option (ANode T))) (nc c : Nat) (child : ANode T) (h : ¬ nc < 48) :
    addChild48 (ANode.node48 pl pb nc ks ch) c child =
      addChild256 (copyHeader
        (ANode.node256 maxPrefixLen (List.replicate maxPrefixLen 0) 0
          ((List.range 256).map
            (fun i => if ks.getD i 0 ≠ 0 then ch.getD (ks.getD i 0 - 1) none else none)))
        (ANode.node48 pl pb nc ks ch)) c child := by
  simp only [addChild48]
  rw [if_neg h]
  rfl

theorem addChild256_eq (pl : Nat) (pb : List Nat)
    (ch : List (Option (ANode T))) (nc c : Nat) (child : ANode T) :
    addChild256 (ANode.node256 pl pb nc ch) c child =
      ANode.node256 pl pb (nc + 1) (ch.set c (some child)) := rfl

theorem removeChild4_shift_eq (pl : Nat) (pb ks : List Nat)
    (ch : List (Option (ANode T))) (nc pos : Nat) (h : nc - 1 ≠ 1) :
    removeChild4 (ANode.node4 pl pb nc ks ch) pos =
      ANode.node4 pl pb (nc - 1) (goCopyAt ks pos (ks.drop (pos + 1)))
        (goCopyAt ch pos (ch.drop (pos + 1))) := by
  simp only [removeChild4]
  rw [if_neg h]

theorem removeChild16_shift_eq (pl : Nat) (pb ks : List Nat)
    (ch : List (Option (ANode T))) (nc pos : Nat) (h : nc - 1 ≠ 3) :
    removeChild16 (ANode.node16 pl pb nc ks ch) pos =
      ANode.node16 pl pb (nc - 1) (goCopyAt ks pos (ks.drop (pos + 1)))
        (goCopyAt ch pos (ch.drop (pos + 1))) := by
  simp only [removeChild16]
  rw [if_neg h]

theorem removeChild16_demote_eq (pl : Nat) (pb ks : List Nat)
    (ch : List (Option (ANode T))) (nc pos : Nat) (h : nc - 1 = 3) :
    removeChild16 (ANode.node16 pl pb nc ks ch) pos =
      ANode.node4 pl
        (pb.take (min maxPrefixLen pl) ++
          (List.replicate maxPrefixLen 0).drop (min maxPrefixLen pl))
        (nc - 1)
        (goCopy (List.replicate 4 0) ((goCopyAt ks pos (ks.drop (pos + 1))).take 4))
        (goCopy (List.replicate 4 none) ((goCopyAt ch pos (ch.drop (pos + 1))).take 4)) := by
  simp only [removeChild16]
  rw [if_pos h]
  rfl

theorem removeChild48_shift_eq (pl : Nat) (pb ks : List Nat)
    (ch : List (Option (ANode T))) (nc c : Nat) (h : nc - 1 ≠ 12) :
    removeChild48 (ANode.node48 pl pb nc ks ch) c =
      ANode.node48 pl pb (nc - 1) (ks.set c 0) (ch.set (ks.getD c 0 - 1) none) := by
  simp only [removeChild48]
  rw [if_neg h]

theorem removeChild48_demote_eq (pl : Nat) (pb ks : List Nat)
    (ch : List (Option (ANode T))) (nc c : Nat) (h : nc - 1 = 12) :
    removeChild48 (ANode.node48 pl pb nc ks ch) c =
      ANode.node16 pl
        (pb.take (min maxPrefixLen pl) ++
          (List.replicate maxPrefixLen 0).drop (min maxPrefixLen pl))
        (nc - 1)
        ((List.range 256).foldl
          (demote48Step (ks.set c 0) (ch.set (ks.getD c 0 - 1) none))
          (0, List.replicate 16 0, List.replicate 16 none)).2.1
        ((List.range 256).foldl
          (demote48Step (ks.set c 0) (ch.set (ks.getD c 0 - 1) none))
          (0, List.replicate 16 0, List.replicate 16 none)).2.2 := by
  simp only [removeChild48]
  rw [if_pos h]
  rfl

theorem removeChild256_shift_eq (pl : Nat) (pb : List Nat)
    (ch : List (Option (ANode T))) (nc c : Nat) (h : nc - 1 ≠ 37) :
    removeChild256 (ANode.node256 pl pb nc ch) c =
      ANode.node256 pl pb (nc - 1) (ch.set c none) := by
  simp only [removeChild256]
  rw [if_neg h]

theorem removeChild256_demote_eq (pl : Nat) (pb : List Nat)
    (ch : List (Option (ANode T))) (nc c : Nat) (h : nc - 1 = 37) :
    removeChild256 (ANode.node256 pl pb nc ch) c =
      ANode.node48 pl
        (pb.take (min maxPrefixLen pl) ++
          (List.replicate maxPrefixLen 0).drop (min maxPrefixLen pl))
        (nc - 1)
        ((List.range 256).foldl (demote256Step (ch.set c none))
          (0, List.replicate 256 0, List.replicate 48 none)).2.1
        ((List.range 256).foldl (demote256Step (ch.set c none))
          (0, List.replicate 256 0, List.replicate 48 none)).2.2 := by
  simp only [removeChild256]
  rw [if_pos h]
  rfl

end StructLemmas

section MoreListLemmas

variable {α : Type _} {β : Type _}

theorem getD_eq_get (l : List α) (i : Nat) (d : α) (h : i < l.length) :
    l.getD i d = l.get ⟨i, h⟩ := by
  rw [List.getD_eq_getElem?_getD, List.getElem?_eq_getElem h]
  rfl

theorem getD_map (f : α → β) (l : List α) (i : Nat) (d : β) (e : α)
    (h : i < l.length) :
    (l.map f).getD i d = f (l.getD i e) := by
  rw [getD_eq_get _ _ _ (by simpa using h), getD_eq_get _ _ _ h, List.get_map]

theorem getD_map_range (f : Nat → β) (m b : Nat) (d : β) :
    ((List.range m).map f).getD b d = if b < m then f b else d := by
  by_cases hb : b < m
  · rw [getD_map f _ _ _ 0 (by simpa using hb), if_pos hb]
    congr 1
    rw [getD_eq_get _ _ _ (by simpa using hb), List.get_range]
  · rw [if_neg hb, getD_of_length_le]
    simpa using Nat.le_of_not_lt hb

/-- In the filtered range list, the element whose byte is `b` sits exactly at
position `count of matching bytes below b`. -/
theorem filter_range_count_getD (p : Nat → Bool) (m b : Nat) (hb : b < m)
    (hpb : p b = true) :
    ((List.range b).filter p).length < ((List.range m).filter p).length ∧
    ((List.range m).filter p).getD (((List.range b).filter p).length) 0 = b := by
  induction m with
  | zero => omega
  | succ m ih =>
    rw [List.range_succ, List.filter_append]
    by_cases hbm : b = m
    · subst hbm
      have hfb : [b].filter p = [b] := by simp [hpb]
      rw [hfb]
      constructor
      · simp
      · rw [getD_append, if_neg (by omega)]
        have hz : (List.filter p (List.range b)).length -
            (List.filter p (List.range b)).length = 0 := by omega
        rw [hz]
        rfl
    · obtain ⟨ih1, ih2⟩ := ih (by omega)
      constructor
      · simp only [List.length_append]
        omega
      · rw [getD_append, if_pos ih1]
        exact ih2

/-- The filtered range list is strictly increasing. -/
theorem filter_range_getD_lt (p : Nat → Bool) (m i j : Nat) (hij : i < j)
    (hj : j < ((List.range m).filter p).length) :
    ((List.range m).filter p).getD i 0 < ((List.range m).filter p).getD j 0 := by
  have hpair : ((List.range m).filter p).Pairwise (· < ·) :=
    List.Pairwise.filter p (List.pairwise_lt_range m)
  rw [getD_eq_get _ _ _ (by omega), getD_eq_get _ _ _ hj]
  exact List.pairwise_iff_get.mp hpair ⟨i, by omega⟩ ⟨j, hj⟩ hij

/-- A filter over `range m` whose predicate holds exactly below `k` has
length `k`. -/
theorem filter_range_length_of_iff (p : Nat → Bool) (m k : Nat) (hk : k ≤ m)
    (h : ∀ i, i < m → (p i = true ↔ i < k)) :
    ((List.range m).filter p).length = k := by
  induction m with
  | zero =>
    simp only [List.range_zero, List.filter_nil, List.length_nil]
    omega
  | succ m ih =>
    rw [List.range_succ, List.filter_append, List.length_append]
    by_cases hkm : k ≤ m
    · have hpm : p m = false := by
        rcases Bool.eq_false_or_eq_true (p m) with ht | hf
        · have := (h m (by omega)).mp ht
          omega
        · exact hf
      rw [ih hkm (fun i hi => h i (by omega))]
      simp [hpm]
    · have hkm1 : k = m + 1 := by omega
      have hpm : p m = true := (h m (by omega)).mpr (by omega)
      have hfull : (List.range m).filter p = List.range m := by
        rw [List.filter_eq_self]
        intro a ha
        have ham : a < m := by simpa using List.mem_range.mp ha
        exact (h a (by omega)).mpr (by omega)
      rw [hfull]
      simp [hpm]
      omega

/-- Pointwise-equal prefixes have the same sortedness. -/
theorem sortedUpto_congr (a b : List Nat) (nc : Nat)
    (h : ∀ j, j < nc → a.getD j 0 = b.getD j 0) (hs : sortedUpto b nc) :
    sortedUpto a nc := by
  intro j hj i hij
  rw [h j hj, h i (by omega)]
  exact hs j hj i hij

/-- Strictly sorted prefixes have pairwise-distinct entries. -/
theorem sortedUpto_inj (ks : List Nat) (nc : Nat) (hs : sortedUpto ks nc) :
    ∀ i j, i < nc → j < nc → i ≠ j → ks.getD i 0 ≠ ks.getD j 0 := by
  intro i j hi hj hne
  rcases Nat.lt_or_ge i j with h | h
  · have := hs j hj i h
    omega
  · have := hs i hi j (by omega)
    omega

/-- A sorted insert keeps every used key byte in range. -/
theorem insert_range (ks : List Nat) (nc c : Nat) (hnc : nc < ks.length)
    (hrange : ∀ i, i < nc → ks.getD i 0 < 256) (hc : c < 256) :
    ∀ i, i < nc + 1 → (insertAtShift ks (insIdx ks nc c) nc c).getD i 0 < 256 := by
  intro i hi
  have hidxle := insIdx_le ks nc c
  rw [insertAtShift_getD _ _ _ _ _ hidxle hnc]
  split_ifs <;> first
    | exact hrange _ (by omega)
    | exact hc
    | omega

/-- The `addChild16` promotion fold produces exactly `m` non-zero index
entries. -/
theorem promote16_count (ks : List Nat) (m : Nat)
    (hm : m ≤ 16)
    (hbytes : ∀ i, i < m → ks.getD i 0 < 256)
    (hdistinct : ∀ i j, i < m → j < m → i ≠ j → ks.getD i 0 ≠ ks.getD j 0) :
    countNonzero ((List.range m).foldl (promote16Step ks) (List.replicate 256 0)) = m := by
  induction m with
  | zero =>
    simp [countNonzero, List.countP_eq_zero]
  | succ m ih =>
    have ihc := ih (by omega) (fun i hi => hbytes i (by omega))
      (fun i j hi hj => hdistinct i j (by omega) (by omega))
    obtain ⟨hlen, hchar⟩ := promote16_fold ks m (List.replicate 256 0) (by simp)
      (fun i hi => hbytes i (by omega))
      (fun i j hi hj => hdistinct i j (by omega) (by omega))
      (fun b => by rw [getD_replicate]; split <;> rfl)
    rw [List.range_succ, List.foldl_append]
    simp only [List.foldl_cons, List.foldl_nil, promote16Step]
    have hold : ((List.range m).foldl (promote16Step ks) (List.replicate 256 0)).getD
        (ks.getD m 0) 0 = 0 := by
      rw [hchar]
      have habs : scanUp m (fun i => decide (ks.getD i 0 = ks.getD m 0)) = m := by
        have hall : ∀ j, 0 ≤ j → j < 0 + m →
            (fun i => decide (ks.getD i 0 = ks.getD m 0)) j = false := by
          intro j hj0 hj
          simp only [decide_eq_false_iff_not]
          exact hdistinct j m (by omega) (by omega) (by omega)
        have := scanUpFrom_all_false _ 0 m hall
        simpa [scanUp] using this
      rw [habs, if_neg (by omega)]
    have hcnt := countP_set_eq
      ((List.range m).foldl (promote16Step ks) (List.replicate 256 0))
      (ks.getD m 0) (m + 1) 0 (fun k => decide (k ≠ 0))
      (by rw [hlen]; exact hbytes m (by omega))
    rw [hold] at hcnt
    rw [if_neg (by simp), if_pos (by simp)] at hcnt
    simp only [countNonzero] at ihc ⊢
    omega

end MoreListLemmas

section SharedClaimHelpers

variable {T : Type} {α : Type _}

theorem scanUp_le (bound : Nat) (p : Nat → Bool) : scanUp bound p ≤ bound := by
  have := scanUpFrom_le p 0 bound
  simpa [scanUp] using this

theorem goCopy_take_getD (l0 : List α) (l : List α) (n j : Nat) (d : α)
    (hj : j < n) (hn : n ≤ l.length) (hn0 : n ≤ l0.length) :
    (goCopy l0 (l.take n)).getD j d = l.getD j d := by
  rw [goCopy_getD, if_pos ⟨by omega, by simp; omega⟩, getD_take, if_pos hj]

/-- The explicit prefix bytes survive a header copy into a fresh node. -/
theorem promoted_bytes_getD (pb : List Nat) (pl i : Nat)
    (hi : i < min maxPrefixLen pl) :
    (pb.take (min maxPrefixLen pl) ++
      (List.replicate maxPrefixLen 0).drop (min maxPrefixLen pl)).getD i 0 =
      pb.getD i 0 := by
  rw [getD_append]
  by_cases hp : i < pb.length
  · rw [if_pos (by simp; omega), getD_take, if_pos hi]
  · rw [if_neg (by simp; omega), getD_drop, getD_replicate,
      getD_of_length_le _ _ _ (by omega)]
    split <;> rfl

theorem findChild_node4_eq (pl : Nat) (pb ks : List Nat)
    (ch : List (Option (ANode T))) (nc c : Nat) :
    findChild (ANode.node4 pl pb nc ks ch) c =
      if scanUp nc (fun i => decide (ks.getD i 0 = c)) < nc
      then ch.getD (scanUp nc (fun i => decide (ks.getD i 0 = c))) none
      else none := rfl

theorem findChild_node16_eq (pl : Nat) (pb ks : List Nat)
    (ch : List (Option (ANode T))) (nc c : Nat) :
    findChild (ANode.node16 pl pb nc ks ch) c =
      if scanUp (min nc 16) (fun i => decide (ks.getD i 0 = c)) < min nc 16
      then ch.getD (scanUp (min nc 16) (fun i => decide (ks.getD i 0 = c))) none
      else none := rfl

theorem findChild_node48_eq (pl : Nat) (pb ks : List Nat)
    (ch : List (Option (ANode T))) (c : Nat) :
    findChild (ANode.node48 pl pb 0 ks ch) c =
      if ks.getD c 0 ≠ 0 then ch.getD (ks.getD c 0 - 1) none else none := rfl

theorem findChild_node48_eq' (pl : Nat) (pb ks : List Nat)
    (ch : List (Option (ANode T))) (nc c : Nat) :
    findChild (ANode.node48 pl pb nc ks ch) c =
      if ks.getD c 0 ≠ 0 then ch.getD (ks.getD c 0 - 1) none else none := rfl

theorem findChild_node256_eq (pl : Nat) (pb : List Nat)
    (ch : List (Option (ANode T))) (nc c : Nat) :
    findChild (ANode.node256 pl pb nc ch) c = ch.getD c none := rfl

end SharedClaimHelpers

section CountBridge

variable {T : Type}

theorem countNonzero_eq_filter_length (ks : List Nat) (h : ks.length = 256) :
    countNonzero ks =
      ((List.range 256).filter (fun i => decide (ks.getD i 0 ≠ 0))).length := by
  simp only [countNonzero]
  have hx := countP_eq_countP_range ks (fun k => decide (k ≠ 0)) 0
  rw [h] at hx
  exact hx

theorem countSomeSlots_eq_filter_length (ch : List (Option (ANode T)))
    (h : ch.length = 256) :
    countSomeSlots ch =
      ((List.range 256).filter (fun i => (ch.getD i none).isSome)).length := by
  simp only [countSomeSlots]
  have hx := countP_eq_countP_range ch (fun o => o.isSome) none
  rw [h] at hx
  exact hx

end CountBridge

section WfLemmas

variable {T : Type}

theorem wfDeep_iff (n : ANode T) :
    wfDeep n ↔ (wfShallow n ∧
      ∀ i, i < n.childrenOf.length → ∀ x, slotGet n.childrenOf i = some x → wfDeep x) := by
  cases n <;> simp [wfDeep, ANode.childrenOf, wfShallow, slotGet]

theorem wfDeep_shallow (n : ANode T) (h : wfDeep n) : wfShallow n :=
  ((wfDeep_iff n).mp h).1

theorem wfDeep_children (n : ANode T) (h : wfDeep n) :
    ∀ i x, slotGet n.childrenOf i = some x → wfDeep x := by
  intro i x hx
  by_cases hi : i < n.childrenOf.length
  · exact ((wfDeep_iff n).mp h).2 i hi x hx
  · rw [slotGet, getD_of_length_le _ _ _ (by omega)] at hx
    exact Option.noConfusion hx

theorem wfDeep_mk (n : ANode T) (h1 : wfShallow n)
    (h2 : ∀ i x, slotGet n.childrenOf i = some x → wfDeep x) : wfDeep n :=
  (wfDeep_iff n).mpr ⟨h1, fun i _ x hx => h2 i x hx⟩

theorem wfShallow_setPartialBytes (n : ANode T) (xs : List Nat) :
    wfShallow (n.setPartialBytes xs) ↔ wfShallow n := by
  cases n <;> simp [ANode.setPartialBytes, wfShallow]

theorem wfShallow_setPartialLen (n : ANode T) (x : Nat) :
    wfShallow (n.setPartialLen x) ↔ wfShallow n := by
  cases n <;> simp [ANode.setPartialLen, wfShallow]

theorem wfDeep_setPartialBytes (n : ANode T) (xs : List Nat) (h : wfDeep n) :
    wfDeep (n.setPartialBytes xs) := by
  apply wfDeep_mk
  · rw [wfShallow_setPartialBytes]
    exact wfDeep_shallow n h
  · intro i x hx
    apply wfDeep_children n h i x
    rw [← hx]
    congr 1
    cases n <;> rfl

theorem wfDeep_setPartialLen (n : ANode T) (x : Nat) (h : wfDeep n) :
    wfDeep (n.setPartialLen x) := by
  apply wfDeep_mk
  · rw [wfShallow_setPartialLen]
    exact wfDeep_shallow n h
  · intro i y hy
    apply wfDeep_children n h i y
    rw [← hy]
    congr 1
    cases n <;> rfl

end WfLemmas

section WfAddLemmas

variable {T : Type}

/-- `addChild256` preserves the hereditary invariant. -/
theorem wfDeep_addChild256 (pl : Nat) (pb : List Nat) (nc c : Nat)
    (ch : List (Option (ANode T))) (child : ANode T)
    (hwf : wfDeep (ANode.node256 pl pb nc ch)) (hchild : wfDeep child)
    (hc : c < 256) (habs : ch.getD c none = none) :
    wfDeep (addChild256 (ANode.node256 pl pb nc ch) c child) := by
  obtain ⟨hch, hle, hcs⟩ := wfDeep_shallow _ hwf
  have hkids := wfDeep_children _ hwf
  rw [addChild256_eq]
  apply wfDeep_mk
  · refine ⟨by simp [hch], ?_, ?_⟩
    · have hmem : ch.get ⟨c, by omega⟩ ∈ ch := List.get_mem _ _ _
      have hlt : ch.countP (fun o => o.isSome) < 256 := by
        rcases Nat.lt_or_ge (ch.countP (fun o => o.isSome)) 256 with h | h
        · exact h
        · exfalso
          have hgecnt : ch.countP (fun o => o.isSome) ≤ ch.length :=
            List.countP_le_length _
          have hall : ch.countP (fun o => o.isSome) = ch.length := by omega
          have hsome := List.countP_eq_length.mp hall _ hmem
          rw [← getD_eq_get ch c none (by omega), habs] at hsome
          exact Bool.noConfusion hsome
      simp only [countSomeSlots] at hcs
      omega
    · have hcnt := countP_set_eq ch c (some child) none (fun o => o.isSome) (by omega)
      rw [if_neg (by rw [habs]; simp), if_pos (by simp)] at hcnt
      simp only [countSomeSlots] at hcs ⊢
      omega
  · intro i x hx
    rw [slotGet, ANode.childrenOf] at hx
    by_cases hic : i = c
    · rw [hic, getD_set_self _ _ _ _ (by omega)] at hx
      cases hx
      exact hchild
    · rw [getD_set_ne _ _ _ _ _ (fun h => hic h.symm)] at hx
      exact hkids i x hx

/-- `addChild48` preserves the hereditary invariant (both the free-slot insert
and the promotion to `Node256`). -/
theorem wfDeep_addChild48 (pl : Nat) (pb : List Nat) (nc c : Nat)
    (ks : List Nat) (ch : List (Option (ANode T))) (child : ANode T)
    (hwf : wfDeep (ANode.node48 pl pb nc ks ch)) (hchild : wfDeep child)
    (hc : c < 256) (habs : ks.getD c 0 = 0) :
    wfDeep (addChild48 (ANode.node48 pl pb nc ks ch) c child) := by
  obtain ⟨hk, hch, hle, hcnz, hcsome, hvalid, hinj⟩ := wfDeep_shallow _ hwf
  have hkids := wfDeep_children _ hwf
  by_cases hlt : nc < 48
  · rw [addChild48_insert_eq _ _ _ _ _ _ _ hlt]
    have hexists : ∃ j, j < 48 ∧ ((ch.getD j none).isNone) = true := by
      obtain ⟨j, hj, hjn⟩ := exists_none_slot ch
        (by rw [hch]; simp only [countSomeSlots] at hcsome; omega)
      exact ⟨j, by omega, hjn⟩
    have hposlt : scanUp 48 (fun s => (ch.getD s none).isNone) < 48 :=
      scanUp_lt_of_exists _ _ hexists
    have hposnone : ch.getD (scanUp 48 (fun s => (ch.getD s none).isNone)) none
        = none := by
      have := scanUpFrom_found (fun s => (ch.getD s none).isNone) 0 48
        (by simpa [scanUp] using hposlt)
      simpa [scanUp, Option.isNone_iff_eq_none] using this
    apply wfDeep_mk
    · refine ⟨by simp [hk], by simp [hch], by omega, ?_, ?_, ?_, ?_⟩
      · have hcnt := countP_set_eq ks c
          (scanUp 48 (fun s => (ch.getD s none).isNone) + 1) 0
          (fun k => decide (k ≠ 0)) (by omega)
        rw [if_neg (by rw [habs]; simp), if_pos (by simp)] at hcnt
        simp only [countNonzero] at hcnz ⊢
        omega
      · have hcnt := countP_set_eq ch (scanUp 48 (fun s => (ch.getD s none).isNone))
          (some child) none (fun o => o.isSome) (by omega)
        rw [if_neg (by rw [hposnone]; simp), if_pos (by simp)] at hcnt
        simp only [countSomeSlots] at hcsome ⊢
        omega
      · intro b hb hbne
        by_cases hbc : b = c
        · rw [hbc, getD_set_self _ _ _ _ (by omega)]
          refine ⟨by omega, ?_⟩
          rw [Nat.add_sub_cancel, getD_set_self _ _ _ _ (by omega)]
          rfl
        · rw [getD_set_ne _ _ _ _ _ (fun h => hbc h.symm)] at hbne ⊢
          obtain ⟨hle48, hslot⟩ := hvalid b hb hbne
          refine ⟨hle48, ?_⟩
          have hnep : ks.getD b 0 - 1 ≠ scanUp 48 (fun s => (ch.getD s none).isNone) := by
            intro heq
            rw [heq, hposnone] at hslot
            exact Bool.noConfusion hslot
          rw [getD_set_ne _ _ _ _ _ (fun h => hnep h.symm)]
          exact hslot
      · intro b1 b2 h1 h2 hne hnz
        have hfresh_entry : ∀ b', b' < 256 → ks.getD b' 0 ≠
            scanUp 48 (fun s => (ch.getD s none).isNone) + 1 := by
          intro b' hb' heq
          have hnz' : ks.getD b' 0 ≠ 0 := by omega
          have hslot := (hvalid b' hb' hnz').2
          rw [heq, Nat.add_sub_cancel, hposnone] at hslot
          exact Bool.noConfusion hslot
        by_cases hb1c : b1 = c
        · have hb2c : b2 ≠ c := fun h => hne (hb1c.trans h.symm)
          rw [hb1c, getD_set_self _ _ _ _ (by omega),
            getD_set_ne _ _ _ _ _ (fun h => hb2c h.symm)]
          exact fun h => hfresh_entry b2 h2 h.symm
        · rw [getD_set_ne _ _ _ _ _ (fun h => hb1c h.symm)] at hnz ⊢
          by_cases hb2c : b2 = c
          · rw [hb2c, getD_set_self _ _ _ _ (by omega)]
            exact hfresh_entry b1 h1
          · rw [getD_set_ne _ _ _ _ _ (fun h => hb2c h.symm)]
            exact hinj b1 b2 h1 h2 hne hnz
    · intro i x hx
      rw [slotGet, ANode.childrenOf] at hx
      by_cases hip : i = scanUp 48 (fun s => (ch.getD s none).isNone)
      · rw [hip, getD_set_self _ _ _ _ (by omega)] at hx
        cases hx
        exact hchild
      · rw [getD_set_ne _ _ _ _ _ (fun h => hip h.symm)] at hx
        exact hkids i x hx
  · rw [addChild48_promote_eq _ _ _ _ _ _ _ hlt, copyHeader_node256_eq]
    simp only [ANode.getPartialLen, ANode.getPartialBytes, ANode.getNumChildren]
    apply wfDeep_addChild256
    · apply wfDeep_mk
      · refine ⟨by simp, by omega, ?_⟩
        have hlen256 : ((List.range 256).map (fun i =>
            if ks.getD i 0 ≠ 0 then ch.getD (ks.getD i 0 - 1) none else none)).length
            = 256 := by simp
        rw [countSomeSlots_eq_filter_length _ hlen256]
        have hfc : (List.range 256).filter (fun i => ((((List.range 256).map (fun i =>
            if ks.getD i 0 ≠ 0 then ch.getD (ks.getD i 0 - 1) none else none))).getD i
              none).isSome) =
            (List.range 256).filter (fun i => decide (ks.getD i 0 ≠ 0)) := by
          apply List.filter_congr
          intro x hx
          have hx256 : x < 256 := List.mem_range.mp hx
          show ((((List.range 256).map (fun i =>
            if ks.getD i 0 ≠ 0 then ch.getD (ks.getD i 0 - 1) none else none))).getD x
              none).isSome = decide (ks.getD x 0 ≠ 0)
          rw [getD_map_range, if_pos hx256]
          by_cases hz : ks.getD x 0 ≠ 0
          · rw [if_pos hz, (hvalid x hx256 hz).2]
            exact (decide_eq_true hz).symm
          · rw [if_neg hz]
            exact (decide_eq_false hz).symm
        rw [hfc, ← countNonzero_eq_filter_length ks hk, hcnz]
      · intro i x hx
        rw [slotGet, ANode.childrenOf, getD_map_range] at hx
        by_cases hi256 : i < 256
        · rw [if_pos hi256] at hx
          by_cases hz : ks.getD i 0 ≠ 0
          · rw [if_pos hz] at hx
            exact hkids _ x hx
          · rw [if_neg hz] at hx
            exact Option.noConfusion hx
        · rw [if_neg hi256] at hx
          exact Option.noConfusion hx
    · exact hchild
    · exact hc
    · rw [getD_map_range, if_pos hc, if_neg (by simpa using habs)]

end WfAddLemmas

section WfAddSmallLemmas

variable {T : Type}

theorem insert_children_wf (ch : List (Option (ANode T))) (idx nc : Nat)
    (child : ANode T) (hidx : idx ≤ nc) (hnc : nc < ch.length)
    (hold : ∀ i x, ch.getD i none = some x → wfDeep x) (hchild : wfDeep child) :
    ∀ i x, (insertAtShift ch idx nc (some child)).getD i none = some x → wfDeep x := by
  intro i x hx
  rw [insertAtShift_getD _ _ _ _ _ hidx hnc] at hx
  split_ifs at hx
  · exact hold _ _ hx
  · cases hx
    exact hchild
  · exact hold _ _ hx
  · exact hold _ _ hx

theorem remove_children_wf (ch : List (Option (ANode T))) (pos : Nat)
    (hold : ∀ i x, ch.getD i none = some x → wfDeep x) :
    ∀ i x, (goCopyAt ch pos (ch.drop (pos + 1))).getD i none = some x → wfDeep x := by
  intro i x hx
  rw [remove_shift_getD] at hx
  split_ifs at hx <;> exact hold _ _ hx

/-- `addChild16` preserves the hereditary invariant (sorted insert and the
promotion to `Node48`). -/
theorem wfDeep_addChild16 (pl : Nat) (pb : List Nat) (nc c : Nat)
    (ks : List Nat) (ch : List (Option (ANode T))) (child : ANode T)
    (hwf : wfDeep (ANode.node16 pl pb nc ks ch)) (hchild : wfDeep child)
    (hc : c < 256) (hfresh : ∀ i, i < nc → ks.getD i 0 ≠ c) :
    wfDeep (addChild16 (ANode.node16 pl pb nc ks ch) c child) := by
  obtain ⟨hk, hch, hle, hdense, hsort, hrange⟩ := wfDeep_shallow _ hwf
  have hkids := wfDeep_children _ hwf
  by_cases hlt : nc < 16
  · rw [addChild16_insert_eq _ _ _ _ _ _ _ hlt]
    apply wfDeep_mk
    · exact ⟨by rw [insertAtShift_length, hk], by rw [insertAtShift_length, hch],
        by omega,
        insert_dense ch (insIdx ks nc c) nc child (insIdx_le ks nc c) (by omega) hdense,
        insert_sortedUpto ks nc c (by omega) hsort hfresh,
        insert_range ks nc c (by omega) hrange hc⟩
    · intro i x hx
      exact insert_children_wf ch (insIdx ks nc c) nc child (insIdx_le ks nc c)
        (by omega) (fun j y hy => hkids j y hy) hchild i x hx
  · rw [addChild16_promote_eq _ _ _ _ _ _ _ hlt, copyHeader_node48_eq]
    simp only [ANode.getPartialLen, ANode.getPartialBytes, ANode.getNumChildren]
    have hnc16 : nc = 16 := by omega
    obtain ⟨hlen48, hchar⟩ := promote16_fold ks nc (List.replicate 256 0) (by simp)
      (fun i hi => hrange i hi) (sortedUpto_inj ks nc hsort)
      (fun b => by rw [getD_replicate]; split <;> rfl)
    have hch48len : (goCopy (List.replicate 48 none) (ch.take nc)).length = 48 := by
      simp [goCopy_length]
    have hch48eq : ∀ s, s < nc →
        (goCopy (List.replicate 48 none) (ch.take nc)).getD s none = ch.getD s none :=
      fun s hs => goCopy_take_getD _ ch nc s none hs (by omega) (by simp; omega)
    have hch48none : ∀ s, nc ≤ s →
        (goCopy (List.replicate 48 none) (ch.take nc)).getD s none = none := by
      intro s hs
      rw [goCopy_getD, if_neg (by simp [hch]; omega), getD_replicate]
      split <;> rfl
    apply wfDeep_addChild48
    · apply wfDeep_mk
      · refine ⟨hlen48, hch48len, by omega, ?_, ?_, ?_, ?_⟩
        · exact promote16_count ks nc (by omega) (fun i hi => hrange i hi)
            (sortedUpto_inj ks nc hsort)
        · simp only [countSomeSlots]
          rw [countP_eq_countP_range _ _ none, hch48len]
          apply filter_range_length_of_iff _ _ nc (by omega)
          intro i hi48
          constructor
          · intro hi
            by_contra hge
            rw [hch48none i (by omega)] at hi
            exact Bool.noConfusion hi
          · intro hi
            rw [hch48eq i hi]
            exact hdense i (by omega)
        · intro b hb hbne
          rw [hchar b] at hbne ⊢
          by_cases hf : scanUp nc (fun i => decide (ks.getD i 0 = b)) < nc
          · rw [if_pos hf]
            refine ⟨by omega, ?_⟩
            rw [Nat.add_sub_cancel, hch48eq _ hf]
            exact hdense _ (by omega)
          · rw [if_neg hf] at hbne
            omega
        · intro b1 b2 h1 h2 hne hnz
          rw [hchar b1] at hnz ⊢
          rw [hchar b2]
          by_cases hf1 : scanUp nc (fun i => decide (ks.getD i 0 = b1)) < nc
          · rw [if_pos hf1]
            have hb1val : ks.getD (scanUp nc (fun i => decide (ks.getD i 0 = b1))) 0
                = b1 := by
              have h := scanUpFrom_found (fun i => decide (ks.getD i 0 = b1)) 0 nc
                (by simpa [scanUp] using hf1)
              simpa [scanUp] using h
            by_cases hf2 : scanUp nc (fun i => decide (ks.getD i 0 = b2)) < nc
            · rw [if_pos hf2]
              have hb2val : ks.getD (scanUp nc (fun i => decide (ks.getD i 0 = b2))) 0
                  = b2 := by
                have h := scanUpFrom_found (fun i => decide (ks.getD i 0 = b2)) 0 nc
                  (by simpa [scanUp] using hf2)
                simpa [scanUp] using h
              intro heq
              have hss : scanUp nc (fun i => decide (ks.getD i 0 = b1)) =
                  scanUp nc (fun i => decide (ks.getD i 0 = b2)) := by omega
              apply hne
              rw [← hb1val, ← hb2val, hss]
            · rw [if_neg hf2]
              omega
          · rw [if_neg hf1] at hnz
            omega
      · intro i x hx
        rw [slotGet, ANode.childrenOf] at hx
        by_cases hi : i < nc
        · rw [hch48eq i hi] at hx
          exact hkids i x hx
        · rw [hch48none i (by omega)] at hx
          exact Option.noConfusion hx
    · exact hchild
    · exact hc
    · rw [hchar c]
      have hfscan : scanUp nc (fun i => decide (ks.getD i 0 = c)) = nc := by
        have hall : ∀ j, 0 ≤ j → j < 0 + nc →
            (fun i => decide (ks.getD i 0 = c)) j = false := by
          intro j hj0 hj
          simp only [decide_eq_false_iff_not]
          exact hfresh j (by omega)
        have := scanUpFrom_all_false _ 0 nc hall
        simpa [scanUp] using this
      rw [hfscan, if_neg (by omega)]

/-- `addChild4` preserves the hereditary invariant (sorted insert and the
promotion to `Node16`). -/
theorem wfDeep_addChild4 (pl : Nat) (pb : List Nat) (nc c : Nat)
    (ks : List Nat) (ch : List (Option (ANode T))) (child : ANode T)
    (hwf : wfDeep (ANode.node4 pl pb nc ks ch)) (hchild : wfDeep child)
    (hc : c < 256) (hfresh : ∀ i, i < nc → ks.getD i 0 ≠ c) :
    wfDeep (addChild4 (ANode.node4 pl pb nc ks ch) c child) := by
  obtain ⟨hk, hch, hle, hdense, hsort, hrange⟩ := wfDeep_shallow _ hwf
  have hkids := wfDeep_children _ hwf
  by_cases hlt : nc < 4
  · rw [addChild4_insert_eq _ _ _ _ _ _ _ hlt]
    apply wfDeep_mk
    · exact ⟨by rw [insertAtShift_length, hk], by rw [insertAtShift_length, hch],
        by omega,
        insert_dense ch (insIdx ks nc c) nc child (insIdx_le ks nc c) (by omega) hdense,
        insert_sortedUpto ks nc c (by omega) hsort hfresh,
        insert_range ks nc c (by omega) hrange hc⟩
    · intro i x hx
      exact insert_children_wf ch (insIdx ks nc c) nc child (insIdx_le ks nc c)
        (by omega) (fun j y hy => hkids j y hy) hchild i x hx
  · rw [addChild4_promote_eq _ _ _ _ _ _ _ hlt, copyHeader_node16_eq]
    simp only [ANode.getPartialLen, ANode.getPartialBytes, ANode.getNumChildren]
    have hkeq : ∀ j, j < nc →
        (goCopy (List.replicate 16 0) (ks.take nc)).getD j 0 = ks.getD j 0 :=
      fun j hj => goCopy_take_getD _ ks nc j 0 hj (by omega) (by simp; omega)
    have hceq : ∀ j, j < nc →
        (goCopy (List.replicate 16 none) (ch.take nc)).getD j none = ch.getD j none :=
      fun j hj => goCopy_take_getD _ ch nc j none hj (by omega) (by simp; omega)
    have hcnone : ∀ s, nc ≤ s →
        (goCopy (List.replicate 16 none) (ch.take nc)).getD s none = none := by
      intro s hs
      rw [goCopy_getD, if_neg (by simp [hch]; omega), getD_replicate]
      split <;> rfl
    apply wfDeep_addChild16
    · apply wfDeep_mk
      · refine ⟨by simp [goCopy_length], by simp [goCopy_length], by omega, ?_, ?_, ?_⟩
        · intro i hi
          rw [hceq i hi]
          exact hdense i hi
        · exact sortedUpto_congr _ ks nc hkeq hsort
        · intro i hi
          rw [hkeq i hi]
          exact hrange i hi
      · intro i x hx
        rw [slotGet, ANode.childrenOf] at hx
        by_cases hi : i < nc
        · rw [hceq i hi] at hx
          exact hkids i x hx
        · rw [hcnone i (by omega)] at hx
          exact Option.noConfusion hx
    · exact hchild
    · exact hc
    · intro i hi
      rw [hkeq i hi]
      exact hfresh i hi

end WfAddSmallLemmas

section WfRemoveLemmas

variable {T : Type}

/-- `removeChild256` preserves the hereditary invariant (slot clear and the
demotion to `Node48`). -/
theorem wfDeep_removeChild256 (pl : Nat) (pb : List Nat) (nc c : Nat)
    (ch : List (Option (ANode T)))
    (hwf : wfDeep (ANode.node256 pl pb nc ch)) (hc : c < 256)
    (hpres : (ch.getD c none).isSome = true) :
    wfDeep (removeChild256 (ANode.node256 pl pb nc ch) c) := by
  obtain ⟨hch, hle, hcs⟩ := wfDeep_shallow _ hwf
  have hkids := wfDeep_children _ hwf
  have hcnt := countP_set_eq ch c none none (fun o => o.isSome) (by omega)
  rw [if_pos (by simpa using hpres), if_neg (by simp)] at hcnt
  have hcs1 : countSomeSlots (ch.set c none) = nc - 1 := by
    simp only [countSomeSlots] at hcs ⊢
    have hpos : 0 < ch.countP (fun o => o.isSome) := by
      rcases Nat.eq_zero_or_pos (ch.countP (fun o => o.isSome)) with h0 | h
      · exfalso
        have hmem : ch.get ⟨c, by omega⟩ ∈ ch := List.get_mem _ _ _
        have := (List.countP_eq_zero.mp h0) _ hmem
        rw [← getD_eq_get ch c none (by omega)] at this
        exact this hpres
      · exact h
    omega
  have hkids1 : ∀ i x, ((ch.set c none) : List (Option (ANode T))).getD i none = some x →
      wfDeep x := by
    intro i x hx
    by_cases hic : i = c
    · rw [hic, getD_set_self _ _ _ _ (by omega)] at hx
      exact Option.noConfusion hx
    · rw [getD_set_ne _ _ _ _ _ (fun h => hic h.symm)] at hx
      exact hkids i x hx
  by_cases h37 : nc - 1 = 37
  · rw [removeChild256_demote_eq _ _ _ _ _ h37]
    obtain ⟨hc1, hc2, hc3, hc4⟩ := demote256_fold (ch.set c none) 256
      (List.replicate 256 0) (List.replicate 48 none) (by simp) (by omega)
      (fun b => by rw [getD_replicate]; split <;> rfl)
    have hLlen : (((List.range 256).filter (fun i => ((ch.set c none).getD i none).isSome)) : List Nat).length = nc - 1 := by
      have hbr := countSomeSlots_eq_filter_length (ch.set c none) (by simp [hch])
      rw [hcs1] at hbr
      exact hbr.symm
    have hst22 : ∀ i, i < nc - 1 →
        ((List.range 256).foldl (demote256Step (ch.set c none))
          (0, List.replicate 256 0, List.replicate 48 none)).2.2.getD i none =
        ((ch.set c none) : List (Option (ANode T))).getD ((((List.range 256).filter (fun i => ((ch.set c none).getD i none).isSome)) : List Nat).getD i 0) none := by
      intro i hi
      rw [hc2, goCopy_getD,
        if_pos ⟨by simp only [List.length_replicate]; omega,
          by rw [List.length_map, hLlen]; omega⟩,
        getD_map _ _ _ _ 0 (by rw [hLlen]; omega)]
    have hst22none : ∀ i, nc - 1 ≤ i →
        ((List.range 256).foldl (demote256Step (ch.set c none))
          (0, List.replicate 256 0, List.replicate 48 none)).2.2.getD i none = none := by
      intro i hi
      rw [hc2, goCopy_getD, if_neg (by rw [List.length_map, hLlen]; omega),
        getD_replicate]
      split <;> rfl
    have hLmem : ∀ i, i < nc - 1 →
        (((ch.set c none) : List (Option (ANode T))).getD ((((List.range 256).filter (fun i => ((ch.set c none).getD i none).isSome)) : List Nat).getD i 0)
          none).isSome = true := by
      intro i hi
      have hjL : i < (((List.range 256).filter (fun i => ((ch.set c none).getD i none).isSome)) : List Nat).length := by rw [hLlen]; omega
      have hmem : (((List.range 256).filter (fun i => ((ch.set c none).getD i none).isSome)) : List Nat).getD i 0 ∈ (((List.range 256).filter (fun i => ((ch.set c none).getD i none).isSome)) : List Nat) := by
        rw [getD_eq_get _ _ _ hjL]
        exact List.get_mem _ _ _
      exact (List.mem_filter.mp hmem).2
    apply wfDeep_mk
    · refine ⟨hc3, by rw [hc2, goCopy_length, List.length_replicate], by omega,
        ?_, ?_, ?_, ?_⟩
      · have hbr := countNonzero_eq_filter_length
          ((List.range 256).foldl (demote256Step (ch.set c none))
            (0, List.replicate 256 0, List.replicate 48 none)).2.1 hc3
        rw [hbr]
        have hfc : (List.range 256).filter (fun i =>
            decide (((List.range 256).foldl (demote256Step (ch.set c none))
              (0, List.replicate 256 0, List.replicate 48 none)).2.1.getD i 0 ≠ 0)) =
            (List.range 256).filter
              (fun i => (((ch.set c none) : List (Option (ANode T))).getD i none).isSome) := by
          apply List.filter_congr
          intro x hx
          have hx256 : x < 256 := List.mem_range.mp hx
          rw [hc4 x]
          by_cases hxs : (((ch.set c none) : List (Option (ANode T))).getD x none).isSome = true
          · rw [if_pos ⟨hx256, hxs⟩, hxs]
            simp
          · rw [if_neg (by rintro ⟨h1, h2⟩; exact hxs h2)]
            have hxf : (((ch.set c none) : List (Option (ANode T))).getD x none).isSome
                = false := by
              cases hxx : ((ch.set c none) : List (Option (ANode T))).getD x none
              · rfl
              · exact absurd (by rw [hxx]; rfl) hxs
            rw [hxf]
            rfl
        rw [hfc, hLlen]
      · rw [hc2]
        simp only [countSomeSlots]
        rw [countP_eq_countP_range _ _ none, goCopy_length, List.length_replicate]
        apply filter_range_length_of_iff _ _ (nc - 1) (by omega)
        intro i hi48
        constructor
        · intro hi
          by_contra hge
          have := hst22none i (by omega)
          rw [hc2] at this
          rw [this] at hi
          exact Bool.noConfusion hi
        · intro hi
          have := hst22 i hi
          rw [hc2] at this
          rw [this]
          exact hLmem i hi
      · intro b hb hbne
        rw [hc4 b] at hbne ⊢
        by_cases hocc : b < 256 ∧ (((ch.set c none) : List (Option (ANode T))).getD b none).isSome
            = true
        · rw [if_pos hocc]
          obtain ⟨hcnt_lt, hcnt_get⟩ := filter_range_count_getD
            (fun i => (((ch.set c none) : List (Option (ANode T))).getD i none).isSome) 256 b hb
            hocc.2
          rw [hLlen] at hcnt_lt
          refine ⟨by omega, ?_⟩
          rw [Nat.add_sub_cancel, hst22 _ hcnt_lt]
          have hget : (((List.range 256).filter (fun i => ((ch.set c none).getD i none).isSome)) : List Nat).getD (((List.range b).filter
              (fun i => (((ch.set c none) : List (Option (ANode T))).getD i none).isSome)).length)
              0 = b := hcnt_get
          rw [hget]
          exact hocc.2
        · rw [if_neg hocc] at hbne
          omega
      · intro b1 b2 h1 h2 hne hnz
        rw [hc4 b1] at hnz ⊢
        rw [hc4 b2]
        by_cases hocc1 : b1 < 256 ∧
            (((ch.set c none) : List (Option (ANode T))).getD b1 none).isSome = true
        · rw [if_pos hocc1]
          by_cases hocc2 : b2 < 256 ∧
              (((ch.set c none) : List (Option (ANode T))).getD b2 none).isSome = true
          · rw [if_pos hocc2]
            have hmono : ∀ x y, x < y → y < 256 →
                (((ch.set c none) : List (Option (ANode T))).getD x none).isSome = true →
                ((List.range x).filter (fun i =>
                  (((ch.set c none) : List (Option (ANode T))).getD i none).isSome)).length <
                ((List.range y).filter (fun i =>
                  (((ch.set c none) : List (Option (ANode T))).getD i none).isSome)).length := by
              intro x y hxy hy hxs
              exact (filter_range_count_getD _ y x hxy hxs).1
            rcases Nat.lt_or_ge b1 b2 with hlt | hge
            · have := hmono b1 b2 hlt h2 hocc1.2
              omega
            · have hlt2 : b2 < b1 := by omega
              have := hmono b2 b1 hlt2 h1 hocc2.2
              omega
          · rw [if_neg hocc2]
            omega
        · rw [if_neg hocc1] at hnz
          omega
    · intro i x hx
      rw [slotGet, ANode.childrenOf] at hx
      by_cases hi : i < nc - 1
      · rw [hst22 i hi] at hx
        exact hkids1 _ x hx
      · rw [hst22none i (by omega)] at hx
        exact Option.noConfusion hx
  · rw [removeChild256_shift_eq _ _ _ _ _ h37]
    apply wfDeep_mk
    · exact ⟨by simp [hch], by omega, hcs1⟩
    · intro i x hx
      rw [slotGet, ANode.childrenOf] at hx
      exact hkids1 i x hx

/-- `removeChild48` preserves the hereditary invariant (index clear and the
demotion to `Node16`). -/
theorem wfDeep_removeChild48 (pl : Nat) (pb : List Nat) (nc c : Nat)
    (ks : List Nat) (ch : List (Option (ANode T)))
    (hwf : wfDeep (ANode.node48 pl pb nc ks ch)) (hc : c < 256)
    (hpres : ks.getD c 0 ≠ 0) :
    wfDeep (removeChild48 (ANode.node48 pl pb nc ks ch) c) := by
  obtain ⟨hk, hch, hle, hcnz, hcsome, hvalid, hinj⟩ := wfDeep_shallow _ hwf
  have hkids := wfDeep_children _ hwf
  obtain ⟨hcle48, hcslot⟩ := hvalid c hc hpres
  have hcnt := countP_set_eq ks c 0 0 (fun k => decide (k ≠ 0)) (by omega)
  rw [if_pos (by simpa using hpres), if_neg (by simp)] at hcnt
  have hcnz1 : countNonzero (ks.set c 0) = nc - 1 := by
    simp only [countNonzero] at hcnz ⊢
    have hpos : 0 < ks.countP (fun k => decide (k ≠ 0)) := by
      rcases Nat.eq_zero_or_pos (ks.countP (fun k => decide (k ≠ 0))) with h0 | h
      · exfalso
        have hmem : ks.get ⟨c, by omega⟩ ∈ ks := List.get_mem _ _ _
        have := (List.countP_eq_zero.mp h0) _ hmem
        rw [← getD_eq_get ks c 0 (by omega)] at this
        rw [List.getD_eq_getElem?_getD] at hpres
        simp at this
        exact hpres this
      · exact h
    omega
  have hcnt2 := countP_set_eq ch (ks.getD c 0 - 1) none none (fun o => o.isSome)
    (by omega)
  rw [if_pos (by simpa using hcslot), if_neg (by simp)] at hcnt2
  have hcsome1 : countSomeSlots (ch.set (ks.getD c 0 - 1) none) = nc - 1 := by
    simp only [countSomeSlots] at hcsome ⊢
    have hpos : 0 < ch.countP (fun o => o.isSome) := by
      rcases Nat.eq_zero_or_pos (ch.countP (fun o => o.isSome)) with h0 | h
      · exfalso
        have hmem : ch.get ⟨ks.getD c 0 - 1, by omega⟩ ∈ ch := List.get_mem _ _ _
        have := (List.countP_eq_zero.mp h0) _ hmem
        rw [← getD_eq_get ch (ks.getD c 0 - 1) none (by omega)] at this
        exact this hcslot
      · exact h
    omega
  have hks1c : ((ks.set c 0) : List Nat).getD c 0 = 0 := getD_set_self _ _ _ _ (by omega)
  have hks1 : ∀ b, b ≠ c → ((ks.set c 0) : List Nat).getD b 0 = ks.getD b 0 :=
    fun b hb => getD_set_ne _ _ _ _ _ (fun h => hb h.symm)
  have hvalid1 : ∀ b, b < 256 → ((ks.set c 0) : List Nat).getD b 0 ≠ 0 →
      ((ks.set c 0) : List Nat).getD b 0 ≤ 48 ∧
      (((ch.set (ks.getD c 0 - 1) none) : List (Option (ANode T))).getD
        (((ks.set c 0) : List Nat).getD b 0 - 1) none).isSome = true := by
    intro b hb hbne
    have hbc : b ≠ c := by
      intro h
      rw [h, hks1c] at hbne
      exact hbne rfl
    rw [hks1 b hbc] at hbne ⊢
    obtain ⟨h48, hslot⟩ := hvalid b hb hbne
    refine ⟨h48, ?_⟩
    have hnep : ks.getD c 0 - 1 ≠ ks.getD b 0 - 1 := by
      have := hinj b c hb hc hbc hbne
      omega
    rw [getD_set_ne _ _ _ _ _ hnep]
    exact hslot
  have hinj1 : ∀ b1 b2, b1 < 256 → b2 < 256 → b1 ≠ b2 →
      ((ks.set c 0) : List Nat).getD b1 0 ≠ 0 →
      ((ks.set c 0) : List Nat).getD b1 0 ≠ ((ks.set c 0) : List Nat).getD b2 0 := by
    intro b1 b2 h1 h2 hne hnz
    have hb1c : b1 ≠ c := by
      intro h
      rw [h, hks1c] at hnz
      exact hnz rfl
    rw [hks1 b1 hb1c] at hnz ⊢
    by_cases hb2c : b2 = c
    · rw [hb2c, hks1c]
      exact hnz
    · rw [hks1 b2 hb2c]
      exact hinj b1 b2 h1 h2 hne hnz
  have hkids1 : ∀ i x, ((ch.set (ks.getD c 0 - 1) none) : List (Option (ANode T))).getD i none = some x →
      wfDeep x := by
    intro i x hx
    by_cases hip : i = ks.getD c 0 - 1
    · rw [hip, getD_set_self _ _ _ _ (by omega)] at hx
      exact Option.noConfusion hx
    · rw [getD_set_ne _ _ _ _ _ (fun h => hip h.symm)] at hx
      exact hkids i x hx
  by_cases h12 : nc - 1 = 12
  · rw [removeChild48_demote_eq _ _ _ _ _ _ h12]
    have hfold := demote48_fold (ks.set c 0) (ch.set (ks.getD c 0 - 1) none) 256
      (List.replicate 16 0) (List.replicate 16 none)
    have h21 : ((List.range 256).foldl (demote48Step (ks.set c 0) (ch.set (ks.getD c 0 - 1) none))
        (0, List.replicate 16 0, List.replicate 16 none)).2.1 =
        goCopy (List.replicate 16 0) ((List.range 256).filter (fun i => decide ((ks.set c 0).getD i 0 ≠ 0))) := by
      rw [hfold]
    have h22 : ((List.range 256).foldl (demote48Step (ks.set c 0) (ch.set (ks.getD c 0 - 1) none))
        (0, List.replicate 16 0, List.replicate 16 none)).2.2 =
        goCopy (List.replicate 16 none)
          (((List.range 256).filter (fun i => decide ((ks.set c 0).getD i 0 ≠ 0))).map (fun x => (ch.set (ks.getD c 0 - 1) none).getD ((ks.set c 0).getD x 0 - 1) none)) := by
      rw [hfold]
    have hLlen : (((List.range 256).filter (fun i => decide ((ks.set c 0).getD i 0 ≠ 0))) : List Nat).length = nc - 1 := by
      have hbr := countNonzero_eq_filter_length (ks.set c 0) (by simp [hk])
      rw [hcnz1] at hbr
      exact hbr.symm
    have hLmem : ∀ j, j < nc - 1 →
        (((List.range 256).filter (fun i => decide ((ks.set c 0).getD i 0 ≠ 0))) : List Nat).getD j 0 < 256 ∧
        ((ks.set c 0) : List Nat).getD ((((List.range 256).filter (fun i => decide ((ks.set c 0).getD i 0 ≠ 0))) : List Nat).getD j 0) 0 ≠ 0 := by
      intro j hj
      have hjL : j < (((List.range 256).filter (fun i => decide ((ks.set c 0).getD i 0 ≠ 0))) : List Nat).length := by rw [hLlen]; omega
      have hmem : (((List.range 256).filter (fun i => decide ((ks.set c 0).getD i 0 ≠ 0))) : List Nat).getD j 0 ∈ (((List.range 256).filter (fun i => decide ((ks.set c 0).getD i 0 ≠ 0))) : List Nat) := by
        rw [getD_eq_get _ _ _ hjL]
        exact List.get_mem _ _ _
      obtain ⟨hmr, hmp⟩ := List.mem_filter.mp hmem
      exact ⟨List.mem_range.mp hmr, by simpa using hmp⟩
    have hKeq : ∀ j, j < nc - 1 →
        (goCopy (List.replicate 16 0) ((List.range 256).filter (fun i => decide ((ks.set c 0).getD i 0 ≠ 0)))).getD j 0 = (((List.range 256).filter (fun i => decide ((ks.set c 0).getD i 0 ≠ 0))) : List Nat).getD j 0 := by
      intro j hj
      rw [goCopy_getD, if_pos ⟨by simp only [List.length_replicate]; omega,
        by rw [hLlen]; omega⟩]
    have hCeq : ∀ j, j < nc - 1 →
        (goCopy (List.replicate 16 none)
          (((List.range 256).filter (fun i => decide ((ks.set c 0).getD i 0 ≠ 0))).map (fun x => (ch.set (ks.getD c 0 - 1) none).getD ((ks.set c 0).getD x 0 - 1) none))).getD j none =
        ((ch.set (ks.getD c 0 - 1) none) : List (Option (ANode T))).getD
          (((ks.set c 0) : List Nat).getD ((((List.range 256).filter (fun i => decide ((ks.set c 0).getD i 0 ≠ 0))) : List Nat).getD j 0) 0 - 1) none := by
      intro j hj
      rw [goCopy_getD, if_pos ⟨by simp only [List.length_replicate]; omega,
        by rw [List.length_map, hLlen]; omega⟩,
        getD_map _ _ _ _ 0 (by rw [hLlen]; omega)]
    have hCnone : ∀ j, nc - 1 ≤ j →
        (goCopy (List.replicate 16 none)
          (((List.range 256).filter (fun i => decide ((ks.set c 0).getD i 0 ≠ 0))).map (fun x => (ch.set (ks.getD c 0 - 1) none).getD ((ks.set c 0).getD x 0 - 1) none))).getD j none
          = none := by
      intro j hj
      rw [goCopy_getD, if_neg (by rw [List.length_map, hLlen]; omega), getD_replicate]
      split <;> rfl
    apply wfDeep_mk
    · refine ⟨by rw [h21, goCopy_length, List.length_replicate],
        by rw [h22, goCopy_length, List.length_replicate], by omega, ?_, ?_, ?_⟩
      · intro i hi
        rw [h22, hCeq i hi]
        exact (hvalid1 _ (hLmem i hi).1 (hLmem i hi).2).2
      · rw [h21]
        intro j hj i hij
        rw [hKeq j hj, hKeq i (by omega)]
        exact filter_range_getD_lt _ 256 i j hij (by rw [hLlen]; omega)
      · intro i hi
        rw [h21, hKeq i hi]
        exact (hLmem i hi).1
    · intro i x hx
      rw [slotGet, ANode.childrenOf] at hx
      by_cases hi : i < nc - 1
      · rw [h22, hCeq i hi] at hx
        exact hkids1 _ x hx
      · rw [h22, hCnone i (by omega)] at hx
        exact Option.noConfusion hx
  · rw [removeChild48_shift_eq _ _ _ _ _ _ h12]
    apply wfDeep_mk
    · exact ⟨by simp [hk], by simp [hch], by omega, hcnz1, hcsome1, hvalid1, hinj1⟩
    · intro i x hx
      rw [slotGet, ANode.childrenOf] at hx
      exact hkids1 i x hx

theorem removeChild4_pair_none_eq (pl : Nat) (pb ks : List Nat)
    (ch : List (Option (ANode T))) (nc pos : Nat) (h1 : nc - 1 = 1)
    (h2 : (goCopyAt ch pos (ch.drop (pos + 1))).getD 0 none = none) :
    removeChild4 (ANode.node4 pl pb nc ks ch) pos =
      ANode.node4 pl pb (nc - 1) (goCopyAt ks pos (ks.drop (pos + 1)))
        (goCopyAt ch pos (ch.drop (pos + 1))) := by
  simp only [removeChild4]
  rw [if_pos h1, h2]

theorem removeChild4_pair_leaf_eq (pl : Nat) (pb ks : List Nat)
    (ch : List (Option (ANode T))) (nc pos : Nat) (child : ANode T)
    (h1 : nc - 1 = 1)
    (h2 : (goCopyAt ch pos (ch.drop (pos + 1))).getD 0 none = some child)
    (h3 : child.isLeafNode = true) :
    removeChild4 (ANode.node4 pl pb nc ks ch) pos = child := by
  simp only [removeChild4]
  rw [if_pos h1, h2]
  simp [h3]

theorem removeChild4_pair_inner_eq (pl : Nat) (pb ks : List Nat)
    (ch : List (Option (ANode T))) (nc pos : Nat) (child : ANode T)
    (h1 : nc - 1 = 1)
    (h2 : (goCopyAt ch pos (ch.drop (pos + 1))).getD 0 none = some child)
    (h3 : child.isLeafNode = false) :
    removeChild4 (ANode.node4 pl pb nc ks ch) pos =
      (child.setPartialBytes (goCopy child.getPartialBytes
        ((collapsePrefix pl pb ((goCopyAt ks pos (ks.drop (pos + 1))).getD 0 0)
          child).1.take
          (min (collapsePrefix pl pb ((goCopyAt ks pos (ks.drop (pos + 1))).getD 0 0)
            child).2 maxPrefixLen)))).setPartialLen
        (child.getPartialLen + pl + 1) := by
  simp only [removeChild4]
  rw [if_pos h1, h2]
  simp [h3]

/-- `removeChild16` preserves the hereditary invariant (shift and the demotion
to `Node4`). -/
theorem wfDeep_removeChild16 (pl : Nat) (pb : List Nat) (nc pos : Nat)
    (ks : List Nat) (ch : List (Option (ANode T)))
    (hwf : wfDeep (ANode.node16 pl pb nc ks ch)) (hpos : pos < nc) :
    wfDeep (removeChild16 (ANode.node16 pl pb nc ks ch) pos) := by
  obtain ⟨hk, hch, hle, hdense, hsort, hrange⟩ := wfDeep_shallow _ hwf
  have hkids := wfDeep_children _ hwf
  have hkids1 := remove_children_wf ch pos (fun i x hx => hkids i x hx)
  by_cases h3 : nc - 1 = 3
  · rw [removeChild16_demote_eq _ _ _ _ _ _ h3]
    have hks1len : (goCopyAt ks pos (ks.drop (pos + 1))).length = 16 := by
      rw [goCopyAt_length, hk]
    have hch1len : (goCopyAt ch pos (ch.drop (pos + 1))).length = 16 := by
      rw [goCopyAt_length, hch]
    have hkeq : ∀ j, j < 4 →
        (goCopy (List.replicate 4 0)
          ((goCopyAt ks pos (ks.drop (pos + 1))).take 4)).getD j 0 =
        (goCopyAt ks pos (ks.drop (pos + 1))).getD j 0 :=
      fun j hj => goCopy_take_getD _ _ 4 j 0 hj (by omega) (by simp)
    have hceq : ∀ j, j < 4 →
        (goCopy (List.replicate 4 none)
          ((goCopyAt ch pos (ch.drop (pos + 1))).take 4)).getD j none =
        (goCopyAt ch pos (ch.drop (pos + 1))).getD j none :=
      fun j hj => goCopy_take_getD _ _ 4 j none hj (by omega) (by simp)
    apply wfDeep_mk
    · refine ⟨by simp [goCopy_length], by simp [goCopy_length], by omega, ?_, ?_, ?_⟩
      · intro i hi
        rw [hceq i (by omega)]
        exact remove_dense ch nc pos hpos (by omega) hdense i hi
      · intro j hj i hij
        rw [hkeq j (by omega), hkeq i (by omega)]
        exact remove_sortedUpto ks nc pos hpos (by omega) hsort j hj i hij
      · intro i hi
        rw [hkeq i (by omega)]
        exact remove_range ks nc pos hpos (by omega) hrange i hi
    · intro i x hx
      rw [slotGet, ANode.childrenOf] at hx
      by_cases hi : i < 4
      · rw [hceq i hi] at hx
        exact hkids1 i x hx
      · rw [getD_of_length_le _ _ _ (by simp [goCopy_length]; omega)] at hx
        exact Option.noConfusion hx
  · rw [removeChild16_shift_eq _ _ _ _ _ _ h3]
    apply wfDeep_mk
    · exact ⟨by rw [goCopyAt_length, hk], by rw [goCopyAt_length, hch], by omega,
        remove_dense ch nc pos hpos (by omega) hdense,
        remove_sortedUpto ks nc pos hpos (by omega) hsort,
        remove_range ks nc pos hpos (by omega) hrange⟩
    · intro i x hx
      rw [slotGet, ANode.childrenOf] at hx
      exact hkids1 i x hx

/-- `removeChild4` preserves the hereditary invariant (shift and the
single-child collapse, which returns the surviving child with only its header
mutated). -/
theorem wfDeep_removeChild4 (pl : Nat) (pb : List Nat) (nc pos : Nat)
    (ks : List Nat) (ch : List (Option (ANode T)))
    (hwf : wfDeep (ANode.node4 pl pb nc ks ch)) (hpos : pos < nc) :
    wfDeep (removeChild4 (ANode.node4 pl pb nc ks ch) pos) := by
  obtain ⟨hk, hch, hle, hdense, hsort, hrange⟩ := wfDeep_shallow _ hwf
  have hkids := wfDeep_children _ hwf
  have hkids1 := remove_children_wf ch pos (fun i x hx => hkids i x hx)
  by_cases h1 : nc - 1 = 1
  · have hsome : ((goCopyAt ch pos (ch.drop (pos + 1))).getD 0 none).isSome = true :=
      remove_dense ch nc pos hpos (by omega) hdense 0 (by omega)
    obtain ⟨child0, hchild0⟩ := Option.isSome_iff_exists.mp hsome
    have hwf0 : wfDeep child0 := hkids1 0 child0 hchild0
    rcases hleaf : child0.isLeafNode with hfalse | htrue
    · rw [removeChild4_pair_inner_eq _ _ _ _ _ _ child0 h1 hchild0 hleaf]
      exact wfDeep_setPartialLen _ _ (wfDeep_setPartialBytes _ _ hwf0)
    · rw [removeChild4_pair_leaf_eq _ _ _ _ _ _ child0 h1 hchild0 hleaf]
      exact hwf0
  · rw [removeChild4_shift_eq _ _ _ _ _ _ h1]
    apply wfDeep_mk
    · exact ⟨by rw [goCopyAt_length, hk], by rw [goCopyAt_length, hch], by omega,
        remove_dense ch nc pos hpos (by omega) hdense,
        remove_sortedUpto ks nc pos hpos (by omega) hsort,
        remove_range ks nc pos hpos (by omega) hrange⟩
    · intro i x hx
      rw [slotGet, ANode.childrenOf] at hx
      exact hkids1 i x hx

theorem wfDeep_leaf (a : Nat) (b : List Nat) (c : Nat) (d : List Nat) {T : Type}
    (v : T) : wfDeep (ANode.leaf a b c d v) := by
  simp [wfDeep]

/-- The per-variant occupancy reading of `numChildren`: dense occupied prefix
for the sorted-array variants, index/slot occupancy counts for the indexed
variants. -/
def countsAccurate : ANode T → Prop
  | .leaf _ _ _ _ _ => True
  | .node4 _ _ nc _ ch => ∀ i, i < nc → ((ch.getD i none).isSome = true)
  | .node16 _ _ nc _ ch => ∀ i, i < nc → ((ch.getD i none).isSome = true)
  | .node48 _ _ nc ks _ => countNonzero ks = nc
  | .node256 _ _ nc ch => countSomeSlots ch = nc

theorem countsAccurate_of_wfShallow (n : ANode T) (h : wfShallow n) :
    countsAccurate n := by
  cases n with
  | leaf a b c d v => trivial
  | node4 pl pb nc ks ch => exact h.2.2.2.1
  | node16 pl pb nc ks ch => exact h.2.2.2.1
  | node48 pl pb nc ks ch => exact h.2.2.2.1
  | node256 pl pb nc ch => exact h.2.2

/-- One valid engine operation preserves the hereditary invariant. -/
theorem wfDeep_applyOp (n : ANode T) (op : AOp T) (hwf : wfDeep n)
    (hop : opValid n op) : wfDeep (applyOp n op) := by
  cases op with
  | add c child =>
    obtain ⟨hchild, hc, habs⟩ := hop
    cases n with
    | leaf a b c' d v => exact habs.elim
    | node4 pl pb nc ks ch =>
      exact wfDeep_addChild4 pl pb nc c ks ch child hwf hchild hc habs
    | node16 pl pb nc ks ch =>
      exact wfDeep_addChild16 pl pb nc c ks ch child hwf hchild hc habs
    | node48 pl pb nc ks ch =>
      exact wfDeep_addChild48 pl pb nc c ks ch child hwf hchild hc habs
    | node256 pl pb nc ch =>
      exact wfDeep_addChild256 pl pb nc c ch child hwf hchild hc habs
  | remove c pos =>
    cases n with
    | leaf a b c' d v => exact hop.elim
    | node4 pl pb nc ks ch => exact wfDeep_removeChild4 pl pb nc pos ks ch hwf hop
    | node16 pl pb nc ks ch => exact wfDeep_removeChild16 pl pb nc pos ks ch hwf hop
    | node48 pl pb nc ks ch =>
      have hk : ks.length = 256 := (wfDeep_shallow _ hwf).1
      have hc : c < 256 := by
        by_contra hge
        have h0 : ks.getD c 0 = 0 := getD_of_length_le _ _ _ (by omega)
        exact hop h0
      exact wfDeep_removeChild48 pl pb nc c ks ch hwf hc hop
    | node256 pl pb nc ch =>
      have hch : ch.length = 256 := (wfDeep_shallow _ hwf).1
      have hc : c < 256 := by
        by_contra hge
        have h0 : ch.getD c none = none := getD_of_length_le _ _ _ (by omega)
        have hop' : (ch.getD c none).isSome = true := hop
        rw [h0] at hop'
        exact Bool.noConfusion hop'
      exact wfDeep_removeChild256 pl pb nc c ch hwf hc hop

/-- A valid operation sequence preserves the hereditary invariant. -/
theorem wfDeep_applyOps (n : ANode T) (ops : List (AOp T)) (hwf : wfDeep n)
    (hops : opsValid n ops) : wfDeep (applyOps n ops) := by
  induction ops generalizing n with
  | nil => exact hwf
  | cons op rest ih =>
    obtain ⟨h1, h2⟩ := hops
    exact ih (applyOp n op) (wfDeep_applyOp n op hwf h1) h2

end WfRemoveLemmas

/-- Helper: the exact effect of `copyHeader` on every field. -/
theorem copyHeader_fields (dest src : ANode T) :
    (copyHeader dest src).getNumChildren = src.getNumChildren ∧
    (copyHeader dest src).getPartialLen = src.getPartialLen ∧
    (copyHeader dest src).getPartialBytes =
      src.getPartialBytes.take (min maxPrefixLen src.getPartialLen) ++
        dest.getPartialBytes.drop (min maxPrefixLen src.getPartialLen) ∧
    (copyHeader dest src).keysOf = dest.keysOf ∧
    (copyHeader dest src).childrenOf = dest.childrenOf ∧
    (copyHeader dest src).leafKey = dest.leafKey ∧
    (copyHeader dest src).valueOf = dest.valueOf ∧
    (copyHeader dest src).isLeafNode = dest.isLeafNode := by
  cases dest <;>
    simp [copyHeader, ANode.setNumChildren, ANode.setPartialLen, ANode.setPartialBytes,
      ANode.getNumChildren, ANode.getPartialLen, ANode.getPartialBytes, ANode.keysOf,
      ANode.childrenOf, ANode.leafKey, ANode.valueOf, ANode.isLeafNode]

/-- C9: `copyHeader(dest, src)` sets `dest`'s `numChildren` and `partialLen` to
`src`'s values and copies exactly `min(maxPrefixLen, src.partialLen)` bytes of
`src`'s prefix buffer into `dest`'s prefix buffer (the remainder of the buffer
and every other field of `dest` — keys, children, leaf key and leaf value —
are unchanged). -/
theorem copyHeader_copies_header_only (dest src : ANode T) :
    (copyHeader dest src).getNumChildren = src.getNumChildren ∧
    (copyHeader dest src).getPartialLen = src.getPartialLen ∧
    (copyHeader dest src).getPartialBytes =
      src.getPartialBytes.take (min maxPrefixLen src.getPartialLen) ++
        dest.getPartialBytes.drop (min maxPrefixLen src.getPartialLen) ∧
    (copyHeader dest src).keysOf = dest.keysOf ∧
    (copyHeader dest src).childrenOf = dest.childrenOf ∧
    (copyHeader dest src).leafKey = dest.leafKey ∧
    (copyHeader dest src).valueOf = dest.valueOf ∧
    (copyHeader dest src).isLeafNode = dest.isLeafNode :=
  copyHeader_fields dest src

/-- C5 counterexample: the empty key and the key consisting of the single
terminator byte `0x24` are distinct application keys, yet `getTreeKey` of the
first is a strict prefix of `getTreeKey` of the second. -/
theorem getTreeKey_prefix_free_cex :
    ([] : List Nat) ≠ [36] ∧
    getTreeKey [] <+: getTreeKey [36] ∧
    getTreeKey [] ≠ getTreeKey [36] := by
  refine ⟨by decide, ⟨[36], rfl⟩, by decide⟩

/-- C5 amended: for distinct application keys neither of which contains the
terminator byte `0x24` (`'$'`), `getTreeKey k1` is never a strict prefix of
`getTreeKey k2`. -/
theorem getTreeKey_prefix_free (k1 k2 : List Nat) (h1 : k1 ≠ k2)
    (h2 : 36 ∉ k1) (h3 : 36 ∉ k2) :
    ¬(getTreeKey k1 <+: getTreeKey k2 ∧ getTreeKey k1 ≠ getTreeKey k2) := by
  rintro ⟨hp, hne⟩
  have hlen : (getTreeKey k1).length ≤ (getTreeKey k2).length := hp.length_le
  have hlt : (getTreeKey k1).length < (getTreeKey k2).length := by
    rcases Nat.eq_or_lt_of_le hlen with heq | hlt
    · exact absurd (hp.eq_of_length heq) hne
    · exact hlt
  have hple : (getTreeKey k1).length ≤ k2.length := by
    simp [getTreeKey] at hlt ⊢
    omega
  have hpk2 : getTreeKey k1 <+: k2 :=
    List.prefix_of_prefix_length_le hp (List.prefix_append k2 [36]) hple
  have hmem : (36 : Nat) ∈ k2 := hpk2.subset (by simp [getTreeKey])
  exact h3 hmem

/-- Witness for `getTreeKey_prefix_free` at the concrete keys `[1]`, `[2]`. -/
theorem getTreeKey_prefix_free_witness :
    ¬(getTreeKey [1] <+: getTreeKey [2] ∧ getTreeKey [1] ≠ getTreeKey [2]) :=
  getTreeKey_prefix_free [1] [2] (by decide) (by decide) (by decide)

/-- C10: for a Node48 whose 256-entry index has at least one occupied entry
(every non-leaf node has a child), the ascending scan in `minimum` stops at an
in-range index whose entry is occupied and points at an in-range child slot, so
`minimum` proceeds by descending into that slot; with no occupied entry the
scan exhausts all 256 positions and yields index 256 — one past the end of the
256-entry `keys` array, so the Go read `keys[256]` would be out of range.  The
error branch is therefore unreachable exactly under the invariant. -/
theorem minimum_node48_scan_inbounds (pl : Nat) (pb : List Nat) (nc : Nat)
    (ks : List Nat) (ch : List (Option (ANode T)))
    (hlen : ks.length = 256) (hvals : ∀ b, b < 256 → ks.getD b 0 ≤ 48) :
    ((∃ b, b < 256 ∧ ks.getD b 0 ≠ 0) →
      scanUp 256 (fun b => decide (ks.getD b 0 ≠ 0)) < 256 ∧
      ks.getD (scanUp 256 (fun b => decide (ks.getD b 0 ≠ 0))) 0 ≠ 0 ∧
      ks.getD (scanUp 256 (fun b => decide (ks.getD b 0 ≠ 0))) 0 - 1 < 48 ∧
      minimum (some (ANode.node48 pl pb nc ks ch)) =
        minimum (slotGet ch
          (ks.getD (scanUp 256 (fun b => decide (ks.getD b 0 ≠ 0))) 0 - 1))) ∧
    ((∀ b, b < 256 → ks.getD b 0 = 0) →
      scanUp 256 (fun b => decide (ks.getD b 0 ≠ 0)) = ks.length) := by
  constructor
  · rintro ⟨b, hb, hbne⟩
    simp only [scanUp]
    have hfound : scanUpFrom (fun b => decide (ks.getD b 0 ≠ 0)) 0 256 < 256 := by
      have h := scanUp_lt_of_exists 256 (fun b => decide (ks.getD b 0 ≠ 0))
        ⟨b, hb, by simp only [decide_eq_true_eq]; exact hbne⟩
      simpa [scanUp] using h
    have hp := scanUpFrom_found (fun b => decide (ks.getD b 0 ≠ 0)) 0 256 (by omega)
    simp only [decide_eq_true_eq] at hp
    have hle : ks.getD (scanUpFrom (fun b => decide (ks.getD b 0 ≠ 0)) 0 256) 0 ≤ 48 :=
      hvals _ (by omega)
    refine ⟨hfound, hp, by omega, ?_⟩
    simp only [minimum, scanUp]
    rw [if_pos hfound, if_pos (by omega)]
  · intro hall
    rw [hlen]
    simp only [scanUp]
    apply scanUpFrom_all_false
    intro j _ hj
    have h0 := hall j (by omega)
    rw [List.getD_eq_getElem?_getD] at h0
    simp [h0]

section HeaderSetterLemmas

variable (n : ANode T) (x : Nat) (xs : List Nat)

theorem getPartialLen_setPartialLen : (n.setPartialLen x).getPartialLen = x := by
  cases n <;> rfl

theorem getPartialBytes_setPartialLen :
    (n.setPartialLen x).getPartialBytes = n.getPartialBytes := by
  cases n <;> rfl

theorem getNumChildren_setPartialLen :
    (n.setPartialLen x).getNumChildren = n.getNumChildren := by
  cases n <;> rfl

theorem keysOf_setPartialLen : (n.setPartialLen x).keysOf = n.keysOf := by
  cases n <;> rfl

theorem childrenOf_setPartialLen : (n.setPartialLen x).childrenOf = n.childrenOf := by
  cases n <;> rfl

theorem valueOf_setPartialLen : (n.setPartialLen x).valueOf = n.valueOf := by
  cases n <;> rfl

theorem isLeafNode_setPartialLen : (n.setPartialLen x).isLeafNode = n.isLeafNode := by
  cases n <;> rfl

theorem getPartialLen_setPartialBytes :
    (n.setPartialBytes xs).getPartialLen = n.getPartialLen := by
  cases n <;> rfl

theorem getPartialBytes_setPartialBytes :
    (n.setPartialBytes xs).getPartialBytes = xs := by
  cases n <;> rfl

theorem getNumChildren_setPartialBytes :
    (n.setPartialBytes xs).getNumChildren = n.getNumChildren := by
  cases n <;> rfl

theorem keysOf_setPartialBytes : (n.setPartialBytes xs).keysOf = n.keysOf := by
  cases n <;> rfl

theorem childrenOf_setPartialBytes :
    (n.setPartialBytes xs).childrenOf = n.childrenOf := by
  cases n <;> rfl

theorem valueOf_setPartialBytes : (n.setPartialBytes xs).valueOf = n.valueOf := by
  cases n <;> rfl

theorem isLeafNode_setPartialBytes :
    (n.setPartialBytes xs).isLeafNode = n.isLeafNode := by
  cases n <;> rfl

end HeaderSetterLemmas



theorem collapsePrefix_length (pl k0 : Nat) (pb : List Nat) (child : ANode T) :
    (collapsePrefix pl pb k0 child).1.length = pb.length := by
  simp only [collapsePrefix]
  split_ifs <;> simp [goCopyAt_length]

theorem collapsePrefix_count (pl k0 : Nat) (pb : List Nat) (child : ANode T) :
    min (collapsePrefix pl pb k0 child).2 maxPrefixLen
      = min (child.getPartialLen + pl + 1) maxPrefixLen := by
  simp only [collapsePrefix, maxPrefixLen]
  split_ifs <;> omega

theorem collapsePrefix_getD (pl k0 : Nat) (pb : List Nat) (child : ANode T)
    (hpb : pb.length = maxPrefixLen)
    (hcpb : child.getPartialBytes.length = maxPrefixLen) (i : Nat)
    (hi : i < min maxPrefixLen (child.getPartialLen + pl + 1)) :
    (collapsePrefix pl pb k0 child).1.getD i 0 =
      (pb.take (min pl maxPrefixLen) ++ k0 ::
        child.getPartialBytes.take (min child.getPartialLen maxPrefixLen)).getD i 0 := by
  have hmpl : maxPrefixLen = 10 := rfl
  have hlt : (pb.take (min pl maxPrefixLen)).length = min pl maxPrefixLen := by
    simp
    omega
  rw [getD_append, hlt, getD_cons]
  simp only [collapsePrefix]
  by_cases h1 : pl < maxPrefixLen
  · simp only [if_pos h1]
    by_cases h2 : pl + 1 < maxPrefixLen
    · simp only [if_pos h2]
      rw [goCopyAt_getD]
      have hsublen : (child.getPartialBytes.take
          (min child.getPartialLen (maxPrefixLen - (pl + 1)))).length =
          min child.getPartialLen (maxPrefixLen - (pl + 1)) := by
        simp
        omega
      have hsetlen : (pb.set pl k0).length = pb.length := by simp
      rw [hsublen, hsetlen]
      rcases Nat.lt_trichotomy i pl with hc | hc | hc
      · rw [if_neg (by omega), if_pos (by omega), getD_set_ne _ _ _ _ _ (by omega),
          getD_take, if_pos (by omega)]
      · subst hc
        rw [if_neg (by omega), getD_set_self _ _ _ _ (by omega), if_neg (by omega),
          if_pos (by omega)]
      · rw [if_pos ⟨by omega, by omega, by omega⟩, if_neg (by omega), if_neg (by omega),
          getD_take, if_pos (by omega), getD_take, if_pos (by omega)]
        congr 1
        omega
    · simp only [if_neg h2]
      rcases Nat.lt_trichotomy i pl with hc | hc | hc
      · rw [getD_set_ne _ _ _ _ _ (by omega), if_pos (by omega), getD_take,
          if_pos (by omega)]
      · subst hc
        rw [getD_set_self _ _ _ _ (by omega), if_neg (by omega), if_pos (by omega)]
      · omega
  · have h2 : ¬(pl + 1 < maxPrefixLen) := by omega
    simp only [if_neg h1, if_neg h2]
    rw [if_pos (by omega), getD_take, if_pos (by omega)]

/-- C1: when a `Node4` holding two children loses one of them via
`removeChild4` and the survivor is not a leaf, the node is replaced by the
surviving child; the child's `partialLen` becomes its former value plus the
parent's `partialLen` plus 1, the meaningful region of the child's prefix
buffer (its first `min(maxPrefixLen, new partialLen)` bytes) becomes the
concatenation parent-explicit-prefix ++ surviving-key-byte ++
child-explicit-prefix truncated to `maxPrefixLen`, and every other field of
the child is untouched. -/
theorem removeChild4_single_child_collapse
    (pl : Nat) (pb : List Nat) (ks : List Nat) (ch : List (Option (ANode T)))
    (pos : Nat) (child : ANode T)
    (hpb : pb.length = maxPrefixLen)
    (hcpb : child.getPartialBytes.length = maxPrefixLen)
    (hchild : (goCopyAt ch pos (ch.drop (pos + 1))).getD 0 none = some child)
    (hleaf : child.isLeafNode = false) :
    (removeChild4 (ANode.node4 pl pb 2 ks ch) pos).getPartialLen
        = child.getPartialLen + pl + 1 ∧
    (removeChild4 (ANode.node4 pl pb 2 ks ch) pos).keysOf = child.keysOf ∧
    (removeChild4 (ANode.node4 pl pb 2 ks ch) pos).childrenOf = child.childrenOf ∧
    (removeChild4 (ANode.node4 pl pb 2 ks ch) pos).valueOf = child.valueOf ∧
    (removeChild4 (ANode.node4 pl pb 2 ks ch) pos).getNumChildren
        = child.getNumChildren ∧
    (removeChild4 (ANode.node4 pl pb 2 ks ch) pos).isLeafNode = child.isLeafNode ∧
    (removeChild4 (ANode.node4 pl pb 2 ks ch) pos).getPartialBytes.take
        (min maxPrefixLen (child.getPartialLen + pl + 1)) =
      (pb.take (min pl maxPrefixLen) ++
        (goCopyAt ks pos (ks.drop (pos + 1))).getD 0 0 ::
          child.getPartialBytes.take (min child.getPartialLen maxPrefixLen)).take
        (min maxPrefixLen (child.getPartialLen + pl + 1)) := by
  have hred : removeChild4 (ANode.node4 pl pb 2 ks ch) pos =
      (child.setPartialBytes
        (goCopy child.getPartialBytes
          ((collapsePrefix pl pb ((goCopyAt ks pos (ks.drop (pos + 1))).getD 0 0)
              child).1.take
            (min (collapsePrefix pl pb
              ((goCopyAt ks pos (ks.drop (pos + 1))).getD 0 0) child).2
              maxPrefixLen)))).setPartialLen
        (child.getPartialLen + pl + 1) := by
    simp only [removeChild4, ite_true]
    rw [hchild]
    simp [hleaf]
  set k0 := (goCopyAt ks pos (ks.drop (pos + 1))).getD 0 0 with hk0
  rw [hred]
  rw [getPartialLen_setPartialLen, keysOf_setPartialLen, keysOf_setPartialBytes,
    childrenOf_setPartialLen, childrenOf_setPartialBytes, valueOf_setPartialLen,
    valueOf_setPartialBytes, getNumChildren_setPartialLen, getNumChildren_setPartialBytes,
    isLeafNode_setPartialLen, isLeafNode_setPartialBytes, getPartialBytes_setPartialLen,
    getPartialBytes_setPartialBytes]
  refine ⟨rfl, rfl, rfl, rfl, rfl, rfl, ?_⟩
  have hcnt := collapsePrefix_count pl k0 pb child
  have hclen := collapsePrefix_length pl k0 pb child
  apply list_eq_of_getD _ _ 0
  · simp [goCopy_length, hcpb, hpb]
    omega
  · intro i hi
    have hi10 : i < min maxPrefixLen (child.getPartialLen + pl + 1) := by
      simp [goCopy_length, hcpb] at hi
      omega
    have htklen : (((collapsePrefix pl pb k0 child).1).take
        (min (collapsePrefix pl pb k0 child).2 maxPrefixLen)).length =
        min (min (collapsePrefix pl pb k0 child).2 maxPrefixLen)
          (collapsePrefix pl pb k0 child).1.length := by simp
    rw [getD_take, if_pos hi10, getD_take, if_pos hi10, goCopy_getD,
      if_pos ⟨by omega, by rw [htklen]; omega⟩, getD_take, if_pos (by omega)]
    exact collapsePrefix_getD pl k0 pb child hpb hcpb i (by omega)

/-- A concrete internal (non-leaf) surviving child for exercising the
single-child collapse. -/
def collapseInnerEx : ANode Nat :=
  ANode.node4 2 [5, 6, 0, 0, 0, 0, 0, 0, 0, 0] 2 [1, 2, 0, 0]
    [some (makeLeaf [9, 5, 6, 1, 36] 0), some (makeLeaf [9, 5, 6, 2, 36] 1), none, none]

/-- Witness for `removeChild4_single_child_collapse`: a two-child `Node4` with
prefix byte `9` loses the leaf in slot 0; the surviving internal child (key
byte 3 after the shift) absorbs the concatenated prefix. -/
theorem removeChild4_single_child_collapse_witness :
    (removeChild4 (ANode.node4 1 [9, 0, 0, 0, 0, 0, 0, 0, 0, 0] 2 [3, 7, 0, 0]
        [some (makeLeaf [9, 3, 36] 0), some collapseInnerEx, none, none]) 0).getPartialLen
      = collapseInnerEx.getPartialLen + 1 + 1 ∧
    (removeChild4 (ANode.node4 1 [9, 0, 0, 0, 0, 0, 0, 0, 0, 0] 2 [3, 7, 0, 0]
        [some (makeLeaf [9, 3, 36] 0), some collapseInnerEx, none, none]) 0).getPartialBytes.take
        (min maxPrefixLen (collapseInnerEx.getPartialLen + 1 + 1)) =
      (([9, 0, 0, 0, 0, 0, 0, 0, 0, 0] : List Nat).take (min 1 maxPrefixLen) ++
        (goCopyAt [3, 7, 0, 0] 0 (([3, 7, 0, 0] : List Nat).drop (0 + 1))).getD 0 0 ::
          collapseInnerEx.getPartialBytes.take
            (min collapseInnerEx.getPartialLen maxPrefixLen)).take
        (min maxPrefixLen (collapseInnerEx.getPartialLen + 1 + 1)) := by
  have h := removeChild4_single_child_collapse (T := Nat) 1
    [9, 0, 0, 0, 0, 0, 0, 0, 0, 0] [3, 7, 0, 0]
    [some (makeLeaf [9, 3, 36] 0), some collapseInnerEx, none, none] 0 collapseInnerEx
    rfl rfl rfl rfl
  exact ⟨h.1, h.2.2.2.2.2.2⟩

/-- A full `Node4` built by four `addChild4` calls on a fresh node, then one
`removeChild4`: the shift leaves a stale copy of the last child pointer in
slot 3. -/
def staleNode4Example : ANode Nat :=
  removeChild4
    (addChild4
      (addChild4
        (addChild4
          (addChild4 (allocNode4 (T := Nat)) 1 (makeLeaf [1, 36] 1))
          2 (makeLeaf [2, 36] 2))
        3 (makeLeaf [3, 36] 3))
      4 (makeLeaf [4, 36] 4))
    0

/-- C4 counterexample: after removing a child from a full `Node4` (reached by
four valid `addChild` calls and one valid `removeChild`), `numChildren` is 3
but the children array holds 4 non-nil entries — the left-shift does not nil
the vacated last slot, so a stale pointer survives there. -/
theorem removeChild4_full_stale_slot_cex :
    staleNode4Example.getNumChildren = 3 ∧
    countSomeSlots staleNode4Example.childrenOf = 4 := by
  constructor <;> rfl

/-- A `Node48` reached by promoting a full sorted `Node16` (bytes 0–15), then
adding byte 200 (slot 16), removing byte 0 (slot 0 freed), and adding byte 255
(which re-uses slot 0): the child with the largest key byte now sits in the
lowest slot. -/
def slotOrderNode48 : ANode Nat :=
  addChild48
    (removeChild48
      (addChild16
        (ANode.node16 0 (List.replicate 10 0) 16
          (List.range 16)
          ((List.range 16).map (fun i => some (makeLeaf [i, 36] i))))
        200 (makeLeaf [200, 36] 200))
      0)
    255 (makeLeaf [255, 36] 255)

/-- C7 failing input: on `slotOrderNode48` the `maximum` descent scans the
Node48 children slot array downward and returns the byte-200 leaf sitting in
the highest occupied slot, although the byte-255 leaf — lexicographically
larger — is a child of the node (reachable via `findChild`).  `minimum`, which
scans the 256-entry key index instead, is not affected. -/
theorem maximum_node48_slot_order_bug :
    Option.map ANode.leafKey (maximum (some slotOrderNode48)) = some [200, 36] ∧
    Option.map ANode.leafKey (findChild slotOrderNode48 255) = some [255, 36] ∧
    lexLt [200, 36] [255, 36] = true ∧
    Option.map ANode.leafKey (minimum (some slotOrderNode48)) = some [1, 36] := by
  have hmax : maximum (some slotOrderNode48) =
      maximumFuel 100000 (some slotOrderNode48) :=
    maximum_eq_fuel 100000 _ (by decide)
  have hmin : minimum (some slotOrderNode48) =
      minimumFuel 100000 (some slotOrderNode48) :=
    minimum_eq_fuel 100000 _ (by decide)
  refine ⟨?_, rfl, rfl, ?_⟩
  · rw [hmax]
    rfl
  · rw [hmin]
    rfl

/-- Witness for `minimum_node48_scan_inbounds`: a Node48 index with byte 7
occupied (both conjuncts applied, the second at the all-zero index). -/
theorem minimum_node48_scan_inbounds_witness :
    scanUp 256 (fun b => decide (((List.replicate 256 0).set 7 1).getD b 0 ≠ 0)) < 256 ∧
    scanUp 256 (fun b => decide ((List.replicate 256 (0 : Nat)).getD b 0 ≠ 0)) = 256 := by
  constructor
  · exact ((minimum_node48_scan_inbounds (T := Nat) 0 [] 1 ((List.replicate 256 0).set 7 1)
      (List.replicate 48 none) (by simp) (by decide)).1 ⟨7, by decide, by decide⟩).1
  · have h := (minimum_node48_scan_inbounds (T := Nat) 0 [] 0 (List.replicate 256 0)
      (List.replicate 48 none) (by simp) (by decide)).2 (by decide)
    simpa using h


/-- C8: after every `addChild4`/`addChild16` insertion (the promotion of a full
`Node4` into a `Node16` included) and every `removeChild4`/`removeChild16`
removal (the demotion of a `Node16` into a `Node4` included), the parallel
keys/children arrays of the resulting Node4/Node16 are strictly sorted by key
byte over the first `numChildren` entries and that occupied region is dense
(every one of its child slots non-nil): insertions shift the tail right and
place the new byte at its sorted position, removals shift the tail left. -/
theorem node4_node16_arrays_sorted_dense {T : Type} (pl : Nat) (pb : List Nat) :
    (∀ (ks : List Nat) (ch : List (Option (ANode T))) (nc c : Nat) (child : ANode T),
      ks.length = 4 → ch.length = 4 → nc ≤ 4 →
      sortedUpto ks nc → (∀ i, i < nc → ((ch.getD i none).isSome = true)) →
      (∀ i, i < nc → ks.getD i 0 ≠ c) →
      sortedUpto (addChild4 (ANode.node4 pl pb nc ks ch) c child).keysOf
          (addChild4 (ANode.node4 pl pb nc ks ch) c child).getNumChildren ∧
        ∀ i, i < (addChild4 (ANode.node4 pl pb nc ks ch) c child).getNumChildren →
          ((((addChild4 (ANode.node4 pl pb nc ks ch) c child).childrenOf.getD i none).isSome)
            = true)) ∧
    (∀ (ks : List Nat) (ch : List (Option (ANode T))) (nc c : Nat) (child : ANode T),
      ks.length = 16 → ch.length = 16 → nc < 16 →
      sortedUpto ks nc → (∀ i, i < nc → ((ch.getD i none).isSome = true)) →
      (∀ i, i < nc → ks.getD i 0 ≠ c) →
      sortedUpto (addChild16 (ANode.node16 pl pb nc ks ch) c child).keysOf
          (addChild16 (ANode.node16 pl pb nc ks ch) c child).getNumChildren ∧
        ∀ i, i < (addChild16 (ANode.node16 pl pb nc ks ch) c child).getNumChildren →
          ((((addChild16 (ANode.node16 pl pb nc ks ch) c child).childrenOf.getD i none).isSome)
            = true)) ∧
    (∀ (ks : List Nat) (ch : List (Option (ANode T))) (nc pos : Nat),
      ks.length = 4 → ch.length = 4 → nc ≤ 4 → pos < nc → nc - 1 ≠ 1 →
      sortedUpto ks nc → (∀ i, i < nc → ((ch.getD i none).isSome = true)) →
      sortedUpto (removeChild4 (ANode.node4 pl pb nc ks ch) pos).keysOf
          (removeChild4 (ANode.node4 pl pb nc ks ch) pos).getNumChildren ∧
        ∀ i, i < (removeChild4 (ANode.node4 pl pb nc ks ch) pos).getNumChildren →
          ((((removeChild4 (ANode.node4 pl pb nc ks ch) pos).childrenOf.getD i none).isSome)
            = true)) ∧
    (∀ (ks : List Nat) (ch : List (Option (ANode T))) (nc pos : Nat),
      ks.length = 16 → ch.length = 16 → nc ≤ 16 → pos < nc →
      sortedUpto ks nc → (∀ i, i < nc → ((ch.getD i none).isSome = true)) →
      sortedUpto (removeChild16 (ANode.node16 pl pb nc ks ch) pos).keysOf
          (removeChild16 (ANode.node16 pl pb nc ks ch) pos).getNumChildren ∧
        ∀ i, i < (removeChild16 (ANode.node16 pl pb nc ks ch) pos).getNumChildren →
          ((((removeChild16 (ANode.node16 pl pb nc ks ch) pos).childrenOf.getD i none).isSome)
            = true)) := by
  refine ⟨?_, ?_, ?_, ?_⟩
  · intro ks ch nc c child hk hc hnc hsort hdense hfresh
    by_cases hlt : nc < 4
    · rw [addChild4_insert_eq _ _ _ _ _ _ _ hlt]
      simp only [ANode.keysOf, ANode.getNumChildren, ANode.childrenOf]
      exact ⟨insert_sortedUpto ks nc c (by omega) hsort hfresh,
        insert_dense ch (insIdx ks nc c) nc child (insIdx_le ks nc c) (by omega) hdense⟩
    · have hnc4 : nc = 4 := by omega
      rw [addChild4_promote_eq _ _ _ _ _ _ _ hlt, copyHeader_node16_eq]
      simp only [ANode.getPartialLen, ANode.getPartialBytes, ANode.getNumChildren]
      rw [addChild16_insert_eq _ _ _ _ _ _ _ (by omega)]
      simp only [ANode.keysOf, ANode.getNumChildren, ANode.childrenOf]
      have hk16 : (goCopy (List.replicate 16 0) (ks.take nc)).length = 16 := by
        simp [goCopy_length]
      have hc16 : (goCopy (List.replicate 16 none) (ch.take nc)).length = 16 := by
        simp [goCopy_length]
      have hkeq : ∀ j, j < nc →
          (goCopy (List.replicate 16 0) (ks.take nc)).getD j 0 = ks.getD j 0 := by
        intro j hj
        rw [goCopy_getD, if_pos ⟨by simp; omega, by simp; omega⟩, getD_take,
          if_pos (by omega)]
      have hceq : ∀ j, j < nc →
          (goCopy (List.replicate 16 none) (ch.take nc)).getD j none = ch.getD j none := by
        intro j hj
        rw [goCopy_getD, if_pos ⟨by simp; omega, by simp; omega⟩, getD_take,
          if_pos (by omega)]
      refine ⟨insert_sortedUpto _ nc c (by omega)
          (sortedUpto_congr _ ks nc hkeq hsort)
          (fun i hi => by rw [hkeq i hi]; exact hfresh i hi), ?_⟩
      have hd := insert_dense (goCopy (List.replicate 16 none) (ch.take nc))
        (insIdx (goCopy (List.replicate 16 0) (ks.take nc)) nc c) nc child
        (insIdx_le _ nc c) (by omega)
        (fun i hi => by rw [hceq i hi]; exact hdense i hi)
      exact hd
  · intro ks ch nc c child hk hc hnc hsort hdense hfresh
    rw [addChild16_insert_eq _ _ _ _ _ _ _ hnc]
    simp only [ANode.keysOf, ANode.getNumChildren, ANode.childrenOf]
    exact ⟨insert_sortedUpto ks nc c (by omega) hsort hfresh,
      insert_dense ch (insIdx ks nc c) nc child (insIdx_le ks nc c) (by omega) hdense⟩
  · intro ks ch nc pos hk hc hnc hpos hne hsort hdense
    rw [removeChild4_shift_eq _ _ _ _ _ _ hne]
    simp only [ANode.keysOf, ANode.getNumChildren, ANode.childrenOf]
    exact ⟨remove_sortedUpto ks nc pos hpos (by omega) hsort,
      remove_dense ch nc pos hpos (by omega) hdense⟩
  · intro ks ch nc pos hk hc hnc hpos hsort hdense
    by_cases h3 : nc - 1 = 3
    · rw [removeChild16_demote_eq _ _ _ _ _ _ h3]
      simp only [ANode.keysOf, ANode.getNumChildren, ANode.childrenOf]
      have hk1len : (goCopyAt ks pos (ks.drop (pos + 1))).length = 16 := by
        rw [goCopyAt_length, hk]
      have hc1len : (goCopyAt ch pos (ch.drop (pos + 1))).length = 16 := by
        rw [goCopyAt_length, hc]
      have hkeq : ∀ j, j < nc - 1 →
          (goCopy (List.replicate 4 0)
            ((goCopyAt ks pos (ks.drop (pos + 1))).take 4)).getD j 0 =
          (goCopyAt ks pos (ks.drop (pos + 1))).getD j 0 := by
        intro j hj
        rw [goCopy_getD, if_pos ⟨by simp; omega, by simp; omega⟩, getD_take,
          if_pos (by omega)]
      have hceq : ∀ j, j < nc - 1 →
          (goCopy (List.replicate 4 none)
            ((goCopyAt ch pos (ch.drop (pos + 1))).take 4)).getD j none =
          (goCopyAt ch pos (ch.drop (pos + 1))).getD j none := by
        intro j hj
        rw [goCopy_getD, if_pos ⟨by simp; omega, by simp; omega⟩, getD_take,
          if_pos (by omega)]
      refine ⟨sortedUpto_congr _ _ (nc - 1) hkeq
        (remove_sortedUpto ks nc pos hpos (by omega) hsort), ?_⟩
      intro i hi
      rw [hceq i hi]
      exact remove_dense ch nc pos hpos (by omega) hdense i hi
    · rw [removeChild16_shift_eq _ _ _ _ _ _ h3]
      simp only [ANode.keysOf, ANode.getNumChildren, ANode.childrenOf]
      exact ⟨remove_sortedUpto ks nc pos hpos (by omega) hsort,
        remove_dense ch nc pos hpos (by omega) hdense⟩

/-- C8 witness: the four conjuncts at concrete inputs — inserting byte 5 into a
two-entry Node4, byte 9 into a three-entry Node16, removing slot 1 of a
three-entry Node4, and removing slot 0 of a four-entry Node16 (which demotes to
a Node4). -/
theorem node4_node16_arrays_sorted_dense_witness :
    (sortedUpto (addChild4 (ANode.node4 0 (List.replicate 10 0) 2 [3, 7, 0, 0]
          [some (ANode.leaf 0 [] 0 [3, 36] 0), some (ANode.leaf 0 [] 0 [7, 36] 0),
            none, none] : ANode Nat) 5 (ANode.leaf 0 [] 0 [5, 36] 0)).keysOf
        (addChild4 (ANode.node4 0 (List.replicate 10 0) 2 [3, 7, 0, 0]
          [some (ANode.leaf 0 [] 0 [3, 36] 0), some (ANode.leaf 0 [] 0 [7, 36] 0),
            none, none] : ANode Nat) 5 (ANode.leaf 0 [] 0 [5, 36] 0)).getNumChildren ∧
      ∀ i, i < (addChild4 (ANode.node4 0 (List.replicate 10 0) 2 [3, 7, 0, 0]
          [some (ANode.leaf 0 [] 0 [3, 36] 0), some (ANode.leaf 0 [] 0 [7, 36] 0),
            none, none] : ANode Nat) 5 (ANode.leaf 0 [] 0 [5, 36] 0)).getNumChildren →
        ((((addChild4 (ANode.node4 0 (List.replicate 10 0) 2 [3, 7, 0, 0]
          [some (ANode.leaf 0 [] 0 [3, 36] 0), some (ANode.leaf 0 [] 0 [7, 36] 0),
            none, none] : ANode Nat) 5
            (ANode.leaf 0 [] 0 [5, 36] 0)).childrenOf.getD i none).isSome) = true)) ∧
    (sortedUpto (addChild16 (ANode.node16 0 (List.replicate 10 0) 3
          [1, 4, 8, 0, 0, 0, 0, 0, 0, 0, 0, 0, 0, 0, 0, 0]
          (List.map some [ANode.leaf 0 [] 0 [1, 36] 0, ANode.leaf 0 [] 0 [4, 36] 0,
              ANode.leaf 0 [] 0 [8, 36] 0] ++ List.replicate 13 none) : ANode Nat) 9
          (ANode.leaf 0 [] 0 [9, 36] 0)).keysOf
        (addChild16 (ANode.node16 0 (List.replicate 10 0) 3
          [1, 4, 8, 0, 0, 0, 0, 0, 0, 0, 0, 0, 0, 0, 0, 0]
          (List.map some [ANode.leaf 0 [] 0 [1, 36] 0, ANode.leaf 0 [] 0 [4, 36] 0,
              ANode.leaf 0 [] 0 [8, 36] 0] ++ List.replicate 13 none) : ANode Nat) 9
          (ANode.leaf 0 [] 0 [9, 36] 0)).getNumChildren) ∧
    (sortedUpto (removeChild4 (ANode.node4 0 (List.replicate 10 0) 3 [2, 5, 9, 0]
          [some (ANode.leaf 0 [] 0 [2, 36] 0), some (ANode.leaf 0 [] 0 [5, 36] 0),
            some (ANode.leaf 0 [] 0 [9, 36] 0), none] : ANode Nat) 1).keysOf
        (removeChild4 (ANode.node4 0 (List.replicate 10 0) 3 [2, 5, 9, 0]
          [some (ANode.leaf 0 [] 0 [2, 36] 0), some (ANode.leaf 0 [] 0 [5, 36] 0),
            some (ANode.leaf 0 [] 0 [9, 36] 0), none] : ANode Nat) 1).getNumChildren) ∧
    (sortedUpto (removeChild16 (ANode.node16 0 (List.replicate 10 0) 4
          [2, 5, 9, 11, 0, 0, 0, 0, 0, 0, 0, 0, 0, 0, 0, 0]
          (List.map some [ANode.leaf 0 [] 0 [2, 36] 0, ANode.leaf 0 [] 0 [5, 36] 0,
              ANode.leaf 0 [] 0 [9, 36] 0, ANode.leaf 0 [] 0 [11, 36] 0]
            ++ List.replicate 12 none) : ANode Nat) 0).keysOf
        (removeChild16 (ANode.node16 0 (List.replicate 10 0) 4
          [2, 5, 9, 11, 0, 0, 0, 0, 0, 0, 0, 0, 0, 0, 0, 0]
          (List.map some [ANode.leaf 0 [] 0 [2, 36] 0, ANode.leaf 0 [] 0 [5, 36] 0,
              ANode.leaf 0 [] 0 [9, 36] 0, ANode.leaf 0 [] 0 [11, 36] 0]
            ++ List.replicate 12 none) : ANode Nat) 0).getNumChildren) := by
  refine ⟨⟨?_, ?_⟩, ?_, ?_, ?_⟩
  · exact ((node4_node16_arrays_sorted_dense 0 (List.replicate 10 0)).1
      [3, 7, 0, 0]
      [some (ANode.leaf 0 [] 0 [3, 36] 0), some (ANode.leaf 0 [] 0 [7, 36] 0),
        none, none] 2 5 (ANode.leaf 0 [] 0 [5, 36] 0) (by decide) (by decide)
      (by decide) (by decide) (by decide) (by decide)).1
  · exact ((node4_node16_arrays_sorted_dense 0 (List.replicate 10 0)).1
      [3, 7, 0, 0]
      [some (ANode.leaf 0 [] 0 [3, 36] 0), some (ANode.leaf 0 [] 0 [7, 36] 0),
        none, none] 2 5 (ANode.leaf 0 [] 0 [5, 36] 0) (by decide) (by decide)
      (by decide) (by decide) (by decide) (by decide)).2
  · exact ((node4_node16_arrays_sorted_dense 0 (List.replicate 10 0)).2.1
      [1, 4, 8, 0, 0, 0, 0, 0, 0, 0, 0, 0, 0, 0, 0, 0]
      (List.map some [ANode.leaf 0 [] 0 [1, 36] 0, ANode.leaf 0 [] 0 [4, 36] 0,
          ANode.leaf 0 [] 0 [8, 36] 0] ++ List.replicate 13 none) 3 9
      (ANode.leaf 0 [] 0 [9, 36] 0) (by decide) (by decide) (by decide)
      (by decide) (by decide) (by decide)).1
  · exact ((node4_node16_arrays_sorted_dense 0 (List.replicate 10 0)).2.2.1
      [2, 5, 9, 0]
      [some (ANode.leaf 0 [] 0 [2, 36] 0), some (ANode.leaf 0 [] 0 [5, 36] 0),
        some (ANode.leaf 0 [] 0 [9, 36] 0), none] 3 1 (by decide) (by decide)
      (by decide) (by decide) (by decide) (by decide) (by decide)).1
  · exact ((node4_node16_arrays_sorted_dense 0 (List.replicate 10 0)).2.2.2
      [2, 5, 9, 11, 0, 0, 0, 0, 0, 0, 0, 0, 0, 0, 0, 0]
      (List.map some [ANode.leaf 0 [] 0 [2, 36] 0, ANode.leaf 0 [] 0 [5, 36] 0,
          ANode.leaf 0 [] 0 [9, 36] 0, ANode.leaf 0 [] 0 [11, 36] 0]
        ++ List.replicate 12 none) 4 0 (by decide) (by decide) (by decide)
      (by decide) (by decide) (by decide)).1


/-- C3: `addChild` promotes exactly when capacity is exhausted.  A `Node4` that
still has room stays a `Node4` (likewise `Node16`/`Node48`), while a full
`Node4`/`Node16`/`Node48` is replaced by the next larger variant: the
replacement carries the source header (`numChildren` becomes the old count plus
one after the pending add, `partialLen` and the explicit prefix bytes are
copied), and it maps every previously present byte to its former child plus the
new byte `c` to the new child. -/
theorem addChild_promotes_at_capacity {T : Type} (pl : Nat) (pb : List Nat) :
    (∀ (ks : List Nat) (ch : List (Option (ANode T))) (nc c : Nat) (child : ANode T),
      nc < 4 → (addChild4 (ANode.node4 pl pb nc ks ch) c child).kindOf = 4) ∧
    (∀ (ks : List Nat) (ch : List (Option (ANode T))) (nc c : Nat) (child : ANode T),
      nc < 16 → (addChild16 (ANode.node16 pl pb nc ks ch) c child).kindOf = 16) ∧
    (∀ (ks : List Nat) (ch : List (Option (ANode T))) (nc c : Nat) (child : ANode T),
      nc < 48 → (addChild48 (ANode.node48 pl pb nc ks ch) c child).kindOf = 48) ∧
    (∀ (ks : List Nat) (ch : List (Option (ANode T))) (c : Nat) (child : ANode T),
      wfShallow (ANode.node4 pl pb 4 ks ch) → c < 256 →
      (∀ i, i < 4 → ks.getD i 0 ≠ c) →
      (addChild4 (ANode.node4 pl pb 4 ks ch) c child).kindOf = 16 ∧
      (addChild4 (ANode.node4 pl pb 4 ks ch) c child).getNumChildren = 4 + 1 ∧
      (addChild4 (ANode.node4 pl pb 4 ks ch) c child).getPartialLen = pl ∧
      (∀ i, i < min maxPrefixLen pl →
        (addChild4 (ANode.node4 pl pb 4 ks ch) c child).getPartialBytes.getD i 0 =
          pb.getD i 0) ∧
      (∀ b, b < 256 →
        findChild (addChild4 (ANode.node4 pl pb 4 ks ch) c child) b =
          if b = c then some child
          else findChild (ANode.node4 pl pb 4 ks ch) b)) ∧
    (∀ (ks : List Nat) (ch : List (Option (ANode T))) (c : Nat) (child : ANode T),
      wfShallow (ANode.node16 pl pb 16 ks ch) → c < 256 →
      (∀ i, i < 16 → ks.getD i 0 ≠ c) →
      (addChild16 (ANode.node16 pl pb 16 ks ch) c child).kindOf = 48 ∧
      (addChild16 (ANode.node16 pl pb 16 ks ch) c child).getNumChildren = 16 + 1 ∧
      (addChild16 (ANode.node16 pl pb 16 ks ch) c child).getPartialLen = pl ∧
      (∀ i, i < min maxPrefixLen pl →
        (addChild16 (ANode.node16 pl pb 16 ks ch) c child).getPartialBytes.getD i 0 =
          pb.getD i 0) ∧
      (∀ b, b < 256 →
        findChild (addChild16 (ANode.node16 pl pb 16 ks ch) c child) b =
          if b = c then some child
          else findChild (ANode.node16 pl pb 16 ks ch) b)) ∧
    (∀ (ks : List Nat) (ch : List (Option (ANode T))) (c : Nat) (child : ANode T),
      wfShallow (ANode.node48 pl pb 48 ks ch) → c < 256 →
      ks.getD c 0 = 0 →
      (addChild48 (ANode.node48 pl pb 48 ks ch) c child).kindOf = 256 ∧
      (addChild48 (ANode.node48 pl pb 48 ks ch) c child).getNumChildren = 48 + 1 ∧
      (addChild48 (ANode.node48 pl pb 48 ks ch) c child).getPartialLen = pl ∧
      (∀ i, i < min maxPrefixLen pl →
        (addChild48 (ANode.node48 pl pb 48 ks ch) c child).getPartialBytes.getD i 0 =
          pb.getD i 0) ∧
      (∀ b, b < 256 →
        findChild (addChild48 (ANode.node48 pl pb 48 ks ch) c child) b =
          if b = c then some child
          else findChild (ANode.node48 pl pb 48 ks ch) b)) := by
  refine ⟨?_, ?_, ?_, ?_, ?_, ?_⟩
  · intro ks ch nc c child h
    rw [addChild4_insert_eq _ _ _ _ _ _ _ h]
    rfl
  · intro ks ch nc c child h
    rw [addChild16_insert_eq _ _ _ _ _ _ _ h]
    rfl
  · intro ks ch nc c child h
    rw [addChild48_insert_eq _ _ _ _ _ _ _ h]
    rfl
  · intro ks ch c child hwf hc hfresh
    obtain ⟨hk, hch, hle, hdense, hsort, hrange⟩ := hwf
    rw [addChild4_promote_eq _ _ _ _ _ _ _ (by omega), copyHeader_node16_eq]
    simp only [ANode.getPartialLen, ANode.getPartialBytes, ANode.getNumChildren]
    rw [addChild16_insert_eq _ _ _ _ _ _ _ (by omega)]
    refine ⟨rfl, rfl, rfl, ?_, ?_⟩
    · intro i hi
      exact promoted_bytes_getD pb pl i hi
    · intro b hb
      have hk16 : (goCopy (List.replicate 16 0) (ks.take 4)).length = 16 := by
        simp [goCopy_length]
      have hc16 : (goCopy (List.replicate 16 none) (ch.take 4)).length = 16 := by
        simp [goCopy_length]
      have hkeq : ∀ j, j < 4 →
          (goCopy (List.replicate 16 0) (ks.take 4)).getD j 0 = ks.getD j 0 :=
        fun j hj => goCopy_take_getD _ ks 4 j 0 hj (by omega) (by simp)
      have hceq : ∀ j, j < 4 →
          (goCopy (List.replicate 16 none) (ch.take 4)).getD j none = ch.getD j none :=
        fun j hj => goCopy_take_getD _ ch 4 j none hj (by omega) (by simp)
      rw [findChild_node16_eq, findChild_node4_eq]
      have hm : min (4 + 1) 16 = 4 + 1 := by decide
      rw [hm]
      by_cases hbc : b = c
      · subst hbc
        obtain ⟨hscan, hchild⟩ := insert_lookup_new
          (goCopy (List.replicate 16 0) (ks.take 4))
          (goCopy (List.replicate 16 none) (ch.take 4)) 4 b child (by omega) (by omega)
          (fun i hi => by rw [hkeq i hi]; exact hfresh i hi)
        rw [hscan, if_pos (by have := insIdx_le (goCopy (List.replicate 16 0) (ks.take 4)) 4 b; omega),
          hchild, if_pos rfl]
      · obtain ⟨hfound_case, habsent_case⟩ := insert_lookup_old
          (goCopy (List.replicate 16 0) (ks.take 4))
          (goCopy (List.replicate 16 none) (ch.take 4)) 4 c child b hbc
          (by omega) (by omega)
        have hsc : scanUp 4 (fun j =>
            decide ((goCopy (List.replicate 16 0) (ks.take 4)).getD j 0 = b)) =
            scanUp 4 (fun j => decide (ks.getD j 0 = b)) :=
          scanUp_congr _ _ _ (fun j hj => by rw [hkeq j hj])
        by_cases hf : scanUp 4 (fun j => decide (ks.getD j 0 = b)) < 4
        · obtain ⟨h1, h2⟩ := hfound_case (by rw [hsc]; exact hf)
          rw [hsc] at h2
          rw [if_pos h1, h2, hceq _ hf, if_neg hbc, if_pos hf]
        · have hle4 := scanUp_le 4 (fun j => decide (ks.getD j 0 = b))
          have habs := habsent_case (by rw [hsc]; omega)
          rw [habs, if_neg (by omega), if_neg hbc, if_neg hf]
  · intro ks ch c child hwf hc hfresh
    obtain ⟨hk, hch, hle, hdense, hsort, hrange⟩ := hwf
    rw [addChild16_promote_eq _ _ _ _ _ _ _ (by omega), copyHeader_node48_eq]
    simp only [ANode.getPartialLen, ANode.getPartialBytes, ANode.getNumChildren]
    have hc48len : (goCopy (List.replicate 48 none) (ch.take 16)).length = 48 := by
      simp [goCopy_length]
    have hceq : ∀ j, j < 16 →
        (goCopy (List.replicate 48 none) (ch.take 16)).getD j none = ch.getD j none :=
      fun j hj => goCopy_take_getD _ ch 16 j none hj (by omega) (by simp)
    have hpos : scanUp 48 (fun s =>
        ((goCopy (List.replicate 48 none) (ch.take 16)).getD s none).isNone) = 16 := by
      apply scanUp_eq_of _ _ _ (by omega)
      · show ((goCopy (List.replicate 48 none) (ch.take 16)).getD 16 none).isNone = true
        rw [goCopy_getD, if_neg (by simp [hch]), getD_replicate]
        rw [if_pos (by omega)]
        rfl
      · intro j hj
        show ((goCopy (List.replicate 48 none) (ch.take 16)).getD j none).isNone = false
        rw [hceq j hj]
        obtain ⟨x, hx⟩ := Option.isSome_iff_exists.mp (hdense j hj)
        rw [hx]
        rfl
    rw [addChild48_insert_eq _ _ _ _ _ _ _ (by omega), hpos]
    obtain ⟨hlen48, hchar⟩ := promote16_fold ks 16 (List.replicate 256 0) (by simp)
      (fun i hi => hrange i hi) (sortedUpto_inj ks 16 hsort)
      (fun b => by rw [getD_replicate]; split <;> rfl)
    refine ⟨rfl, rfl, rfl, ?_, ?_⟩
    · intro i hi
      exact promoted_bytes_getD pb pl i hi
    · intro b hb
      rw [findChild_node48_eq', findChild_node16_eq]
      have hm : min 16 16 = 16 := by decide
      rw [hm]
      by_cases hbc : b = c
      · subst hbc
        rw [getD_set_self _ _ _ _ (by omega), if_pos (by omega),
          Nat.add_sub_cancel, getD_set_self _ _ _ _ (by omega), if_pos rfl]
      · rw [getD_set_ne _ _ _ _ _ (fun h => hbc h.symm), hchar b, if_neg hbc]
        by_cases hf : scanUp 16 (fun i => decide (ks.getD i 0 = b)) < 16
        · rw [if_pos hf, if_pos (by omega), Nat.add_sub_cancel,
            getD_set_ne _ _ _ _ _ (by omega), hceq _ hf, if_pos hf]
        · rw [if_neg hf, if_neg (by omega), if_neg hf]
  · intro ks ch c child hwf hc habsent
    obtain ⟨hk, hch, hle, hcnz, hcsome, hvalid, hinj⟩ := hwf
    rw [addChild48_promote_eq _ _ _ _ _ _ _ (by omega), copyHeader_node256_eq]
    simp only [ANode.getPartialLen, ANode.getPartialBytes, ANode.getNumChildren]
    rw [addChild256_eq]
    refine ⟨rfl, rfl, rfl, ?_, ?_⟩
    · intro i hi
      exact promoted_bytes_getD pb pl i hi
    · intro b hb
      rw [findChild_node256_eq, findChild_node48_eq']
      by_cases hbc : b = c
      · subst hbc
        rw [getD_set_self _ _ _ _ (by simp; omega), if_pos rfl]
      · rw [getD_set_ne _ _ _ _ _ (fun h => hbc h.symm), getD_map_range,
          if_pos hb, if_neg hbc]

/-- C3 witness: a full sorted Node4 (bytes 1,2,3,4) promoted by adding byte 9
becomes a Node16 with five children whose lookups give the old children for
the old bytes and the new child for 9; and a Node4 with room stays a Node4. -/
theorem addChild_promotes_at_capacity_witness :
    ((addChild4 (ANode.node4 0 (List.replicate 10 0) 1 [1, 0, 0, 0]
        [some (ANode.leaf 0 [] 0 [1, 36] 0), none, none, none] : ANode Nat) 2
        (ANode.leaf 0 [] 0 [2, 36] 0)).kindOf = 4) ∧
    ((addChild4 (ANode.node4 0 (List.replicate 10 0) 4 [1, 2, 3, 4]
        [some (ANode.leaf 0 [] 0 [1, 36] 0), some (ANode.leaf 0 [] 0 [2, 36] 0),
          some (ANode.leaf 0 [] 0 [3, 36] 0), some (ANode.leaf 0 [] 0 [4, 36] 0)]
        : ANode Nat) 9 (ANode.leaf 0 [] 0 [9, 36] 0)).kindOf = 16) ∧
    ((addChild4 (ANode.node4 0 (List.replicate 10 0) 4 [1, 2, 3, 4]
        [some (ANode.leaf 0 [] 0 [1, 36] 0), some (ANode.leaf 0 [] 0 [2, 36] 0),
          some (ANode.leaf 0 [] 0 [3, 36] 0), some (ANode.leaf 0 [] 0 [4, 36] 0)]
        : ANode Nat) 9 (ANode.leaf 0 [] 0 [9, 36] 0)).getNumChildren = 4 + 1) ∧
    (findChild (addChild4 (ANode.node4 0 (List.replicate 10 0) 4 [1, 2, 3, 4]
        [some (ANode.leaf 0 [] 0 [1, 36] 0), some (ANode.leaf 0 [] 0 [2, 36] 0),
          some (ANode.leaf 0 [] 0 [3, 36] 0), some (ANode.leaf 0 [] 0 [4, 36] 0)]
        : ANode Nat) 9 (ANode.leaf 0 [] 0 [9, 36] 0)) 9 =
      some (ANode.leaf 0 [] 0 [9, 36] 0)) ∧
    (findChild (addChild4 (ANode.node4 0 (List.replicate 10 0) 4 [1, 2, 3, 4]
        [some (ANode.leaf 0 [] 0 [1, 36] 0), some (ANode.leaf 0 [] 0 [2, 36] 0),
          some (ANode.leaf 0 [] 0 [3, 36] 0), some (ANode.leaf 0 [] 0 [4, 36] 0)]
        : ANode Nat) 9 (ANode.leaf 0 [] 0 [9, 36] 0)) 3 =
      findChild (ANode.node4 0 (List.replicate 10 0) 4 [1, 2, 3, 4]
        [some (ANode.leaf 0 [] 0 [1, 36] 0), some (ANode.leaf 0 [] 0 [2, 36] 0),
          some (ANode.leaf 0 [] 0 [3, 36] 0), some (ANode.leaf 0 [] 0 [4, 36] 0)]
        : ANode Nat) 3) := by
  have hstay := (addChild_promotes_at_capacity (T := Nat) 0 (List.replicate 10 0)).1
    [1, 0, 0, 0] [some (ANode.leaf 0 [] 0 [1, 36] 0), none, none, none] 1 2
    (ANode.leaf 0 [] 0 [2, 36] 0) (by decide)
  have hp := (addChild_promotes_at_capacity (T := Nat) 0 (List.replicate 10 0)).2.2.2.1
    [1, 2, 3, 4]
    [some (ANode.leaf 0 [] 0 [1, 36] 0), some (ANode.leaf 0 [] 0 [2, 36] 0),
      some (ANode.leaf 0 [] 0 [3, 36] 0), some (ANode.leaf 0 [] 0 [4, 36] 0)]
    9 (ANode.leaf 0 [] 0 [9, 36] 0)
    (by constructor
        · decide
        · constructor
          · decide
          · refine ⟨by decide, ?_, by decide, by decide⟩
            intro i hi
            interval_cases i <;> decide)
    (by decide) (by decide)
  refine ⟨hstay, hp.1, hp.2.1, ?_, ?_⟩
  · have h9 := hp.2.2.2.2 9 (by decide)
    rw [h9, if_pos rfl]
  · have h3 := hp.2.2.2.2 3 (by decide)
    rw [h3, if_neg (by decide)]


/-- C2: `removeChild` demotes at the exact thresholds.  A `Node16` left with a
count other than 3 stays a `Node16` (likewise `Node48`/`Node256` away from 12
and 37); a `Node16` left with exactly 3 children becomes a `Node4`, a `Node48`
left with exactly 12 becomes a `Node16` whose key array is rebuilt from the
256-entry index in ascending byte order (hence strictly sorted), and a
`Node256` left with exactly 37 becomes a `Node48`; in each demotion the
replacement keeps the header and maps exactly the old byte-to-child
associations minus the removed entry. -/
theorem removeChild_demotes_at_thresholds {T : Type} (pl : Nat) (pb : List Nat) :
    (∀ (ks : List Nat) (ch : List (Option (ANode T))) (nc pos : Nat),
      nc - 1 ≠ 3 → (removeChild16 (ANode.node16 pl pb nc ks ch) pos).kindOf = 16) ∧
    (∀ (ks : List Nat) (ch : List (Option (ANode T))) (nc c : Nat),
      nc - 1 ≠ 12 → (removeChild48 (ANode.node48 pl pb nc ks ch) c).kindOf = 48) ∧
    (∀ (ch : List (Option (ANode T))) (nc c : Nat),
      nc - 1 ≠ 37 → (removeChild256 (ANode.node256 pl pb nc ch) c).kindOf = 256) ∧
    (∀ (ks : List Nat) (ch : List (Option (ANode T))) (pos : Nat),
      wfShallow (ANode.node16 pl pb 4 ks ch) → pos < 4 →
      (removeChild16 (ANode.node16 pl pb 4 ks ch) pos).kindOf = 4 ∧
      (removeChild16 (ANode.node16 pl pb 4 ks ch) pos).getNumChildren = 3 ∧
      (removeChild16 (ANode.node16 pl pb 4 ks ch) pos).getPartialLen = pl ∧
      (∀ b, b < 256 →
        findChild (removeChild16 (ANode.node16 pl pb 4 ks ch) pos) b =
          if b = ks.getD pos 0 then none
          else findChild (ANode.node16 pl pb 4 ks ch) b)) ∧
    (∀ (ks : List Nat) (ch : List (Option (ANode T))) (c : Nat),
      wfShallow (ANode.node48 pl pb 13 ks ch) → c < 256 → ks.getD c 0 ≠ 0 →
      (removeChild48 (ANode.node48 pl pb 13 ks ch) c).kindOf = 16 ∧
      (removeChild48 (ANode.node48 pl pb 13 ks ch) c).getNumChildren = 12 ∧
      (removeChild48 (ANode.node48 pl pb 13 ks ch) c).getPartialLen = pl ∧
      sortedUpto (removeChild48 (ANode.node48 pl pb 13 ks ch) c).keysOf 12 ∧
      (∀ b, b < 256 →
        findChild (removeChild48 (ANode.node48 pl pb 13 ks ch) c) b =
          if b = c then none
          else findChild (ANode.node48 pl pb 13 ks ch) b)) ∧
    (∀ (ch : List (Option (ANode T))) (c : Nat),
      wfShallow (ANode.node256 pl pb 38 ch) → c < 256 →
      ((ch.getD c none).isSome = true) →
      (removeChild256 (ANode.node256 pl pb 38 ch) c).kindOf = 48 ∧
      (removeChild256 (ANode.node256 pl pb 38 ch) c).getNumChildren = 37 ∧
      (removeChild256 (ANode.node256 pl pb 38 ch) c).getPartialLen = pl ∧
      (∀ b, b < 256 →
        findChild (removeChild256 (ANode.node256 pl pb 38 ch) c) b =
          if b = c then none
          else findChild (ANode.node256 pl pb 38 ch) b)) := by
  refine ⟨?_, ?_, ?_, ?_, ?_, ?_⟩
  · intro ks ch nc pos h
    rw [removeChild16_shift_eq _ _ _ _ _ _ h]
    rfl
  · intro ks ch nc c h
    rw [removeChild48_shift_eq _ _ _ _ _ _ h]
    rfl
  · intro ch nc c h
    rw [removeChild256_shift_eq _ _ _ _ _ h]
    rfl
  · intro ks ch pos hwf hpos
    obtain ⟨hk, hch, hle, hdense, hsort, hrange⟩ := hwf
    rw [removeChild16_demote_eq _ _ _ _ _ _ (by omega)]
    refine ⟨rfl, rfl, rfl, ?_⟩
    intro b hb
    rw [findChild_node4_eq, findChild_node16_eq]
    have hm : min 4 16 = 4 := by decide
    rw [hm]
    have hks1len : (goCopyAt ks pos (ks.drop (pos + 1))).length = 16 := by
      rw [goCopyAt_length, hk]
    have hch1len : (goCopyAt ch pos (ch.drop (pos + 1))).length = 16 := by
      rw [goCopyAt_length, hch]
    have hkeq : ∀ j, j < 4 - 1 →
        (goCopy (List.replicate 4 0)
          ((goCopyAt ks pos (ks.drop (pos + 1))).take 4)).getD j 0 =
        (goCopyAt ks pos (ks.drop (pos + 1))).getD j 0 :=
      fun j hj => goCopy_take_getD _ _ 4 j 0 (by omega) (by omega) (by simp)
    have hceq : ∀ j, j < 4 - 1 →
        (goCopy (List.replicate 4 none)
          ((goCopyAt ch pos (ch.drop (pos + 1))).take 4)).getD j none =
        (goCopyAt ch pos (ch.drop (pos + 1))).getD j none :=
      fun j hj => goCopy_take_getD _ _ 4 j none (by omega) (by omega) (by simp)
    have hsc : scanUp (4 - 1) (fun i => decide ((goCopy (List.replicate 4 0)
          ((goCopyAt ks pos (ks.drop (pos + 1))).take 4)).getD i 0 = b)) =
        scanUp (4 - 1) (fun i =>
          decide ((goCopyAt ks pos (ks.drop (pos + 1))).getD i 0 = b)) :=
      scanUp_congr _ _ _ (fun j hj => by rw [hkeq j hj])
    obtain ⟨hrm, hothers⟩ := remove_lookup ks ch 4 pos hpos (by omega) (by omega) hsort
    by_cases hbp : b = ks.getD pos 0
    · subst hbp
      rw [hsc, hrm, if_neg (by omega), if_pos rfl]
    · obtain ⟨hfound, habsent⟩ := hothers b hbp
      by_cases hf : scanUp 4 (fun j => decide (ks.getD j 0 = b)) < 4
      · obtain ⟨h1, h2⟩ := hfound hf
        rw [hsc, if_pos h1, hceq _ h1, h2, if_neg hbp, if_pos hf]
      · have hle4 := scanUp_le 4 (fun j => decide (ks.getD j 0 = b))
        have habs := habsent (by omega)
        rw [hsc, habs, if_neg (by omega), if_neg hbp, if_neg hf]
  · intro ks ch c hwf hc hpres
    obtain ⟨hk, hch, hle, hcnz, hcsome, hvalid, hinj⟩ := hwf
    rw [removeChild48_demote_eq _ _ _ _ _ _ (by omega)]
    have hfold := demote48_fold (ks.set c 0) (ch.set (ks.getD c 0 - 1) none) 256
      (List.replicate 16 0) (List.replicate 16 none)
    have h21 : ((List.range 256).foldl (demote48Step (ks.set c 0) (ch.set (ks.getD c 0 - 1) none))
        (0, List.replicate 16 0, List.replicate 16 none)).2.1 =
        goCopy (List.replicate 16 0) ((List.range 256).filter (fun i => decide ((ks.set c 0).getD i 0 ≠ 0))) := by
      rw [hfold]
    have h22 : ((List.range 256).foldl (demote48Step (ks.set c 0) (ch.set (ks.getD c 0 - 1) none))
        (0, List.replicate 16 0, List.replicate 16 none)).2.2 =
        goCopy (List.replicate 16 none)
          (((List.range 256).filter (fun i => decide ((ks.set c 0).getD i 0 ≠ 0))).map (fun x => (ch.set (ks.getD c 0 - 1) none).getD ((ks.set c 0).getD x 0 - 1) none)) := by
      rw [hfold]
    have hLlen : (((List.range 256).filter (fun i => decide ((ks.set c 0).getD i 0 ≠ 0))) : List Nat).length = 12 := by
      have hset := countP_set_eq ks c 0 0 (fun k => decide (k ≠ 0)) (by omega)
      rw [if_pos (by simpa using hpres), if_neg (by simp)] at hset
      have hcz : countNonzero (ks.set c 0) = 12 := by
        simp only [countNonzero] at hcnz ⊢
        omega
      have hbr := countNonzero_eq_filter_length (ks.set c 0) (by simp [hk])
      rw [hcz] at hbr
      exact hbr.symm
    have hKeq : ∀ j, j < 12 →
        (goCopy (List.replicate 16 0) ((List.range 256).filter (fun i => decide ((ks.set c 0).getD i 0 ≠ 0)))).getD j 0 = (((List.range 256).filter (fun i => decide ((ks.set c 0).getD i 0 ≠ 0))) : List Nat).getD j 0 := by
      intro j hj
      rw [goCopy_getD, if_pos ⟨by simp; omega, by rw [hLlen]; omega⟩]
    refine ⟨rfl, rfl, rfl, ?_, ?_⟩
    · show sortedUpto ((List.range 256).foldl (demote48Step (ks.set c 0) (ch.set (ks.getD c 0 - 1) none))
        (0, List.replicate 16 0, List.replicate 16 none)).2.1 12
      rw [h21]
      intro j hj i hij
      rw [hKeq j hj, hKeq i (by omega)]
      exact filter_range_getD_lt _ 256 i j hij (by rw [hLlen]; omega)
    · intro b hb
      rw [findChild_node16_eq, findChild_node48_eq']
      have hm : min (13 - 1) 16 = 12 := by decide
      rw [hm, h21, h22]
      have hsc : scanUp 12 (fun i => decide ((goCopy (List.replicate 16 0)
            ((List.range 256).filter (fun i => decide ((ks.set c 0).getD i 0 ≠ 0)))).getD i 0 = b)) =
          scanUp 12 (fun i => decide ((((List.range 256).filter (fun i => decide ((ks.set c 0).getD i 0 ≠ 0))) : List Nat).getD i 0 = b)) :=
        scanUp_congr _ _ _ (fun j hj => by rw [hKeq j hj])
      rw [hsc]
      by_cases hbc : b = c
      · have hnotin : ∀ j, j < 12 → (((List.range 256).filter (fun i => decide ((ks.set c 0).getD i 0 ≠ 0))) : List Nat).getD j 0 ≠ b := by
          intro j hj heq
          have hjL : j < (((List.range 256).filter (fun i => decide ((ks.set c 0).getD i 0 ≠ 0))) : List Nat).length := by rw [hLlen]; omega
          have hmem : (((List.range 256).filter (fun i => decide ((ks.set c 0).getD i 0 ≠ 0))) : List Nat).getD j 0 ∈ (((List.range 256).filter (fun i => decide ((ks.set c 0).getD i 0 ≠ 0))) : List Nat) := by
            rw [getD_eq_get _ _ _ hjL]
            exact List.get_mem _ _ _
          have hp := (List.mem_filter.mp hmem).2
          rw [heq, hbc] at hp
          simp only [decide_eq_true_eq] at hp
          rw [getD_set_self _ _ _ _ (by omega)] at hp
          exact hp rfl
        have hscan12 : scanUp 12 (fun i => decide ((((List.range 256).filter (fun i => decide ((ks.set c 0).getD i 0 ≠ 0))) : List Nat).getD i 0 = b)) = 12 := by
          have hall : ∀ j, 0 ≤ j → j < 0 + 12 →
              (fun i => decide ((((List.range 256).filter (fun i => decide ((ks.set c 0).getD i 0 ≠ 0))) : List Nat).getD i 0 = b)) j = false := by
            intro j hj0 hj
            simp only [decide_eq_false_iff_not]
            exact hnotin j (by omega)
          have := scanUpFrom_all_false _ 0 12 hall
          simpa [scanUp] using this
        rw [hscan12, if_neg (by omega), if_pos hbc]
      · have hks1b : ((ks.set c 0) : List Nat).getD b 0 = ks.getD b 0 :=
          getD_set_ne _ _ _ _ _ (fun h => hbc h.symm)
        by_cases hpb : ks.getD b 0 ≠ 0
        · have hpb1 : (decide (((ks.set c 0) : List Nat).getD b 0 ≠ 0)) = true := by
            simp only [decide_eq_true_eq]
            rw [hks1b]
            exact hpb
          obtain ⟨hcnt_lt, hcnt_get⟩ := filter_range_count_getD
            (fun i => decide (((ks.set c 0) : List Nat).getD i 0 ≠ 0)) 256 b hb hpb1
          have hidx12 : ((List.range b).filter
              (fun i => decide (((ks.set c 0) : List Nat).getD i 0 ≠ 0))).length < 12 := by
            rw [hLlen] at hcnt_lt
            exact hcnt_lt
          have hscanfound : scanUp 12 (fun i => decide ((((List.range 256).filter (fun i => decide ((ks.set c 0).getD i 0 ≠ 0))) : List Nat).getD i 0 = b)) =
              ((List.range b).filter
                (fun i => decide (((ks.set c 0) : List Nat).getD i 0 ≠ 0))).length := by
            apply scanUp_eq_of _ _ _ hidx12
            · simp only [decide_eq_true_eq]
              exact hcnt_get
            · intro j hj
              simp only [decide_eq_false_iff_not]
              have hlt := filter_range_getD_lt
                (fun i => decide (((ks.set c 0) : List Nat).getD i 0 ≠ 0)) 256 j _ hj hcnt_lt
              rw [hcnt_get] at hlt
              omega
          rw [hscanfound, if_pos hidx12]
          have hmaplen : ((((List.range 256).filter (fun i => decide ((ks.set c 0).getD i 0 ≠ 0))) : List Nat).map
              (fun x => (ch.set (ks.getD c 0 - 1) none).getD ((ks.set c 0).getD x 0 - 1) none)).length = 12 := by
            rw [List.length_map, hLlen]
          rw [goCopy_getD, if_pos ⟨by simp only [List.length_replicate]; omega, by rw [hmaplen]; omega⟩]
          rw [getD_map _ _ _ _ 0 hcnt_lt, hcnt_get]
          have hneidx : ks.getD c 0 - 1 ≠ ks.getD b 0 - 1 := by
            have hne := hinj b c hb hc hbc (by omega)
            omega
          show (ch.set (ks.getD c 0 - 1) none).getD ((ks.set c 0).getD b 0 - 1) none =
            if b = c then none
            else if ks.getD b 0 ≠ 0 then ch.getD (ks.getD b 0 - 1) none else none
          rw [hks1b, getD_set_ne _ _ _ _ _ hneidx, if_neg hbc, if_pos hpb]
        · push_neg at hpb
          have hnotin : ∀ j, j < 12 → (((List.range 256).filter (fun i => decide ((ks.set c 0).getD i 0 ≠ 0))) : List Nat).getD j 0 ≠ b := by
            intro j hj heq
            have hjL : j < (((List.range 256).filter (fun i => decide ((ks.set c 0).getD i 0 ≠ 0))) : List Nat).length := by rw [hLlen]; omega
            have hmem : (((List.range 256).filter (fun i => decide ((ks.set c 0).getD i 0 ≠ 0))) : List Nat).getD j 0 ∈ (((List.range 256).filter (fun i => decide ((ks.set c 0).getD i 0 ≠ 0))) : List Nat) := by
              rw [getD_eq_get _ _ _ hjL]
              exact List.get_mem _ _ _
            have hp := (List.mem_filter.mp hmem).2
            rw [heq] at hp
            simp only [decide_eq_true_eq] at hp
            rw [hks1b] at hp
            exact hp hpb
          have hscan12 : scanUp 12 (fun i =>
              decide ((((List.range 256).filter (fun i => decide ((ks.set c 0).getD i 0 ≠ 0))) : List Nat).getD i 0 = b)) = 12 := by
            have hall : ∀ j, 0 ≤ j → j < 0 + 12 →
                (fun i => decide ((((List.range 256).filter (fun i => decide ((ks.set c 0).getD i 0 ≠ 0))) : List Nat).getD i 0 = b)) j = false := by
              intro j hj0 hj
              simp only [decide_eq_false_iff_not]
              exact hnotin j (by omega)
            have := scanUpFrom_all_false _ 0 12 hall
            simpa [scanUp] using this
          rw [hscan12, if_neg (by omega), if_neg hbc, if_neg (by omega)]
  · intro ch c hwf hc hsome
    obtain ⟨hch, hle, hcs⟩ := hwf
    rw [removeChild256_demote_eq _ _ _ _ _ (by omega)]
    obtain ⟨hc1, hc2, hc3, hc4⟩ := demote256_fold (ch.set c none) 256
      (List.replicate 256 0) (List.replicate 48 none) (by simp) (by omega)
      (fun b => by rw [getD_replicate]; split <;> rfl)
    have hLlen : (((List.range 256).filter (fun i => ((ch.set c none).getD i none).isSome)) : List Nat).length = 37 := by
      have hset := countP_set_eq ch c none none (fun o => o.isSome) (by omega)
      rw [if_pos (by simpa using hsome), if_neg (by simp)] at hset
      have hcz : countSomeSlots (ch.set c none) = 37 := by
        simp only [countSomeSlots] at hcs ⊢
        omega
      have hbr := countSomeSlots_eq_filter_length (ch.set c none) (by simp [hch])
      rw [hcz] at hbr
      exact hbr.symm
    refine ⟨rfl, rfl, rfl, ?_⟩
    intro b hb
    rw [findChild_node48_eq', findChild_node256_eq]
    rw [hc4 b]
    by_cases hbc : b = c
    · have hcnone : ¬(b < 256 ∧ (((ch.set c none) : List (Option (ANode T))).getD b none).isSome
          = true) := by
        rintro ⟨h1, h2⟩
        rw [hbc, getD_set_self _ _ _ _ (by omega)] at h2
        exact Bool.noConfusion h2
      rw [if_neg hcnone, if_neg (by omega), if_pos hbc]
    · have hchb : ((ch.set c none) : List (Option (ANode T))).getD b none = ch.getD b none :=
        getD_set_ne _ _ _ _ _ (fun h => hbc h.symm)
      by_cases hs : (ch.getD b none).isSome = true
      · have hcond : b < 256 ∧ (((ch.set c none) : List (Option (ANode T))).getD b none).isSome
            = true := ⟨hb, by rw [hchb]; exact hs⟩
        rw [if_pos hcond, if_pos (by omega), Nat.add_sub_cancel, hc2]
        obtain ⟨hcnt_lt, hcnt_get⟩ := filter_range_count_getD
          (fun i => (((ch.set c none) : List (Option (ANode T))).getD i none).isSome) 256 b hb
          hcond.2
        have hmaplen : ((((List.range 256).filter (fun i => ((ch.set c none).getD i none).isSome)) : List Nat).map
            (fun x => ((ch.set c none) : List (Option (ANode T))).getD x none)).length = 37 := by
          rw [List.length_map, hLlen]
        have hcnt37 : ((List.range b).filter
            (fun i => (((ch.set c none) : List (Option (ANode T))).getD i none).isSome)).length
            < 37 := by
          rw [hLlen] at hcnt_lt
          exact hcnt_lt
        rw [goCopy_getD, if_pos ⟨by simp only [List.length_replicate]; omega, by rw [hmaplen]; omega⟩]
        rw [getD_map _ _ _ _ 0 hcnt_lt, hcnt_get]
        show ((ch.set c none) : List (Option (ANode T))).getD b none =
          if b = c then none else ch.getD b none
        rw [hchb, if_neg hbc]
      · have hcond : ¬(b < 256 ∧ (((ch.set c none) : List (Option (ANode T))).getD b none).isSome
            = true) := by
          rintro ⟨h1, h2⟩
          rw [hchb] at h2
          exact hs h2
        rw [if_neg hcond, if_neg (by omega), if_neg hbc]
        cases hx : ch.getD b none with
        | none => rfl
        | some x =>
          rw [hx] at hs
          simp at hs

/-- C2 witness: removing slot 1 (byte 5) from a Node16 holding bytes
2, 5, 9, 11 demotes it to a Node4 with three children; byte 5 is gone and
byte 9 still finds its old child. -/
theorem removeChild_demotes_at_thresholds_witness :
    ((removeChild16 (ANode.node16 0 (List.replicate 10 0) 4
        [2, 5, 9, 11, 0, 0, 0, 0, 0, 0, 0, 0, 0, 0, 0, 0]
        (List.map some [ANode.leaf 0 [] 0 [2, 36] 0, ANode.leaf 0 [] 0 [5, 36] 0,
            ANode.leaf 0 [] 0 [9, 36] 0, ANode.leaf 0 [] 0 [11, 36] 0]
          ++ List.replicate 12 none) : ANode Nat) 1).kindOf = 4) ∧
    ((removeChild16 (ANode.node16 0 (List.replicate 10 0) 4
        [2, 5, 9, 11, 0, 0, 0, 0, 0, 0, 0, 0, 0, 0, 0, 0]
        (List.map some [ANode.leaf 0 [] 0 [2, 36] 0, ANode.leaf 0 [] 0 [5, 36] 0,
            ANode.leaf 0 [] 0 [9, 36] 0, ANode.leaf 0 [] 0 [11, 36] 0]
          ++ List.replicate 12 none) : ANode Nat) 1).getNumChildren = 3) ∧
    (findChild (removeChild16 (ANode.node16 0 (List.replicate 10 0) 4
        [2, 5, 9, 11, 0, 0, 0, 0, 0, 0, 0, 0, 0, 0, 0, 0]
        (List.map some [ANode.leaf 0 [] 0 [2, 36] 0, ANode.leaf 0 [] 0 [5, 36] 0,
            ANode.leaf 0 [] 0 [9, 36] 0, ANode.leaf 0 [] 0 [11, 36] 0]
          ++ List.replicate 12 none) : ANode Nat) 1) 5 = none) ∧
    (findChild (removeChild16 (ANode.node16 0 (List.replicate 10 0) 4
        [2, 5, 9, 11, 0, 0, 0, 0, 0, 0, 0, 0, 0, 0, 0, 0]
        (List.map some [ANode.leaf 0 [] 0 [2, 36] 0, ANode.leaf 0 [] 0 [5, 36] 0,
            ANode.leaf 0 [] 0 [9, 36] 0, ANode.leaf 0 [] 0 [11, 36] 0]
          ++ List.replicate 12 none) : ANode Nat) 1) 9 =
      findChild (ANode.node16 0 (List.replicate 10 0) 4
        [2, 5, 9, 11, 0, 0, 0, 0, 0, 0, 0, 0, 0, 0, 0, 0]
        (List.map some [ANode.leaf 0 [] 0 [2, 36] 0, ANode.leaf 0 [] 0 [5, 36] 0,
            ANode.leaf 0 [] 0 [9, 36] 0, ANode.leaf 0 [] 0 [11, 36] 0]
          ++ List.replicate 12 none) : ANode Nat) 9) := by
  have hp := (removeChild_demotes_at_thresholds (T := Nat) 0
      (List.replicate 10 0)).2.2.2.1
    [2, 5, 9, 11, 0, 0, 0, 0, 0, 0, 0, 0, 0, 0, 0, 0]
    (List.map some [ANode.leaf 0 [] 0 [2, 36] 0, ANode.leaf 0 [] 0 [5, 36] 0,
        ANode.leaf 0 [] 0 [9, 36] 0, ANode.leaf 0 [] 0 [11, 36] 0]
      ++ List.replicate 12 none) 1
    ⟨by decide, by decide, by decide, by decide, by decide, by decide⟩ (by decide)
  refine ⟨hp.1, hp.2.1, ?_, ?_⟩
  · have h5 := hp.2.2.2 5 (by decide)
    rw [h5, if_pos (by decide)]
  · have h9 := hp.2.2.2 9 (by decide)
    rw [h9, if_neg (by decide)]


/-- C4 (amended): starting from any hereditarily well-formed node, after any
valid sequence of `addChild`/`removeChild` operations the result is again
hereditarily well-formed, and in particular `numChildren` matches the variant's
occupancy reading: for a Node4/Node16 the first `numChildren` child slots are
all non-nil (the array beyond that region may keep a stale duplicate after a
shift), for a Node48 it equals the number of non-zero index entries, and for a
Node256 the number of non-nil direct slots. -/
theorem numChildren_matches_occupancy {T : Type} (n : ANode T) (ops : List (AOp T))
    (hwf : wfDeep n) (hops : opsValid n ops) :
    wfDeep (applyOps n ops) ∧ countsAccurate (applyOps n ops) :=
  ⟨wfDeep_applyOps n ops hwf hops,
   countsAccurate_of_wfShallow _ (wfDeep_shallow _ (wfDeep_applyOps n ops hwf hops))⟩

/-- C4 witness: a one-child Node4 taken through an `addChild` of byte 9 and a
`removeChild` of its slot 0 stays well-formed with an accurate count. -/
theorem numChildren_matches_occupancy_witness :
    wfDeep (applyOps (ANode.node4 0 (List.replicate 10 0) 1 [5, 0, 0, 0]
        [some (ANode.leaf 0 [] 0 [5, 36] 0), none, none, none] : ANode Nat)
      [AOp.add 9 (ANode.leaf 0 [] 0 [9, 36] 0), AOp.remove 0 0]) ∧
    countsAccurate (applyOps (ANode.node4 0 (List.replicate 10 0) 1 [5, 0, 0, 0]
        [some (ANode.leaf 0 [] 0 [5, 36] 0), none, none, none] : ANode Nat)
      [AOp.add 9 (ANode.leaf 0 [] 0 [9, 36] 0), AOp.remove 0 0]) := by
  apply numChildren_matches_occupancy
  · apply wfDeep_mk
    · exact ⟨by decide, by decide, by decide, by decide, by decide, by decide⟩
    · intro i x hx
      have hx' : ([some (ANode.leaf 0 [] 0 [5, 36] 0), none, none, none] :
          List (Option (ANode Nat))).getD i none = some x := hx
      match i with
      | 0 =>
        cases hx'
        exact wfDeep_leaf _ _ _ _ _
      | 1 => exact Option.noConfusion hx'
      | 2 => exact Option.noConfusion hx'
      | 3 => exact Option.noConfusion hx'
      | (i + 4) =>
        rw [getD_of_length_le _ _ _ (by simpa using Nat.le_add_left 4 i)] at hx'
        exact Option.noConfusion hx'
  · refine ⟨⟨wfDeep_leaf _ _ _ _ _, by decide, by decide⟩, ?_, trivial⟩
    show 0 < 2
    decide


theorem scanUpFrom_congr (p q : Nat → Bool) (lo fuel : Nat)
    (h : ∀ j, lo ≤ j → j < lo + fuel → p j = q j) :
    scanUpFrom p lo fuel = scanUpFrom q lo fuel := by
  induction fuel generalizing lo with
  | zero => simp [scanUpFrom]
  | succ fuel ih =>
    simp only [scanUpFrom]
    rw [h lo (by omega) (by omega)]
    split
    · rfl
    · exact ih (lo + 1) (fun j h1 h2 => h j (by omega) (by omega))

/-- C6: when `partialLen` fits in the explicit buffer, `prefixMismatch`
coincides with `checkPrefix`; when `partialLen` exceeds `maxPrefixLen` and the
minimum leaf beneath the node exists, covers the explicit prefix region, and
agrees with the explicit prefix bytes there, `prefixMismatch` returns the first
index at which the search key (from `depth`) disagrees with the node's full
logical prefix, recovered from that leaf's stored key. -/
theorem prefixMismatch_spec {T : Type} (n : ANode T) (key : List Nat)
    (keyLen depth : Nat) :
    (n.getPartialLen ≤ maxPrefixLen →
      prefixMismatch n key keyLen depth = checkPrefix n key keyLen depth) ∧
    (∀ l : ANode T, maxPrefixLen < n.getPartialLen →
      minimum (some n) = some l →
      depth + maxPrefixLen ≤ l.leafKeyLen →
      (∀ i, i < min maxPrefixLen (keyLen - depth) →
        n.getPartialBytes.getD i 0 = l.leafKey.getD (depth + i) 0) →
      prefixMismatch n key keyLen depth =
        scanUp (min l.leafKeyLen keyLen - depth)
          (fun i => decide (l.leafKey.getD (depth + i) 0 ≠ key.getD (depth + i) 0))) := by
  constructor
  · intro hple
    simp only [prefixMismatch, checkPrefix]
    rw [Nat.min_comm maxPrefixLen n.getPartialLen]
    by_cases hf : scanUp (min (min n.getPartialLen maxPrefixLen) (keyLen - depth))
        (fun idx => decide (n.getPartialBytes.getD idx 0 ≠ key.getD (depth + idx) 0)) <
        min (min n.getPartialLen maxPrefixLen) (keyLen - depth)
    · rw [if_pos hf]
    · rw [if_neg hf, if_neg (by omega)]
  · intro l hpl hmin hkl hagree
    simp only [prefixMismatch, hmin]
    rw [Nat.min_eq_left (Nat.le_of_lt hpl)]
    have hAM : min maxPrefixLen (keyLen - depth) ≤ min l.leafKeyLen keyLen - depth := by
      omega
    have hidx_eq : scanUp (min maxPrefixLen (keyLen - depth))
        (fun idx => decide (n.getPartialBytes.getD idx 0 ≠ key.getD (depth + idx) 0)) =
        scanUp (min maxPrefixLen (keyLen - depth))
          (fun i => decide (l.leafKey.getD (depth + i) 0 ≠ key.getD (depth + i) 0)) := by
      apply scanUp_congr
      intro i hi
      try simp only
      rw [hagree i hi]
    by_cases hf : scanUp (min maxPrefixLen (keyLen - depth))
        (fun idx => decide (n.getPartialBytes.getD idx 0 ≠ key.getD (depth + idx) 0)) <
        min maxPrefixLen (keyLen - depth)
    · rw [if_pos hf]
      rw [hidx_eq] at hf ⊢
      have hfound := scanUpFrom_found
        (fun i => decide (l.leafKey.getD (depth + i) 0 ≠ key.getD (depth + i) 0)) 0
        (min maxPrefixLen (keyLen - depth)) (by simpa [scanUp] using hf)
      refine (scanUp_eq_of _ _ _ (by omega) hfound ?_).symm
      intro j hj
      exact scanUpFrom_min
        (fun i => decide (l.leafKey.getD (depth + i) 0 ≠ key.getD (depth + i) 0)) 0
        (min maxPrefixLen (keyLen - depth)) j (by omega)
        (by simpa [scanUp] using hj)
    · rw [if_neg hf, if_pos hpl]
      have hA : scanUp (min maxPrefixLen (keyLen - depth))
          (fun idx => decide (n.getPartialBytes.getD idx 0 ≠ key.getD (depth + idx) 0)) =
          min maxPrefixLen (keyLen - depth) := by
        have := scanUp_le (min maxPrefixLen (keyLen - depth))
          (fun idx => decide (n.getPartialBytes.getD idx 0 ≠ key.getD (depth + idx) 0))
        omega
      rw [hA]
      have hcongr : scanUpFrom
          (fun i => decide (l.leafKey.getD (i + depth) 0 ≠ key.getD (depth + i) 0))
          (min maxPrefixLen (keyLen - depth))
          (min l.leafKeyLen keyLen - depth - min maxPrefixLen (keyLen - depth)) =
          scanUpFrom
            (fun i => decide (l.leafKey.getD (depth + i) 0 ≠ key.getD (depth + i) 0))
            (min maxPrefixLen (keyLen - depth))
            (min l.leafKeyLen keyLen - depth - min maxPrefixLen (keyLen - depth)) := by
        apply scanUpFrom_congr
        intro j h1 h2
        try simp only
        rw [Nat.add_comm j depth]
      rw [hcongr]
      have hMM : min l.leafKeyLen keyLen - depth = min maxPrefixLen (keyLen - depth) +
          (min l.leafKeyLen keyLen - depth - min maxPrefixLen (keyLen - depth)) := by
        omega
      conv_rhs => rw [show scanUp (min l.leafKeyLen keyLen - depth)
          (fun i => decide (l.leafKey.getD (depth + i) 0 ≠ key.getD (depth + i) 0)) =
          scanUpFrom
            (fun i => decide (l.leafKey.getD (depth + i) 0 ≠ key.getD (depth + i) 0)) 0
            (min l.leafKeyLen keyLen - depth) from rfl, hMM]
      rw [scanUpFrom_split]
      have hA' : scanUpFrom
          (fun i => decide (l.leafKey.getD (depth + i) 0 ≠ key.getD (depth + i) 0)) 0
          (min maxPrefixLen (keyLen - depth)) = min maxPrefixLen (keyLen - depth) := by
        have h1 : scanUpFrom
            (fun i => decide (l.leafKey.getD (depth + i) 0 ≠ key.getD (depth + i) 0)) 0
            (min maxPrefixLen (keyLen - depth)) =
            scanUp (min maxPrefixLen (keyLen - depth))
              (fun i => decide (l.leafKey.getD (depth + i) 0 ≠ key.getD (depth + i) 0)) :=
          rfl
        rw [h1, ← hidx_eq, hA]
      rw [hA', if_neg (by omega), Nat.zero_add]

/-- C6 witness: for a node whose prefix fits the buffer the two mismatch
computations agree on a concrete key; for a Node4 with `partialLen` 12 holding
one leaf, `prefixMismatch` equals the scan against that minimum leaf's key. -/
theorem prefixMismatch_spec_witness :
    (prefixMismatch (ANode.node4 3 [1, 2, 3, 0, 0, 0, 0, 0, 0, 0] 1 [7, 0, 0, 0]
        [some (ANode.leaf 0 [] 0 [1, 2, 3, 7, 36] (0 : Nat)), none, none, none])
        [1, 2, 9] 3 0 =
      checkPrefix (ANode.node4 3 [1, 2, 3, 0, 0, 0, 0, 0, 0, 0] 1 [7, 0, 0, 0]
        [some (ANode.leaf 0 [] 0 [1, 2, 3, 7, 36] (0 : Nat)), none, none, none])
        [1, 2, 9] 3 0) ∧
    (prefixMismatch (ANode.node4 12 [1, 2, 3, 4, 5, 6, 7, 8, 9, 10] 1 [13, 0, 0, 0]
        [some (ANode.leaf 0 [] 0 [1, 2, 3, 4, 5, 6, 7, 8, 9, 10, 11, 12, 13, 36]
          (0 : Nat)), none, none, none])
        [1, 2, 3, 4, 5, 6, 7, 8, 9, 10, 11, 99] 12 0 =
      scanUp (min (ANode.leaf 0 [] 0 [1, 2, 3, 4, 5, 6, 7, 8, 9, 10, 11, 12, 13, 36]
          (0 : Nat)).leafKeyLen 12 - 0)
        (fun i => decide ((ANode.leaf 0 [] 0
            [1, 2, 3, 4, 5, 6, 7, 8, 9, 10, 11, 12, 13, 36] (0 : Nat)).leafKey.getD
            (0 + i) 0 ≠
          [1, 2, 3, 4, 5, 6, 7, 8, 9, 10, 11, 99].getD (0 + i) 0))) := by
  constructor
  · exact (prefixMismatch_spec (ANode.node4 3 [1, 2, 3, 0, 0, 0, 0, 0, 0, 0] 1
      [7, 0, 0, 0] [some (ANode.leaf 0 [] 0 [1, 2, 3, 7, 36] (0 : Nat)),
        none, none, none]) [1, 2, 9] 3 0).1 (by decide)
  · refine (prefixMismatch_spec (ANode.node4 12 [1, 2, 3, 4, 5, 6, 7, 8, 9, 10] 1
      [13, 0, 0, 0] [some (ANode.leaf 0 [] 0
        [1, 2, 3, 4, 5, 6, 7, 8, 9, 10, 11, 12, 13, 36] (0 : Nat)),
        none, none, none]) [1, 2, 3, 4, 5, 6, 7, 8, 9, 10, 11, 99] 12 0).2
      (ANode.leaf 0 [] 0 [1, 2, 3, 4, 5, 6, 7, 8, 9, 10, 11, 12, 13, 36] (0 : Nat))
      (by decide) ?_ (by decide) (by decide)
    rw [minimum_eq_fuel 100000 _ (by decide)]
    rfl

end Adaptive
